import Mathlib

/-!
Verification of the dependency-graph engine in `DependencyGraph.py`
(repository `CS_DependencyGraphs`).

The Python classes `DependencyGraph` / `DependencyNode` are embedded
shallowly: Python dictionaries become insertion-ordered association lists
(Python dicts preserve insertion order, and the program iterates over
`.keys()` / `.values()` in that order), object references become lookups
by name, `timedelta` values become integer numbers of seconds (every
`timedelta` the program ever constructs is a whole number of minutes
combined with `+` and `-`), and exceptions become `Except` results.
-/

namespace DepGraph

/-- Component and node names are Python strings. -/
abbrev CName := String

/-- A Python `timedelta` reachable in this program, represented by its total
number of seconds (all inputs are built with `timedelta(minutes=k)` and are
only ever added and subtracted, so the microsecond field is always zero). -/
abbrev TDelta := Int

/-- The `days` field of a normalized Python `timedelta` (floor division,
matching Python `//` on a positive divisor). -/
def tdDays (t : TDelta) : Int := Int.ediv t 86400

/-- The `seconds` field of a normalized Python `timedelta`, in `[0, 86400)`
(matching Python `%` on a positive divisor). -/
def tdSeconds (t : TDelta) : Int := Int.emod t 86400

/-- The comparison key used by `set_startStopInfoByName`:
`lambda td: td.days + 86400 * td.seconds`. -/
def tdKey (t : TDelta) : Int := tdDays t + 86400 * tdSeconds t

/-- Python `max(xs, key=f)` on a nonempty list: the first element whose key is
maximal (later elements replace the current best only on a strictly greater
key). -/
def pyMaxKey (key : TDelta → Int) : List TDelta → Option TDelta
  | [] => none
  | x :: xs => some (xs.foldl (fun best y => if key y > key best then y else best) x)

/-- Python `min(xs, key=f)` on a nonempty list: the first element whose key is
minimal. -/
def pyMinKey (key : TDelta → Int) : List TDelta → Option TDelta
  | [] => none
  | x :: xs => some (xs.foldl (fun best y => if key y < key best then y else best) x)

/-- The attribute dictionary of a component: the `tstart` (startup duration)
and `tstop` (shutdown duration) keys, the only attributes the engine reads. -/
structure CompAttrs where
  tstart : TDelta
  tstop : TDelta
deriving Repr, DecidableEq, Inhabited

/-- Embedding of `DependencyNode`: the `parents` and `children` dictionaries
are kept as insertion-ordered lists of keys; the node references stored as
dictionary values are recovered by name lookup in the graph. -/
structure DependencyNode where
  name : CName
  attributes : CompAttrs
  parents : List CName
  children : List CName
deriving Repr, DecidableEq, Inhabited

/-- Lookup in the `nodesByName` dictionary. -/
def getNode (ns : List DependencyNode) (x : CName) : Option DependencyNode :=
  ns.find? (fun nd => nd.name == x)

/-- Update the node stored under name `x` (in-place dictionary mutation). -/
def updNode (ns : List DependencyNode) (x : CName) (f : DependencyNode → DependencyNode) :
    List DependencyNode :=
  ns.map (fun nd => if nd.name = x then f nd else nd)

/-- Pointwise update of a dictionary represented as a function. -/
def setf {α : Type} [DecidableEq α] {β : Type} (f : α → β) (x : α) (v : β) : α → β :=
  fun y => if y = x then v else f y

/-- The three node colors of the cycle traversal (`DependencyColor`). -/
inductive DColor where
  | WHITE
  | GRAY
  | BLACK
deriving Repr, DecidableEq

/-- The `DependencyDirection` selector for `set_startStopInfoByName`. -/
inductive DependencyDirection where
  | STARTUP
  | SHUTDOWN
deriving Repr, DecidableEq

/-- The exceptions construction can raise: `DependencyCycleException`,
`ValueError`, `DependencyDuplicateDependencyException`.  The `outOfFuel`
marker is an artifact of expressing the Python `while` loops by recursion on
a fuel bound chosen from the loop measure; it is proved unreachable. -/
inductive BuildErr where
  | cycleErr (msg : String)
  | valueErr (msg : String)
  | dupDepErr (msg : String)
  | outOfFuel
deriving Repr, DecidableEq

/-- Recognizer for `DependencyCycleException` results. -/
def BuildErr.isCycle : BuildErr → Bool
  | .cycleErr _ => true
  | _ => false

/-- The mutable state manipulated by `init_check_for_cycles` and
`init_check_for_cycles_roots`: the node dictionary, the FIFO work list
(`roots` parameter, storing node references, here names), the
`nodeColorByName` and `indegreeByName` dictionaries (total functions; the
program only ever reads them at existing node names), the accumulated
`start_tsorted_names`, the `rejected_dependencies` list, and the
`rootsByName` key list (extended during non-strict remediation). -/
structure CState where
  nodes : List DependencyNode
  queue : List CName
  colors : CName → DColor
  indeg : CName → Int
  tsorted : List CName
  rejected : List (CName × CName)
  roots : List CName

/-- One step of the `for child_name, child in root.children.items()` loop in
`init_check_for_cycles_roots`: a WHITE child has its indegree decremented and
is appended to the topological order and the queue when the count reaches
zero; a GRAY child raises in strict mode and is queued for deletion
otherwise; a BLACK child is skipped.  The accumulator carries the state and
the `childrenToBeDeletedByName` key list. -/
def scanChild (is_strict : Bool) (_rootName : CName)
    (acc : Except BuildErr (CState × List CName)) (c : CName) :
    Except BuildErr (CState × List CName) :=
  match acc with
  | .error e => .error e
  | .ok (s, toDel) =>
    match s.colors c with
    | .WHITE =>
      let d := s.indeg c - 1
      if d = 0 then
        .ok ({ s with indeg := setf s.indeg c d,
                      tsorted := s.tsorted ++ [c],
                      queue := s.queue ++ [c] }, toDel)
      else
        .ok ({ s with indeg := setf s.indeg c d }, toDel)
    | .GRAY =>
      if is_strict then .error (.cycleErr "Back-edge found")
      else .ok (s, toDel ++ [c])
    | .BLACK => .ok (s, toDel)

/-- Dictionary deletion `del nd.parents[a]`. -/
def eraseParentFn (a : CName) : DependencyNode → DependencyNode :=
  fun nd => { nd with parents := nd.parents.erase a }

/-- Dictionary deletion `del nd.children[b]`. -/
def eraseChildFn (b : CName) : DependencyNode → DependencyNode :=
  fun nd => { nd with children := nd.children.erase b }

/-- Dictionary insertion `nd.parents[a] = ...`. -/
def addParentFn (a : CName) : DependencyNode → DependencyNode :=
  fun nd => { nd with parents := nd.parents ++ [a] }

/-- Dictionary insertion `nd.children[b] = ...`. -/
def addChildFn (b : CName) : DependencyNode → DependencyNode :=
  fun nd => { nd with children := nd.children ++ [b] }

/-- The edge-removal step shared by back-edge deletion and incoming-edge
stripping: `del b.parents[a]; del a.children[b];
self.rejected_dependencies.append((a, b))`. -/
def removeEdge (s : CState) (a b : CName) : CState :=
  { s with
    nodes := updNode (updNode s.nodes b (eraseParentFn a)) a (eraseChildFn b),
    rejected := s.rejected ++ [(a, b)] }

/-- The `for child_name, child in childrenToBeDeletedByName.items()` loop:
unlink parent and child in both directions and record the rejected
dependency. -/
def deleteBackEdges (rootName : CName) (toDel : List CName) (s : CState) : CState :=
  toDel.foldl (fun s c => removeEdge s rootName c) s

/-- The size of the `while roots:` loop problem, used as a fuel bound:
each node still WHITE contributes one plus its (clamped) remaining indegree,
plus the current queue length.  Proved to decrease strictly at every
iteration of `bfsLoop`. -/
def whiteDegSum (s : CState) : Nat :=
  (s.nodes.map (fun nd =>
    if s.colors nd.name = DColor.WHITE then 1 + (s.indeg nd.name).toNat else 0)).sum

/-- Fuel measure for `bfsLoop`. -/
def cMeasure (s : CState) : Nat := whiteDegSum s + s.queue.length

/-- One iteration of the `while roots:` loop of
`init_check_for_cycles_roots`, after the front node `rn` has been popped:
mark it GRAY, scan its children, delete the collected back edges, and mark
it BLACK.  The queue stores node references in Python, so the name lookup
cannot fail there; the `getD` default is never reached. -/
def bfsIterate (is_strict : Bool) (s : CState) (rn : CName) (rest : List CName) :
    Except BuildErr CState :=
  let s1 : CState := { s with queue := rest, colors := setf s.colors rn .GRAY }
  let rootNode := (getNode s1.nodes rn).getD ⟨rn, default, [], []⟩
  match rootNode.children.foldl (scanChild is_strict rn) (.ok (s1, [])) with
  | .error e => .error e
  | .ok (s2, toDel) =>
    let s3 := deleteBackEdges rn toDel s2
    .ok { s3 with colors := setf s3.colors rn .BLACK }

/-- The `while roots:` loop of `init_check_for_cycles_roots`. -/
def bfsLoop (is_strict : Bool) : Nat → CState → Except BuildErr CState
  | 0, _ => .error .outOfFuel
  | fuel + 1, s =>
    match s.queue with
    | [] => .ok s
    | rn :: rest =>
      match bfsIterate is_strict s rn rest with
      | .error e => .error e
      | .ok s' => bfsLoop is_strict fuel s'

/-- `init_check_for_cycles_roots` called on a singleton root list (the only
way the program calls it): mark the root GRAY, append it to the topological
order, seed the queue with it and run the loop. -/
def seedAndRun (is_strict : Bool) (rn : CName) (s : CState) : Except BuildErr CState :=
  let s1 : CState := { s with colors := setf s.colors rn .GRAY,
                              tsorted := s.tsorted ++ [rn],
                              queue := [rn] }
  bfsLoop is_strict (cMeasure s1 + 1) s1

/-- The edge-stripping step of non-strict remediation: delete every remaining
incoming edge of the unvisited node `u` (both directions) and record each as
rejected, iterating over the snapshot of the parent key list. -/
def stripIncoming (u : CName) (s : CState) : CState :=
  let parentNames := ((getNode s.nodes u).getD ⟨u, default, [], []⟩).parents
  parentNames.foldl (fun s p => removeEdge s p u) s

/-- The `[name for name in self.nodesByName.keys() if WHITE]` comprehension. -/
def whiteNames (s : CState) : List CName :=
  (s.nodes.map (fun nd => nd.name)).filter (fun x => s.colors x = DColor.WHITE)

/-- The `while len(unvisited_node_names) > 0:` loop of non-strict
remediation: take the last unvisited name (`list.pop()`), strip its incoming
edges, promote it to a root, re-run the traversal seeded from it, and
recompute the unvisited list. -/
def whileLoop (is_strict : Bool) : Nat → CState → Except BuildErr CState
  | 0, _ => .error .outOfFuel
  | fuel + 1, s =>
    match (whiteNames s).getLast? with
    | none => .ok s
    | some u =>
      let s1 := stripIncoming u s
      let s2 : CState := { s1 with roots := s1.roots ++ [u] }
      match seedAndRun is_strict u s2 with
      | .error e => .error e
      | .ok s3 => whileLoop is_strict fuel s3

/-- The state at the top of `init_check_for_cycles`: every node colored
WHITE and the indegree dictionary set to each node's parent count. -/
def resetState (s0 : CState) : CState :=
  { s0 with
    colors := fun _ => DColor.WHITE,
    indeg := fun x =>
      ((getNode s0.nodes x).map (fun nd => (nd.parents.length : Int))).getD 0 }

/-- `init_check_for_cycles`: initialize the color and indegree dictionaries,
run the traversal from every current root, then either raise (strict mode
with unvisited nodes remaining) or remediate, and leave the final state. -/
def initCheckForCycles (is_strict : Bool) (s0 : CState) : Except BuildErr CState :=
  let s : CState :=
    { s0 with
      colors := fun _ => DColor.WHITE,
      indeg := fun x =>
        ((getNode s0.nodes x).map (fun nd => (nd.parents.length : Int))).getD 0 }
  match s.roots.foldl (fun (acc : Except BuildErr CState) r =>
      match acc with
      | .error e => .error e
      | .ok st => seedAndRun is_strict r st) (.ok s) with
  | .error e => .error e
  | .ok s1 =>
    if (whiteNames s1).isEmpty then .ok s1
    else if is_strict then
      .error (.cycleErr ("One or more cycles exist among the following nodes: "
        ++ String.intercalate ", " (whiteNames s1)))
    else
      whileLoop is_strict ((whiteNames s1).length + 1) s1

/-- `add_node`: raise `ValueError` on a duplicate name, else insert a node
with empty edge dictionaries. -/
def addNode (ns : List DependencyNode) (nm : CName) (attrs : CompAttrs) :
    Except BuildErr (List DependencyNode) :=
  if (getNode ns nm).isSome then
    .error (.valueErr ("Attempt to duplicate component identifier " ++ nm))
  else .ok (ns ++ [⟨nm, attrs, [], []⟩])

/-- `init_nodes`: add one node per component, in dictionary order. -/
def initNodes (components : List (CName × CompAttrs)) :
    Except BuildErr (List DependencyNode) :=
  components.foldl (fun (acc : Except BuildErr (List DependencyNode)) p =>
    match acc with
    | .error e => .error e
    | .ok ns => addNode ns p.1 p.2) (.ok [])

/-- One dependency record of `init_edges`: validate both endpoints, reject a
duplicate dependency, then link parent and child in both directions. -/
def addEdge (ns : List DependencyNode) (compName reqName : CName) :
    Except BuildErr (List DependencyNode) :=
  match getNode ns compName with
  | none => .error (.valueErr ("Dependency has unknown component " ++ compName))
  | some comp =>
    match getNode ns reqName with
    | none => .error (.valueErr ("Dependecy on unknown component " ++ reqName))
    | some _ =>
      if reqName ∈ comp.children then
        .error (.dupDepErr ("(" ++ compName ++ " --> " ++ reqName ++ ")"))
      else
        .ok (updNode (updNode ns compName (addChildFn reqName))
          reqName (addParentFn compName))

/-- `init_edges`: add every dependency, then compute the initial root key
list as the nodes with an empty parent dictionary, in node order. -/
def initEdges (ns0 : List DependencyNode) (dependencies : List (CName × CName)) :
    Except BuildErr (List DependencyNode × List CName) :=
  match dependencies.foldl (fun (acc : Except BuildErr (List DependencyNode)) d =>
      match acc with
      | .error e => .error e
      | .ok ns => addEdge ns d.1 d.2) (.ok ns0) with
  | .error e => .error e
  | .ok ns => .ok (ns, (ns.filter (fun nd => nd.parents.isEmpty)).map (fun nd => nd.name))

/-- One entry of the `startStopInfoByName` dictionary: the four optional
begin/end keys a node may carry. -/
structure SSInfo where
  beginStartup : Option TDelta := none
  endStartup : Option TDelta := none
  beginShutdown : Option TDelta := none
  endShutdown : Option TDelta := none
deriving Repr, DecidableEq, Inhabited

/-- Embedding of a constructed `DependencyGraph` object (the attributes the
engine exposes after `__init__`). -/
structure DependencyGraph where
  nodesByName : List DependencyNode
  rootsByName : List CName
  leavesByName : List CName
  startStopInfoByName : List (CName × SSInfo)
  start_tsorted_names : List CName
  rejected_dependencies : List (CName × CName)
  is_strict : Bool
  verbosity : Int
deriving Repr, DecidableEq

/-- `DependencyGraph.__init__` minus the verbosity bookkeeping (the
`verbosity` argument is stored and read only by the `vprint` diagnostic
printer and a `print` of `xml_str`, neither of which mutates the graph). -/
def buildCore (components : List (CName × CompAttrs)) (dependencies : List (CName × CName))
    (is_strict : Bool) : Except BuildErr DependencyGraph :=
  match initNodes components with
  | .error e => .error e
  | .ok ns =>
    match initEdges ns dependencies with
    | .error e => .error e
    | .ok (ns2, rootNames) =>
      let s0 : CState :=
        { nodes := ns2, queue := [], colors := fun _ => DColor.WHITE,
          indeg := fun _ => 0, tsorted := [], rejected := [], roots := rootNames }
      match initCheckForCycles is_strict s0 with
      | .error e => .error e
      | .ok s1 =>
        .ok { nodesByName := s1.nodes,
              rootsByName := s1.roots,
              leavesByName :=
                ((s1.nodes.filter (fun nd => nd.children.isEmpty)).map (fun nd => nd.name)),
              startStopInfoByName := [],
              start_tsorted_names := s1.tsorted,
              rejected_dependencies := s1.rejected,
              is_strict := is_strict,
              verbosity := 0 }

/-- Full `DependencyGraph.__init__`: the core construction plus storing the
verbosity level. -/
def build (components : List (CName × CompAttrs)) (dependencies : List (CName × CName))
    (is_strict : Bool) (verbosity : Int) : Except BuildErr DependencyGraph :=
  (buildCore components dependencies is_strict).map (fun g => { g with verbosity := verbosity })

/-- Lookup in the `startStopInfoByName` dictionary. -/
def lookupSS (m : List (CName × SSInfo)) (x : CName) : Option SSInfo :=
  (m.find? (fun p => p.1 == x)).map (fun p => p.2)

/-- In-place update of one entry of the `startStopInfoByName` dictionary. -/
def setSS (m : List (CName × SSInfo)) (x : CName) (e : SSInfo) : List (CName × SSInfo) :=
  m.map (fun p => if p.1 = x then (p.1, e) else p)

/-- The reference key read from a neighbor entry: `END_STARTUP_KEY` for the
startup pass, `BEGIN_SHUTDOWN_KEY` for the shutdown pass (a missing key is a
Python `KeyError`, embedded as `none`). -/
def refRead (dir : DependencyDirection) (e : SSInfo) : Option TDelta :=
  match dir with
  | .STARTUP => e.endStartup
  | .SHUTDOWN => e.beginShutdown

/-- The body of the `for name in dg_strategy[tsorted_names]:` loop of
`set_startStopInfoByName` for one node name: create the entry if missing,
compute the reference time from the strategy neighbors (`parents` for
startup with `max`, `children` for shutdown with `min`, both under the key
`td.days + 86400 * td.seconds`), and update the entry.  `none` models an
uncaught `KeyError`. -/
def ssStep (g : DependencyGraph) (dir : DependencyDirection)
    (acc : Option (List (CName × SSInfo))) (nm : CName) : Option (List (CName × SSInfo)) :=
  match acc with
  | none => none
  | some m0 =>
    let m := if (lookupSS m0 nm).isSome then m0 else m0 ++ [(nm, {})]
    match getNode g.nodesByName nm with
    | none => none
    | some node =>
      let parentNames :=
        match dir with
        | .STARTUP => node.parents
        | .SHUTDOWN => node.children
      let refOpt : Option TDelta :=
        if parentNames.isEmpty then some 0
        else
          match parentNames.mapM (fun p => (lookupSS m p).bind (refRead dir)) with
          | none => none
          | some refs =>
            match dir with
            | .STARTUP => pyMaxKey tdKey refs
            | .SHUTDOWN => pyMinKey tdKey refs
      match refOpt with
      | none => none
      | some refTime =>
        let oldEntry := (lookupSS m nm).getD {}
        let newEntry :=
          match dir with
          | .STARTUP =>
            { oldEntry with
              beginStartup := some refTime,
              endStartup := some (refTime + node.attributes.tstart) }
          | .SHUTDOWN =>
            { oldEntry with
              beginShutdown := some (refTime - node.attributes.tstop),
              endShutdown := some refTime }
        some (setSS m nm newEntry)

/-- `set_startStopInfoByName`: walk the stored topological order (forward for
startup, reversed for shutdown) and fill in the timing dictionary.  Only the
`startStopInfoByName` attribute is written. -/
def set_startStopInfoByName (g : DependencyGraph) (dir : DependencyDirection) :
    Option DependencyGraph :=
  let names :=
    match dir with
    | .STARTUP => g.start_tsorted_names
    | .SHUTDOWN => g.start_tsorted_names.reverse
  (names.foldl (ssStep g dir) (some g.startStopInfoByName)).map
    (fun m => { g with startStopInfoByName := m })

/-! Derived views of the data model, used to state the specification. -/

/-- The key list of the `nodesByName` dictionary. -/
def nodeNames (ns : List DependencyNode) : List CName := ns.map (fun nd => nd.name)

/-- The parent key list of the node stored under `x` (empty if absent). -/
def nParents (ns : List DependencyNode) (x : CName) : List CName :=
  ((getNode ns x).map (fun nd => nd.parents)).getD []

/-- The child key list of the node stored under `x` (empty if absent). -/
def nChildren (ns : List DependencyNode) (x : CName) : List CName :=
  ((getNode ns x).map (fun nd => nd.children)).getD []

/-- The edge `a` requires `b`, read from the child dictionaries. -/
def edgeC (ns : List DependencyNode) (a b : CName) : Prop := b ∈ nChildren ns a

/-- The edge `a` requires `b`, read from the parent dictionaries. -/
def edgeP (ns : List DependencyNode) (a b : CName) : Prop := a ∈ nParents ns b

instance (ns : List DependencyNode) (a b : CName) : Decidable (edgeC ns a b) := by
  unfold edgeC; infer_instance

instance (ns : List DependencyNode) (a b : CName) : Decidable (edgeP ns a b) := by
  unfold edgeP; infer_instance

/-- `a` occurs strictly before `b` in the list `l`. -/
def earlierIn (l : List CName) (a b : CName) : Prop :=
  ∃ i j : Fin l.length, i < j ∧ l.get i = a ∧ l.get j = b

instance (l : List CName) (a b : CName) : Decidable (earlierIn l a b) := by
  unfold earlierIn; infer_instance

/-- The edge relation described by an input dependency list. -/
def depRel (dependencies : List (CName × CName)) (a b : CName) : Prop :=
  (a, b) ∈ dependencies

/-- The input dependency list contains a (directed) cycle: a nonempty edge
path from some name back to itself, covering a single self-loop as well as
any cycle of length at least two. -/
def hasCycle (dependencies : List (CName × CName)) : Prop :=
  ∃ a, Relation.TransGen (depRel dependencies) a a

/-- A well-formed construction input: the component dictionary has unique
keys (it is a Python dict), every dependency names two known components, and
no dependency is listed twice. -/
def validInput (components : List (CName × CompAttrs))
    (dependencies : List (CName × CName)) : Prop :=
  (components.map (fun p => p.1)).Nodup ∧
  (∀ d ∈ dependencies,
    d.1 ∈ components.map (fun p => p.1) ∧ d.2 ∈ components.map (fun p => p.1)) ∧
  dependencies.Nodup

instance (components : List (CName × CompAttrs)) (dependencies : List (CName × CName)) :
    Decidable (validInput components dependencies) := by
  unfold validInput; infer_instance

/-- Fallback graph value, used to read off a successful construction. -/
def dgDefault : DependencyGraph :=
  { nodesByName := [], rootsByName := [], leavesByName := [],
    startStopInfoByName := [], start_tsorted_names := [],
    rejected_dependencies := [], is_strict := false, verbosity := 0 }

/-- The graph of a successful construction (the fallback on an error). -/
def getOk (r : Except BuildErr DependencyGraph) : DependencyGraph :=
  match r with
  | .ok g => g
  | .error _ => dgDefault

/-- A three-node chain `a → b → c`, used to exercise the claims. -/
def chainComps : List (CName × CompAttrs) :=
  [("a", ⟨60, 60⟩), ("b", ⟨60, 60⟩), ("c", ⟨60, 60⟩)]

def chainDeps : List (CName × CName) := [("a", "b"), ("b", "c")]

/-- A two-node cycle `a ↔ b`. -/
def cyc2Comps : List (CName × CompAttrs) := [("a", ⟨60, 60⟩), ("b", ⟨60, 60⟩)]

def cyc2Deps : List (CName × CName) := [("a", "b"), ("b", "a")]

/-- A two-cycle plus one extra edge into it: `a ↔ b` and `c → b`. -/
def c6Comps : List (CName × CompAttrs) :=
  [("a", ⟨60, 60⟩), ("b", ⟨60, 60⟩), ("c", ⟨60, 60⟩)]

def c6Deps : List (CName × CName) := [("a", "b"), ("b", "a"), ("c", "b")]

/-- Two parents with startup durations of one day and one minute feeding a
common dependent. -/
def c2Comps : List (CName × CompAttrs) :=
  [("p1", ⟨86400, 60⟩), ("p2", ⟨60, 60⟩), ("n", ⟨60, 60⟩)]

def c2Deps : List (CName × CName) := [("p1", "n"), ("p2", "n")]

/-- Two children with shutdown durations just above and exactly one day
under a common parent. -/
def c3Comps : List (CName × CompAttrs) :=
  [("n", ⟨60, 60⟩), ("c1", ⟨60, 86460⟩), ("c2", ⟨60, 86400⟩)]

def c3Deps : List (CName × CName) := [("n", "c1"), ("n", "c2")]

/-- The extremum the specification describes: a plain maximum over the
`timedelta` values themselves (first maximum on ties), with no key
transposition. -/
def specMax : List TDelta → Option TDelta := pyMaxKey (fun t => t)

/-- The plain minimum the specification describes for the shutdown pass. -/
def specMin : List TDelta → Option TDelta := pyMinKey (fun t => t)

/-- The neighbor key list the schedule pass reads for one node: the parent
dictionary for startup, the child dictionary for shutdown (empty when the
node is missing). -/
def nbrList (g : DependencyGraph) (dir : DependencyDirection) (nm : CName) :
    List CName :=
  match getNode g.nodesByName nm with
  | none => []
  | some node =>
    match dir with
    | .STARTUP => node.parents
    | .SHUTDOWN => node.children

/-- The reference-time computation of `ssStep`, split out for reasoning. -/
def refOptFun (g : DependencyGraph) (dir : DependencyDirection)
    (m : List (CName × SSInfo)) (node : DependencyNode) : Option TDelta :=
  let parentNames :=
    match dir with
    | .STARTUP => node.parents
    | .SHUTDOWN => node.children
  if parentNames.isEmpty then some 0
  else
    match parentNames.mapM (fun p => (lookupSS m p).bind (refRead dir)) with
    | none => none
    | some refs =>
      match dir with
      | .STARTUP => pyMaxKey tdKey refs
      | .SHUTDOWN => pyMinKey tdKey refs

/-- The entry update of `ssStep`, split out for reasoning. -/
def newEntryFun (dir : DependencyDirection) (refTime : TDelta)
    (node : DependencyNode) (oldEntry : SSInfo) : SSInfo :=
  match dir with
  | .STARTUP =>
    { oldEntry with
      beginStartup := some refTime,
      endStartup := some (refTime + node.attributes.tstart) }
  | .SHUTDOWN =>
    { oldEntry with
      beginShutdown := some (refTime - node.attributes.tstop),
      endShutdown := some refTime }

/-- Boolean test: the color of `p` is not BLACK. -/
def nbPred (col : CName → DColor) (p : CName) : Bool :=
  match col p with
  | DColor.BLACK => false
  | _ => true

/-- The number of entries of a key list whose color is not BLACK. -/
def ncount (col : CName → DColor) (l : List CName) : ℕ :=
  l.countP (nbPred col)

structure Inv (E0 : List (CName × CName)) (N0 : List CName) (pend : List CName)
    (s : CState) : Prop where
  names_eq : nodeNames s.nodes = N0
  names_nd : N0.Nodup
  ch_nd : ∀ x, (nChildren s.nodes x).Nodup
  pa_nd : ∀ x, (nParents s.nodes x).Nodup
  ch_cl : ∀ x y, edgeC s.nodes x y → y ∈ N0
  sym : ∀ x y, edgeC s.nodes x y ↔ edgeP s.nodes x y
  union : ∀ x y, (x, y) ∈ E0 ↔ (edgeC s.nodes x y ∨ (x, y) ∈ s.rejected)
  rej_dj : ∀ x y, (x, y) ∈ s.rejected → ¬ edgeC s.nodes x y
  q_cl : ∀ x ∈ s.queue, x ∈ N0
  q_nd : s.queue.Nodup
  q_col : ∀ x ∈ s.queue, s.colors x ≠ DColor.BLACK
  gray_hd : ∀ x, s.colors x = DColor.GRAY → ∃ rest, s.queue = x :: rest
  col_out : ∀ x, x ∉ N0 → s.colors x = DColor.WHITE
  qinv : ∀ x ∈ N0, s.colors x = DColor.WHITE → x ∉ pend →
    s.indeg x = (ncount s.colors (nParents s.nodes x) : Int)
  zinv : ∀ x ∈ s.queue, s.colors x = DColor.WHITE → s.indeg x = 0
  winv : ∀ x ∈ N0, s.colors x = DColor.WHITE → s.indeg x = 0 →
    x ∈ s.queue ∨ x ∈ pend
  t_iff : ∀ x, x ∈ s.tsorted ↔ (s.colors x ≠ DColor.WHITE ∨ x ∈ s.queue)
  t_nd : s.tsorted.Nodup
  porder : ∀ x y, edgeC s.nodes x y → y ∈ s.tsorted → earlierIn s.tsorted x y
  pend_pl : ∀ x ∈ pend, nParents s.nodes x = [] ∧ x ∈ N0
  pend_wh : ∀ x ∈ pend, s.colors x = DColor.WHITE
  pend_q : ∀ x ∈ pend, x ∉ s.queue
  pend_nd : pend.Nodup

/-- The children enqueued during one scan: WHITE with remaining indegree 1. -/
def dqPred (col : CName → DColor) (ind : CName → Int) (c : CName) : Bool :=
  match col c with
  | DColor.WHITE => ind c == 1
  | _ => false

/-- The enqueued sublist of a child list. -/
def deltaQ (col : CName → DColor) (ind : CName → Int) (cs : List CName) : List CName :=
  cs.filter (dqPred col ind)

/-- Boolean test for a GRAY color. -/
def gPred (col : CName → DColor) (c : CName) : Bool :=
  match col c with
  | DColor.GRAY => true
  | _ => false

/-- The GRAY sublist of a child list (the back-edge targets to delete). -/
def grayList (col : CName → DColor) (cs : List CName) : List CName :=
  cs.filter (gPred col)

/-! Basic lemmas about the dictionary operations. -/

theorem getNode_mem {ns : List DependencyNode} {x : CName} {nd : DependencyNode}
    (h : getNode ns x = some nd) : nd ∈ ns ∧ nd.name = x := by
  refine ⟨List.mem_of_find?_eq_some h, ?_⟩
  have := List.find?_some h
  simpa using this

theorem nodeNames_cons {nd0 : DependencyNode} {tl : List DependencyNode} :
    nodeNames (nd0 :: tl) = nd0.name :: nodeNames tl := rfl

theorem getNode_cons_of_name {nd0 : DependencyNode} {tl : List DependencyNode} {y : CName}
    (h : nd0.name = y) : getNode (nd0 :: tl) y = some nd0 := by
  unfold getNode
  rw [List.find?_cons_of_pos]
  simp [h]

theorem getNode_cons_of_ne {nd0 : DependencyNode} {tl : List DependencyNode} {y : CName}
    (h : nd0.name ≠ y) : getNode (nd0 :: tl) y = getNode tl y := by
  unfold getNode
  rw [List.find?_cons_of_neg]
  simp [h]

theorem getNode_isSome_iff {ns : List DependencyNode} {x : CName} :
    (getNode ns x).isSome ↔ x ∈ nodeNames ns := by
  rw [getNode, List.find?_isSome, nodeNames]
  constructor
  · rintro ⟨nd, hmem, hbeq⟩
    have hname : nd.name = x := by simpa using hbeq
    rw [← hname]
    exact List.mem_map_of_mem _ hmem
  · intro hx
    rcases List.mem_map.mp hx with ⟨nd, hmem, hname⟩
    exact ⟨nd, hmem, by simp [hname]⟩

theorem getNode_eq_some_of_mem {ns : List DependencyNode} {nd : DependencyNode}
    (hd : (nodeNames ns).Nodup) (h : nd ∈ ns) : getNode ns nd.name = some nd := by
  induction ns with
  | nil => cases h
  | cons nd0 tl ih =>
    rw [nodeNames_cons] at hd
    obtain ⟨hnm, hd2⟩ := List.nodup_cons.mp hd
    rcases List.mem_cons.mp h with h1 | h1
    · subst h1; exact getNode_cons_of_name rfl
    · have hne : nd0.name ≠ nd.name := by
        intro he
        refine hnm ?_
        rw [he]
        exact List.mem_map_of_mem _ h1
      rw [getNode_cons_of_ne hne]
      exact ih hd2 h1

theorem nodeNames_updNode {ns : List DependencyNode} {x : CName}
    {f : DependencyNode → DependencyNode} (hf : ∀ nd, (f nd).name = nd.name) :
    nodeNames (updNode ns x f) = nodeNames ns := by
  simp only [nodeNames, updNode, List.map_map]
  refine List.map_congr_left (fun nd _ => ?_)
  by_cases h : nd.name = x <;> simp [h, hf]

theorem updNode_cons {nd0 : DependencyNode} {tl : List DependencyNode} {x : CName}
    {f : DependencyNode → DependencyNode} :
    updNode (nd0 :: tl) x f = (if nd0.name = x then f nd0 else nd0) :: updNode tl x f := rfl

theorem getNode_updNode {ns : List DependencyNode} {x y : CName}
    {f : DependencyNode → DependencyNode} (hf : ∀ nd, (f nd).name = nd.name) :
    getNode (updNode ns x f) y =
      if y = x then (getNode ns y).map f else getNode ns y := by
  induction ns with
  | nil => by_cases h : y = x <;> simp [getNode, updNode, h]
  | cons nd0 tl ih =>
    rw [updNode_cons]
    by_cases hx : nd0.name = x
    · rw [if_pos hx]
      by_cases hy : nd0.name = y
      · have hxy : y = x := by rw [← hy]; exact hx
        rw [getNode_cons_of_name (by rw [hf]; exact hy), getNode_cons_of_name hy,
          if_pos hxy]
        rfl
      · rw [getNode_cons_of_ne (by rw [hf]; exact hy), getNode_cons_of_ne hy, ih]
    · rw [if_neg hx]
      by_cases hy : nd0.name = y
      · have hxy : ¬ y = x := by rw [← hy]; exact hx
        rw [getNode_cons_of_name hy, getNode_cons_of_name hy, if_neg hxy]
      · rw [getNode_cons_of_ne hy, getNode_cons_of_ne hy, ih]

theorem nParents_updNode_other {ns : List DependencyNode} {x y : CName}
    {f : DependencyNode → DependencyNode} (hf : ∀ nd, (f nd).name = nd.name)
    (hxy : x ≠ y) : nParents (updNode ns y f) x = nParents ns x := by
  unfold nParents
  rw [getNode_updNode hf, if_neg hxy]

theorem nChildren_updNode_other {ns : List DependencyNode} {x y : CName}
    {f : DependencyNode → DependencyNode} (hf : ∀ nd, (f nd).name = nd.name)
    (hxy : x ≠ y) : nChildren (updNode ns y f) x = nChildren ns x := by
  unfold nChildren
  rw [getNode_updNode hf, if_neg hxy]

theorem nParents_updNode_keep {ns : List DependencyNode} {x y : CName}
    {f : DependencyNode → DependencyNode} (hf : ∀ nd, (f nd).name = nd.name)
    (hp : ∀ nd, (f nd).parents = nd.parents) :
    nParents (updNode ns y f) x = nParents ns x := by
  unfold nParents
  rw [getNode_updNode hf]
  by_cases h : x = y
  · rw [if_pos h]
    cases getNode ns x <;> simp [hp]
  · rw [if_neg h]

theorem nChildren_updNode_keep {ns : List DependencyNode} {x y : CName}
    {f : DependencyNode → DependencyNode} (hf : ∀ nd, (f nd).name = nd.name)
    (hc : ∀ nd, (f nd).children = nd.children) :
    nChildren (updNode ns y f) x = nChildren ns x := by
  unfold nChildren
  rw [getNode_updNode hf]
  by_cases h : x = y
  · rw [if_pos h]
    cases getNode ns x <;> simp [hc]
  · rw [if_neg h]

/-! Characterization of `removeEdge`. -/

theorem removeEdge_colors {s : CState} {a b : CName} :
    (removeEdge s a b).colors = s.colors := rfl

theorem removeEdge_indeg {s : CState} {a b : CName} :
    (removeEdge s a b).indeg = s.indeg := rfl

theorem removeEdge_queue {s : CState} {a b : CName} :
    (removeEdge s a b).queue = s.queue := rfl

theorem removeEdge_tsorted {s : CState} {a b : CName} :
    (removeEdge s a b).tsorted = s.tsorted := rfl

theorem removeEdge_roots {s : CState} {a b : CName} :
    (removeEdge s a b).roots = s.roots := rfl

theorem removeEdge_rejected {s : CState} {a b : CName} :
    (removeEdge s a b).rejected = s.rejected ++ [(a, b)] := rfl

theorem eraseParentFn_name (a : CName) : ∀ nd, (eraseParentFn a nd).name = nd.name :=
  fun _ => rfl

theorem eraseChildFn_name (b : CName) : ∀ nd, (eraseChildFn b nd).name = nd.name :=
  fun _ => rfl

theorem addParentFn_name (a : CName) : ∀ nd, (addParentFn a nd).name = nd.name :=
  fun _ => rfl

theorem addChildFn_name (b : CName) : ∀ nd, (addChildFn b nd).name = nd.name :=
  fun _ => rfl

theorem nodeNames_removeEdge {s : CState} {a b : CName} :
    nodeNames (removeEdge s a b).nodes = nodeNames s.nodes := by
  show nodeNames (updNode (updNode s.nodes b (eraseParentFn a)) a (eraseChildFn b)) = _
  rw [nodeNames_updNode (eraseChildFn_name b), nodeNames_updNode (eraseParentFn_name a)]

theorem nChildren_removeEdge {s : CState} {a b x : CName} :
    nChildren (removeEdge s a b).nodes x =
      if x = a then (nChildren s.nodes x).erase b else nChildren s.nodes x := by
  show nChildren (updNode (updNode s.nodes b (eraseParentFn a)) a (eraseChildFn b)) x = _
  unfold nChildren
  rw [getNode_updNode (eraseChildFn_name b), getNode_updNode (eraseParentFn_name a)]
  by_cases ha : x = a
  · by_cases hb : x = b
    · rw [if_pos ha, if_pos hb, if_pos ha]
      cases getNode s.nodes x <;> simp [eraseChildFn, eraseParentFn]
    · rw [if_pos ha, if_neg hb, if_pos ha]
      cases getNode s.nodes x <;> simp [eraseChildFn]
  · by_cases hb : x = b
    · rw [if_neg ha, if_pos hb, if_neg ha]
      cases getNode s.nodes x <;> simp [eraseParentFn]
    · rw [if_neg ha, if_neg hb, if_neg ha]

theorem nParents_removeEdge {s : CState} {a b x : CName} :
    nParents (removeEdge s a b).nodes x =
      if x = b then (nParents s.nodes x).erase a else nParents s.nodes x := by
  show nParents (updNode (updNode s.nodes b (eraseParentFn a)) a (eraseChildFn b)) x = _
  unfold nParents
  rw [getNode_updNode (eraseChildFn_name b), getNode_updNode (eraseParentFn_name a)]
  by_cases ha : x = a
  · by_cases hb : x = b
    · rw [if_pos ha, if_pos hb, if_pos hb]
      cases getNode s.nodes x <;> simp [eraseChildFn, eraseParentFn]
    · rw [if_pos ha, if_neg hb, if_neg hb]
      cases getNode s.nodes x <;> simp [eraseChildFn]
  · by_cases hb : x = b
    · rw [if_neg ha, if_pos hb, if_pos hb]
      cases getNode s.nodes x <;> simp [eraseParentFn]
    · rw [if_neg ha, if_neg hb, if_neg hb]

/-! Lemmas about positional order in a list. -/

theorem earlierIn_mem_left {l : List CName} {a b : CName} (h : earlierIn l a b) :
    a ∈ l := by
  obtain ⟨i, j, _, hia, _⟩ := h
  rw [← hia]
  exact List.get_mem l i.1 i.2

theorem earlierIn_mem_right {l : List CName} {a b : CName} (h : earlierIn l a b) :
    b ∈ l := by
  obtain ⟨i, j, _, _, hjb⟩ := h
  rw [← hjb]
  exact List.get_mem l j.1 j.2

theorem earlierIn_append_left {l t : List CName} {a b : CName} (h : earlierIn l a b) :
    earlierIn (l ++ t) a b := by
  obtain ⟨i, j, hij, hia, hjb⟩ := h
  have hi : (i : ℕ) < (l ++ t).length := by
    rw [List.length_append]; omega
  have hj : (j : ℕ) < (l ++ t).length := by
    rw [List.length_append]; omega
  refine ⟨⟨i, hi⟩, ⟨j, hj⟩, hij, ?_, ?_⟩
  · rw [List.get_eq_getElem, List.getElem_append_left i.2, ← List.get_eq_getElem l, hia]
  · rw [List.get_eq_getElem, List.getElem_append_left j.2, ← List.get_eq_getElem l, hjb]

theorem earlierIn_append_cross {l t : List CName} {a b : CName}
    (ha : a ∈ l) (hb : b ∈ t) : earlierIn (l ++ t) a b := by
  obtain ⟨i, hia⟩ := List.mem_iff_get.mp ha
  obtain ⟨k, hkb⟩ := List.mem_iff_get.mp hb
  have hi : (i : ℕ) < (l ++ t).length := by
    rw [List.length_append]; omega
  have hj : l.length + (k : ℕ) < (l ++ t).length := by
    rw [List.length_append]; omega
  refine ⟨⟨i, hi⟩, ⟨l.length + k, hj⟩, Fin.mk_lt_mk.mpr (by have := i.2; omega), ?_, ?_⟩
  · rw [List.get_eq_getElem, List.getElem_append_left i.2, ← List.get_eq_getElem l, hia]
  · rw [List.get_eq_getElem, List.getElem_append_right (Nat.le_add_right l.length k)]
    simp only [Nat.add_sub_cancel_left]
    rw [← List.get_eq_getElem t, hkb]

theorem earlierIn_irrefl {l : List CName} (hd : l.Nodup) (a : CName) :
    ¬ earlierIn l a a := by
  rintro ⟨i, j, hij, hia, hja⟩
  have : i = j := (List.Nodup.get_inj_iff hd).mp (by rw [hia, hja])
  omega

theorem earlierIn_trans {l : List CName} (hd : l.Nodup) {a b c : CName}
    (h1 : earlierIn l a b) (h2 : earlierIn l b c) : earlierIn l a c := by
  obtain ⟨i, j, hij, hia, hjb⟩ := h1
  obtain ⟨k, m, hkm, hkb, hmc⟩ := h2
  have hjk : j = k := (List.Nodup.get_inj_iff hd).mp (by rw [hjb, hkb])
  exact ⟨i, m, by omega, hia, hmc⟩

theorem earlierIn_transGen {l : List CName} (hd : l.Nodup) {R : CName → CName → Prop}
    (hR : ∀ x y, R x y → earlierIn l x y) {a b : CName}
    (h : Relation.TransGen R a b) : earlierIn l a b := by
  induction h with
  | single h1 => exact hR _ _ h1
  | tail _ h2 ih => exact earlierIn_trans hd ih (hR _ _ h2)

/-! Arithmetic helpers for the loop measure. -/

theorem countP_lt_countP {l : List CName} (p q : CName → Bool)
    (hpq : ∀ x ∈ l, q x = true → p x = true) (u : CName) (hu : u ∈ l)
    (hpu : p u = true) (hqu : q u = false) :
    l.countP q < l.countP p := by
  induction l with
  | nil => cases hu
  | cons x t ih =>
    rw [List.countP_cons, List.countP_cons]
    by_cases hqx : q x = true
    · have hpx : p x = true := hpq x (List.mem_cons_self x t) hqx
      have hut : u ∈ t := by
        rcases List.mem_cons.mp hu with h | h
        · exact absurd hqx (by rw [← h, hqu]; simp)
        · exact h
      have := ih (fun y hy => hpq y (List.mem_cons_of_mem x hy)) hut
      simp [hqx, hpx]
      omega
    · have hqx' : q x = false := by
        cases hq2 : q x
        · rfl
        · exact absurd hq2 hqx
      rcases List.mem_cons.mp hu with h | h
      · subst h
        have hmono : t.countP q ≤ t.countP p := List.countP_mono_left
          (fun y hy => hpq y (List.mem_cons_of_mem _ hy))
        simp [hqx', hpu]
        omega
      · have hlt := ih (fun y hy => hpq y (List.mem_cons_of_mem x hy)) h
        by_cases hpx : p x = true <;> simp [hqx', hpx] <;> omega

theorem sum_map_split {l : List CName} (f g : CName → ℕ) (h : ∀ x ∈ l, g x ≤ f x) :
    (l.map f).sum = (l.map g).sum + (l.map (fun x => f x - g x)).sum := by
  induction l with
  | nil => rfl
  | cons x t ih =>
    simp only [List.map_cons, List.sum_cons]
    have h1 := h x (List.mem_cons_self x t)
    have h2 := ih (fun y hy => h y (List.mem_cons_of_mem x hy))
    omega

theorem nodup_sub_le_countP {sub l : List CName} (p : CName → Bool) (hs : sub.Nodup)
    (h : ∀ x ∈ sub, x ∈ l ∧ p x = true) : sub.length ≤ l.countP p := by
  have hsubset : sub ⊆ l.filter p := by
    intro x hx
    rw [List.mem_filter]
    exact ⟨(h x hx).1, (h x hx).2⟩
  calc sub.length ≤ (l.filter p).length := (List.Nodup.subperm hs hsubset).length_le
  _ = l.countP p := (List.countP_eq_length_filter _ _).symm

/-! Pointwise-update lemmas. -/

theorem setf_same {f : CName → DColor} {x : CName} {v : DColor} : setf f x v x = v := by
  simp [setf]

theorem setf_other {f : CName → DColor} {x y : CName} {v : DColor} (h : y ≠ x) :
    setf f x v y = f y := by
  simp [setf, h]

theorem setfI_same {f : CName → Int} {x : CName} {v : Int} : setf f x v x = v := by
  simp [setf]

theorem setfI_other {f : CName → Int} {x y : CName} {v : Int} (h : y ≠ x) :
    setf f x v y = f y := by
  simp [setf, h]

theorem setf_setf_same {f : CName → DColor} {x : CName} {v w : DColor} :
    setf (setf f x v) x w = setf f x w := by
  funext y
  by_cases h : y = x <;> simp [setf, h]


theorem nbPred_true_iff {col : CName → DColor} {p : CName} :
    nbPred col p = true ↔ col p ≠ DColor.BLACK := by
  unfold nbPred
  cases col p <;> simp

theorem nbPred_false_iff {col : CName → DColor} {p : CName} :
    nbPred col p = false ↔ col p = DColor.BLACK := by
  unfold nbPred
  cases col p <;> simp


theorem ncount_congr {col1 col2 : CName → DColor} {l : List CName}
    (h : ∀ p ∈ l, col1 p = col2 p) : ncount col1 l = ncount col2 l := by
  unfold ncount
  refine List.countP_congr (fun p hp => ?_)
  unfold nbPred
  rw [h p hp]

theorem ncount_setf_not_mem {col : CName → DColor} {l : List CName} {x : CName}
    {v : DColor} (h : x ∉ l) : ncount (setf col x v) l = ncount col l :=
  ncount_congr (fun p hp => setf_other (fun he => h (he ▸ hp)))

theorem ncount_setf_black {col : CName → DColor} {l : List CName} {x : CName}
    (hm : x ∈ l) (hnd : l.Nodup) (hc : col x ≠ DColor.BLACK) :
    ncount (setf col x DColor.BLACK) l + 1 = ncount col l := by
  induction l with
  | nil => cases hm
  | cons y t ih =>
    obtain ⟨hy, hndt⟩ := List.nodup_cons.mp hnd
    unfold ncount
    rw [List.countP_cons, List.countP_cons]
    rcases List.mem_cons.mp hm with h | h
    · subst h
      have h1 : nbPred (setf col x DColor.BLACK) x = false := by
        rw [nbPred_false_iff]
        exact setf_same
      have h1b : nbPred col x = true := nbPred_true_iff.mpr hc
      have h2 : ncount (setf col x DColor.BLACK) t = ncount col t :=
        ncount_setf_not_mem hy
      unfold ncount at h2
      rw [h2, h1, h1b]
      simp
    · have hxy : x ≠ y := fun he => hy (he ▸ h)
      have h1 : nbPred (setf col x DColor.BLACK) y = nbPred col y := by
        unfold nbPred
        rw [setf_other (Ne.symm hxy)]
      have h2 := ih h hndt
      unfold ncount at h2
      rw [h1]
      cases nbPred col y <;> simp <;> omega

theorem ncount_nonzero_of_mem {col : CName → DColor} {l : List CName} {x : CName}
    (hm : x ∈ l) (hc : col x ≠ DColor.BLACK) : 1 ≤ ncount col l := by
  have h := @nodup_sub_le_countP [x] l (nbPred col) (List.nodup_singleton x)
    (fun y hy => by
      rw [List.mem_singleton] at hy
      subst hy
      exact ⟨hm, nbPred_true_iff.mpr hc⟩)
  simpa [ncount] using h

theorem ncount_pos_exists {col : CName → DColor} {l : List CName}
    (h : 0 < ncount col l) : ∃ p ∈ l, col p ≠ DColor.BLACK := by
  unfold ncount at h
  rw [List.countP_eq_length_filter] at h
  rcases List.exists_mem_of_length_pos h with ⟨p, hp⟩
  rw [List.mem_filter] at hp
  exact ⟨p, hp.1, nbPred_true_iff.mp hp.2⟩

/-! The invariant maintained by the cycle-resolution traversal.

`E0` is the original input dependency list, `N0` the fixed node key list, and
`pend` the initial roots whose seeding is still pending.  The state `s` is a
snapshot at an iteration boundary of the traversal loops. -/


theorem Inv.edge_left_mem {E0 N0 pend s} (hI : Inv E0 N0 pend s) {x y : CName}
    (h : edgeC s.nodes x y) : x ∈ N0 := by
  unfold edgeC nChildren at h
  cases hg : getNode s.nodes x with
  | none => rw [hg] at h; cases h
  | some nd =>
    rw [← hI.names_eq]
    rw [← getNode_isSome_iff, hg]
    rfl

theorem Inv.rest_white {E0 N0 pend s} (hI : Inv E0 N0 pend s) {rn : CName}
    {rest : List CName} (hq : s.queue = rn :: rest) :
    ∀ x ∈ rest, s.colors x = DColor.WHITE := by
  intro x hx
  have hxq : x ∈ s.queue := by rw [hq]; exact List.mem_cons_of_mem rn hx
  have hnb := hI.q_col x hxq
  cases hc : s.colors x with
  | WHITE => rfl
  | BLACK => exact absurd hc hnb
  | GRAY =>
    obtain ⟨rest2, hq2⟩ := hI.gray_hd x hc
    rw [hq] at hq2
    injection hq2 with h1 h2
    exfalso
    have hnd := hI.q_nd
    rw [hq] at hnd
    have hrn : rn ∉ rest := (List.nodup_cons.mp hnd).1
    refine hrn ?_
    rw [h1]
    exact hx

/-! Closed-form description of the child-scan fold of
`init_check_for_cycles_roots`. -/

theorem dqPred_true_iff {col : CName → DColor} {ind : CName → Int} {c : CName} :
    dqPred col ind c = true ↔ (col c = DColor.WHITE ∧ ind c = 1) := by
  unfold dqPred
  cases h : col c <;> simp [h]

theorem gPred_true_iff {col : CName → DColor} {c : CName} :
    gPred col c = true ↔ col c = DColor.GRAY := by
  unfold gPred
  cases h : col c <;> simp [h]

theorem scanChild_error {strict : Bool} {rn : CName} {e : BuildErr} {c : CName} :
    scanChild strict rn (.error e) c = .error e := rfl

theorem scan_fold_absorb {strict : Bool} {rn : CName} {cs : List CName} {e : BuildErr} :
    cs.foldl (scanChild strict rn) (.error e) = .error e := by
  induction cs with
  | nil => rfl
  | cons c cs ih => rw [List.foldl_cons, scanChild_error]; exact ih

theorem scanChild_white_step {strict : Bool} {rn : CName} {s : CState}
    {tD : List CName} {c : CName} (hcol : s.colors c = DColor.WHITE) :
    scanChild strict rn (.ok (s, tD)) c =
      if s.indeg c - 1 = 0 then
        .ok ({ s with indeg := setf s.indeg c (s.indeg c - 1),
                      tsorted := s.tsorted ++ [c],
                      queue := s.queue ++ [c] }, tD)
      else .ok ({ s with indeg := setf s.indeg c (s.indeg c - 1) }, tD) := by
  unfold scanChild
  dsimp only
  rw [hcol]

theorem scanChild_gray_step {strict : Bool} {rn : CName} {s : CState}
    {tD : List CName} {c : CName} (hcol : s.colors c = DColor.GRAY) :
    scanChild strict rn (.ok (s, tD)) c =
      if strict then .error (.cycleErr "Back-edge found") else .ok (s, tD ++ [c]) := by
  unfold scanChild
  dsimp only
  rw [hcol]

theorem scanChild_black_step {strict : Bool} {rn : CName} {s : CState}
    {tD : List CName} {c : CName} (hcol : s.colors c = DColor.BLACK) :
    scanChild strict rn (.ok (s, tD)) c = .ok (s, tD) := by
  unfold scanChild
  dsimp only
  rw [hcol]

theorem scan_fold_error {strict : Bool} {rn : CName} {cs : List CName}
    (hs : strict = true) :
    ∀ s1 tD0, (∃ c ∈ cs, s1.colors c = DColor.GRAY) →
    cs.foldl (scanChild strict rn) (.ok (s1, tD0)) =
      .error (.cycleErr "Back-edge found") := by
  induction cs with
  | nil =>
    rintro s1 tD0 ⟨c, hc, _⟩
    cases hc
  | cons c cs ih =>
    intro s1 tD0 hex
    rw [List.foldl_cons]
    cases hcol : s1.colors c with
    | GRAY =>
      rw [scanChild_gray_step hcol, if_pos hs]
      exact scan_fold_absorb
    | WHITE =>
      have hc2 : ∃ c2 ∈ cs, s1.colors c2 = DColor.GRAY := by
        obtain ⟨c2, hc2m, hc2g⟩ := hex
        rcases List.mem_cons.mp hc2m with h | h
        · subst h; rw [hcol] at hc2g; cases hc2g
        · exact ⟨c2, h, hc2g⟩
      rw [scanChild_white_step hcol]
      by_cases hd : s1.indeg c - 1 = 0
      · rw [if_pos hd]
        exact ih _ _ hc2
      · rw [if_neg hd]
        exact ih _ _ hc2
    | BLACK =>
      have hc2 : ∃ c2 ∈ cs, s1.colors c2 = DColor.GRAY := by
        obtain ⟨c2, hc2m, hc2g⟩ := hex
        rcases List.mem_cons.mp hc2m with h | h
        · subst h; rw [hcol] at hc2g; cases hc2g
        · exact ⟨c2, h, hc2g⟩
      rw [scanChild_black_step hcol]
      exact ih _ _ hc2

theorem gPred_false_of {col : CName → DColor} {c : CName}
    (h : col c ≠ DColor.GRAY) : gPred col c = false := by
  unfold gPred
  cases hc : col c
  · rfl
  · exact absurd hc h
  · rfl

theorem dqPred_true_of {col : CName → DColor} {ind : CName → Int} {c : CName}
    (h1 : col c = DColor.WHITE) (h2 : ind c = 1) : dqPred col ind c = true := by
  unfold dqPred
  rw [h1, h2]
  rfl

theorem dqPred_false_not_white {col : CName → DColor} {ind : CName → Int} {c : CName}
    (h : col c ≠ DColor.WHITE) : dqPred col ind c = false := by
  unfold dqPred
  cases hc : col c
  · exact absurd hc h
  · rfl
  · rfl

theorem dqPred_false_ind {col : CName → DColor} {ind : CName → Int} {c : CName}
    (h : ind c ≠ 1) : dqPred col ind c = false := by
  unfold dqPred
  cases hc : col c
  · simpa using h
  · rfl
  · rfl

theorem scan_fold_ok {strict : Bool} {rn : CName} :
    ∀ (cs : List CName) (s1 : CState) (tD0 : List CName), cs.Nodup →
    (strict = true → ∀ c ∈ cs, s1.colors c ≠ DColor.GRAY) →
    ∃ s2, cs.foldl (scanChild strict rn) (.ok (s1, tD0)) =
        .ok (s2, tD0 ++ grayList s1.colors cs) ∧
      s2.nodes = s1.nodes ∧ s2.colors = s1.colors ∧ s2.rejected = s1.rejected ∧
      s2.roots = s1.roots ∧
      (∀ x, s2.indeg x =
        if x ∈ cs ∧ s1.colors x = DColor.WHITE then s1.indeg x - 1 else s1.indeg x) ∧
      s2.queue = s1.queue ++ deltaQ s1.colors s1.indeg cs ∧
      s2.tsorted = s1.tsorted ++ deltaQ s1.colors s1.indeg cs := by
  intro cs
  induction cs with
  | nil =>
    intro s1 tD0 _ _
    refine ⟨s1, ?_, rfl, rfl, rfl, rfl, fun x => by simp, ?_, ?_⟩
    · simp [grayList]
    · simp [deltaQ]
    · simp [deltaQ]
  | cons c cs ih =>
    intro s1 tD0 hnd hng
    obtain ⟨hcn, hndcs⟩ := List.nodup_cons.mp hnd
    rw [List.foldl_cons]
    cases hcol : s1.colors c with
    | WHITE =>
      have hglp : gPred s1.colors c = false := gPred_false_of (by rw [hcol]; simp)
      have hgl : grayList s1.colors (c :: cs) = grayList s1.colors cs := by
        unfold grayList
        rw [List.filter_cons, hglp]
        simp
      rw [scanChild_white_step hcol]
      by_cases hd : s1.indeg c - 1 = 0
      · rw [if_pos hd]
        obtain ⟨s2, hfold, hnodes, hcolors, hrej, hroots, hindeg, hqueue, hts⟩ := ih ({ s1 with indeg := setf s1.indeg c (s1.indeg c - 1), tsorted := s1.tsorted ++ [c], queue := s1.queue ++ [c] }) tD0 hndcs (fun hs c2 hc2 => hng hs c2 (List.mem_cons_of_mem c hc2))
        dsimp only at hfold hnodes hcolors hrej hroots hindeg hqueue hts
        have hdq1 : deltaQ s1.colors (setf s1.indeg c (s1.indeg c - 1)) cs
            = deltaQ s1.colors s1.indeg cs := by
          unfold deltaQ
          refine List.filter_congr (fun y hy => ?_)
          unfold dqPred
          rw [setfI_other (fun he => hcn (by rw [← he]; exact hy))]
        have hdqp : dqPred s1.colors s1.indeg c = true :=
          dqPred_true_of hcol (by omega)
        have hdq2 : deltaQ s1.colors s1.indeg (c :: cs)
            = c :: deltaQ s1.colors s1.indeg cs := by
          unfold deltaQ
          rw [List.filter_cons, hdqp]
          simp
        refine ⟨s2, ?_, hnodes, hcolors, hrej, hroots, ?_, ?_, ?_⟩
        · rw [hfold, hgl]
        · intro x
          rw [hindeg x]
          by_cases hxc : x = c
          · subst hxc
            rw [if_neg (fun hcc => hcn hcc.1), setfI_same,
              if_pos ⟨List.mem_cons_self x cs, hcol⟩]
          · rw [setfI_other hxc]
            by_cases hxm : x ∈ cs ∧ s1.colors x = DColor.WHITE
            · rw [if_pos hxm, if_pos ⟨List.mem_cons_of_mem c hxm.1, hxm.2⟩]
            · rw [if_neg hxm,
                if_neg (fun hcc => hxm ⟨(List.mem_cons.mp hcc.1).resolve_left hxc, hcc.2⟩)]
        · rw [hqueue, hdq1, hdq2, List.append_assoc]
          rfl
        · rw [hts, hdq1, hdq2, List.append_assoc]
          rfl
      · rw [if_neg hd]
        obtain ⟨s2, hfold, hnodes, hcolors, hrej, hroots, hindeg, hqueue, hts⟩ := ih ({ s1 with indeg := setf s1.indeg c (s1.indeg c - 1) }) tD0 hndcs (fun hs c2 hc2 => hng hs c2 (List.mem_cons_of_mem c hc2))
        dsimp only at hfold hnodes hcolors hrej hroots hindeg hqueue hts
        have hdq1 : deltaQ s1.colors (setf s1.indeg c (s1.indeg c - 1)) cs
            = deltaQ s1.colors s1.indeg cs := by
          unfold deltaQ
          refine List.filter_congr (fun y hy => ?_)
          unfold dqPred
          rw [setfI_other (fun he => hcn (by rw [← he]; exact hy))]
        have hdqp : dqPred s1.colors s1.indeg c = false :=
          dqPred_false_ind (by omega)
        have hdq2 : deltaQ s1.colors s1.indeg (c :: cs)
            = deltaQ s1.colors s1.indeg cs := by
          unfold deltaQ
          rw [List.filter_cons, hdqp]
          simp
        refine ⟨s2, ?_, hnodes, hcolors, hrej, hroots, ?_, ?_, ?_⟩
        · rw [hfold, hgl]
        · intro x
          rw [hindeg x]
          by_cases hxc : x = c
          · subst hxc
            rw [if_neg (fun hcc => hcn hcc.1), setfI_same,
              if_pos ⟨List.mem_cons_self x cs, hcol⟩]
          · rw [setfI_other hxc]
            by_cases hxm : x ∈ cs ∧ s1.colors x = DColor.WHITE
            · rw [if_pos hxm, if_pos ⟨List.mem_cons_of_mem c hxm.1, hxm.2⟩]
            · rw [if_neg hxm,
                if_neg (fun hcc => hxm ⟨(List.mem_cons.mp hcc.1).resolve_left hxc, hcc.2⟩)]
        · rw [hqueue, hdq1, hdq2]
        · rw [hts, hdq1, hdq2]
    | GRAY =>
      cases hstrict : strict with
      | true =>
        exact absurd hcol (hng hstrict c (List.mem_cons_self c cs))
      | false =>
        subst hstrict
        rw [scanChild_gray_step hcol, if_neg Bool.false_ne_true]
        obtain ⟨s2, hfold, hnodes, hcolors, hrej, hroots, hindeg, hqueue, hts⟩ :=
          ih s1 (tD0 ++ [c]) hndcs (fun hs => absurd hs Bool.false_ne_true)
        have hglp : gPred s1.colors c = true := by
          rw [gPred_true_iff]
          exact hcol
        have hgl : grayList s1.colors (c :: cs) = c :: grayList s1.colors cs := by
          unfold grayList
          rw [List.filter_cons, hglp]
          simp
        have hdqp : dqPred s1.colors s1.indeg c = false :=
          dqPred_false_not_white (by rw [hcol]; simp)
        have hdq2 : deltaQ s1.colors s1.indeg (c :: cs)
            = deltaQ s1.colors s1.indeg cs := by
          unfold deltaQ
          rw [List.filter_cons, hdqp]
          simp
        refine ⟨s2, ?_, hnodes, hcolors, hrej, hroots, ?_, ?_, ?_⟩
        · rw [hfold, hgl, List.append_assoc]
          rfl
        · intro x
          rw [hindeg x]
          by_cases hxm : x ∈ cs ∧ s1.colors x = DColor.WHITE
          · rw [if_pos hxm, if_pos ⟨List.mem_cons_of_mem c hxm.1, hxm.2⟩]
          · rw [if_neg hxm]
            by_cases hxc : x = c
            · rw [if_neg (fun hcc => by rw [hxc, hcol] at hcc; cases hcc.2)]
            · rw [if_neg (fun hcc => hxm ⟨(List.mem_cons.mp hcc.1).resolve_left hxc, hcc.2⟩)]
        · rw [hqueue, hdq2]
        · rw [hts, hdq2]
    | BLACK =>
      rw [scanChild_black_step hcol]
      obtain ⟨s2, hfold, hnodes, hcolors, hrej, hroots, hindeg, hqueue, hts⟩ :=
        ih s1 tD0 hndcs (fun hs c2 hc2 => hng hs c2 (List.mem_cons_of_mem c hc2))
      have hglp : gPred s1.colors c = false := gPred_false_of (by rw [hcol]; simp)
      have hgl : grayList s1.colors (c :: cs) = grayList s1.colors cs := by
        unfold grayList
        rw [List.filter_cons, hglp]
        simp
      have hdqp : dqPred s1.colors s1.indeg c = false :=
        dqPred_false_not_white (by rw [hcol]; simp)
      have hdq2 : deltaQ s1.colors s1.indeg (c :: cs)
          = deltaQ s1.colors s1.indeg cs := by
        unfold deltaQ
        rw [List.filter_cons, hdqp]
        simp
      refine ⟨s2, ?_, hnodes, hcolors, hrej, hroots, ?_, ?_, ?_⟩
      · rw [hfold, hgl]
      · intro x
        rw [hindeg x]
        by_cases hxm : x ∈ cs ∧ s1.colors x = DColor.WHITE
        · rw [if_pos hxm, if_pos ⟨List.mem_cons_of_mem c hxm.1, hxm.2⟩]
        · rw [if_neg hxm]
          by_cases hxc : x = c
          · rw [if_neg (fun hcc => by rw [hxc, hcol] at hcc; cases hcc.2)]
          · rw [if_neg (fun hcc => hxm ⟨(List.mem_cons.mp hcc.1).resolve_left hxc, hcc.2⟩)]
      · rw [hqueue, hdq2]
      · rw [hts, hdq2]

/-! Characterization of the back-edge deletion loop. -/

theorem deleteBackEdges_cons {rn c : CName} {rest : List CName} {s : CState} :
    deleteBackEdges rn (c :: rest) s = deleteBackEdges rn rest (removeEdge s rn c) := rfl

theorem deleteBackEdges_pres {rn : CName} :
    ∀ (toDel : List CName) (s : CState),
    (deleteBackEdges rn toDel s).colors = s.colors ∧
    (deleteBackEdges rn toDel s).indeg = s.indeg ∧
    (deleteBackEdges rn toDel s).queue = s.queue ∧
    (deleteBackEdges rn toDel s).tsorted = s.tsorted ∧
    (deleteBackEdges rn toDel s).roots = s.roots ∧
    nodeNames (deleteBackEdges rn toDel s).nodes = nodeNames s.nodes := by
  intro toDel
  induction toDel with
  | nil => intro s; exact ⟨rfl, rfl, rfl, rfl, rfl, rfl⟩
  | cons c rest ih =>
    intro s
    have h := ih (removeEdge s rn c)
    rw [deleteBackEdges_cons]
    refine ⟨h.1, h.2.1, h.2.2.1, h.2.2.2.1, h.2.2.2.2.1, ?_⟩
    rw [h.2.2.2.2.2, nodeNames_removeEdge]

theorem deleteBackEdges_rejected {rn : CName} :
    ∀ (toDel : List CName) (s : CState),
    (deleteBackEdges rn toDel s).rejected
      = s.rejected ++ toDel.map (fun c => (rn, c)) := by
  intro toDel
  induction toDel with
  | nil => intro s; simp [deleteBackEdges]
  | cons c rest ih =>
    intro s
    show (deleteBackEdges rn rest (removeEdge s rn c)).rejected = _
    rw [ih (removeEdge s rn c), removeEdge_rejected, List.map_cons, List.append_assoc]
    rfl

theorem deleteBackEdges_nChildren_nd {rn : CName} :
    ∀ (toDel : List CName) (s : CState),
    (∀ z, (nChildren s.nodes z).Nodup) →
    ∀ z, (nChildren (deleteBackEdges rn toDel s).nodes z).Nodup := by
  intro toDel
  induction toDel with
  | nil => intro s h; exact h
  | cons c rest ih =>
    intro s h
    refine ih (removeEdge s rn c) (fun z => ?_)
    rw [nChildren_removeEdge]
    by_cases hz : z = rn
    · rw [if_pos hz]; exact (h z).erase c
    · rw [if_neg hz]; exact h z

theorem deleteBackEdges_nParents_nd {rn : CName} :
    ∀ (toDel : List CName) (s : CState),
    (∀ z, (nParents s.nodes z).Nodup) →
    ∀ z, (nParents (deleteBackEdges rn toDel s).nodes z).Nodup := by
  intro toDel
  induction toDel with
  | nil => intro s h; exact h
  | cons c rest ih =>
    intro s h
    refine ih (removeEdge s rn c) (fun z => ?_)
    rw [nParents_removeEdge]
    by_cases hz : z = c
    · rw [if_pos hz]; exact (h z).erase rn
    · rw [if_neg hz]; exact h z

theorem deleteBackEdges_edgeC {rn : CName} :
    ∀ (toDel : List CName) (s : CState),
    (∀ z, (nChildren s.nodes z).Nodup) →
    ∀ x y, edgeC (deleteBackEdges rn toDel s).nodes x y ↔
      (edgeC s.nodes x y ∧ ¬(x = rn ∧ y ∈ toDel)) := by
  intro toDel
  induction toDel with
  | nil =>
    intro s _ x y
    simp [deleteBackEdges]
  | cons c rest ih =>
    intro s hnd x y
    have hnd' : ∀ z, (nChildren (removeEdge s rn c).nodes z).Nodup := by
      intro z
      rw [nChildren_removeEdge]
      by_cases hz : z = rn
      · rw [if_pos hz]; exact (hnd z).erase c
      · rw [if_neg hz]; exact hnd z
    have h := ih (removeEdge s rn c) hnd' x y
    show edgeC (deleteBackEdges rn rest (removeEdge s rn c)).nodes x y ↔ _
    rw [h]
    unfold edgeC
    rw [nChildren_removeEdge]
    by_cases hx : x = rn
    · rw [if_pos hx]
      rw [List.Nodup.mem_erase_iff (hnd x)]
      subst hx
      constructor
      · rintro ⟨⟨hyc, hym⟩, hnr⟩
        exact ⟨hym, fun ⟨_, hyin⟩ => by
          rcases List.mem_cons.mp hyin with h | h
          · exact hyc h
          · exact hnr ⟨rfl, h⟩⟩
      · rintro ⟨hym, hnr⟩
        refine ⟨⟨fun hyc => hnr ⟨rfl, by rw [hyc]; exact List.mem_cons_self c rest⟩, hym⟩,
          fun ⟨_, hyin⟩ => hnr ⟨rfl, List.mem_cons_of_mem c hyin⟩⟩
    · rw [if_neg hx]
      constructor
      · rintro ⟨hym, _⟩
        exact ⟨hym, fun ⟨hxr, _⟩ => hx hxr⟩
      · rintro ⟨hym, _⟩
        exact ⟨hym, fun ⟨hxr, _⟩ => hx hxr⟩

theorem deleteBackEdges_edgeP {rn : CName} :
    ∀ (toDel : List CName) (s : CState),
    (∀ z, (nParents s.nodes z).Nodup) →
    ∀ x y, edgeP (deleteBackEdges rn toDel s).nodes x y ↔
      (edgeP s.nodes x y ∧ ¬(x = rn ∧ y ∈ toDel)) := by
  intro toDel
  induction toDel with
  | nil =>
    intro s _ x y
    simp [deleteBackEdges]
  | cons c rest ih =>
    intro s hnd x y
    have hnd' : ∀ z, (nParents (removeEdge s rn c).nodes z).Nodup := by
      intro z
      rw [nParents_removeEdge]
      by_cases hz : z = c
      · rw [if_pos hz]; exact (hnd z).erase rn
      · rw [if_neg hz]; exact hnd z
    have h := ih (removeEdge s rn c) hnd' x y
    show edgeP (deleteBackEdges rn rest (removeEdge s rn c)).nodes x y ↔ _
    rw [h]
    unfold edgeP
    rw [nParents_removeEdge]
    by_cases hy : y = c
    · rw [if_pos hy]
      rw [List.Nodup.mem_erase_iff (hnd y)]
      subst hy
      constructor
      · rintro ⟨⟨hxr, hxm⟩, hnr⟩
        exact ⟨hxm, fun ⟨hxrn, _⟩ => hxr hxrn⟩
      · rintro ⟨hxm, hnr⟩
        refine ⟨⟨fun hxr => hnr ⟨hxr, List.mem_cons_self y rest⟩, hxm⟩,
          fun ⟨hxr, hyin⟩ => hnr ⟨hxr, List.mem_cons_of_mem y hyin⟩⟩
    · rw [if_neg hy]
      constructor
      · rintro ⟨hxm, hnr⟩
        refine ⟨hxm, fun ⟨hxr, hyin⟩ => ?_⟩
        rcases List.mem_cons.mp hyin with h2 | h2
        · exact hy h2
        · exact hnr ⟨hxr, h2⟩
      · rintro ⟨hxm, hnr⟩
        exact ⟨hxm, fun ⟨hxr, hyin⟩ => hnr ⟨hxr, List.mem_cons_of_mem c hyin⟩⟩

theorem countP_le_sum {l : List CName} (d : CName → ℕ) :
    l.countP (fun x => decide (1 ≤ d x)) ≤ (l.map d).sum := by
  induction l with
  | nil => simp
  | cons x t ih =>
    rw [List.countP_cons]
    simp only [List.map_cons, List.sum_cons]
    by_cases h1 : 1 ≤ d x <;> simp [h1] <;> omega

theorem ncount_two {col : CName → DColor} {l : List CName} {a b : CName}
    (hnd : l.Nodup) (ha : a ∈ l) (hb : b ∈ l) (hab : a ≠ b)
    (hca : col a ≠ DColor.BLACK) (hcb : col b ≠ DColor.BLACK) :
    2 ≤ ncount col l := by
  have h := @nodup_sub_le_countP [a, b] l (nbPred col)
    (by simp [hab])
    (by
      intro y hy
      rcases List.mem_cons.mp hy with h1 | h1
      · subst h1; exact ⟨ha, nbPred_true_iff.mpr hca⟩
      · rw [List.mem_singleton] at h1
        subst h1
        exact ⟨hb, nbPred_true_iff.mpr hcb⟩)
  simpa [ncount] using h

theorem whiteDegSum_eq (s : CState) :
    whiteDegSum s = ((nodeNames s.nodes).map
      (fun x => if s.colors x = DColor.WHITE then 1 + (s.indeg x).toNat else 0)).sum := by
  unfold whiteDegSum nodeNames
  rw [List.map_map]
  rfl

theorem bfsLoop_queue_nil {strict : Bool} {fuel : Nat} {s : CState}
    (hq : s.queue = []) : bfsLoop strict (fuel + 1) s = .ok s := by
  show (match s.queue with
    | [] => Except.ok s
    | rn :: rest =>
      match bfsIterate strict s rn rest with
      | .error e => .error e
      | .ok s2 => bfsLoop strict fuel s2) = .ok s
  rw [hq]

theorem bfsLoop_queue_cons {strict : Bool} {fuel : Nat} {s : CState} {rn : CName}
    {rest : List CName} (hq : s.queue = rn :: rest) :
    bfsLoop strict (fuel + 1) s =
      match bfsIterate strict s rn rest with
      | .error e => .error e
      | .ok s2 => bfsLoop strict fuel s2 := by
  show (match s.queue with
    | [] => Except.ok s
    | rn :: rest =>
      match bfsIterate strict s rn rest with
      | .error e => .error e
      | .ok s2 => bfsLoop strict fuel s2) = _
  rw [hq]

theorem deleteBackEdges_nParents_not_mem {rn : CName} :
    ∀ (toDel : List CName) (s : CState) (y : CName), y ∉ toDel →
    nParents (deleteBackEdges rn toDel s).nodes y = nParents s.nodes y := by
  intro toDel
  induction toDel with
  | nil => intro s y _; rfl
  | cons c rest ih =>
    intro s y hy
    show nParents (deleteBackEdges rn rest (removeEdge s rn c)).nodes y = _
    rw [ih (removeEdge s rn c) y (fun h => hy (List.mem_cons_of_mem c h)),
      nParents_removeEdge,
      if_neg (fun h => hy (by rw [h]; exact List.mem_cons_self c rest))]

/-! The main iteration lemma: one pop of the traversal queue preserves the
invariant, strictly decreases the loop measure, never un-whitens a node, and
in strict mode leaves nodes and rejected edges untouched. -/

theorem bfsIterate_ok_spec {strict : Bool} {E0 : List (CName × CName)}
    {N0 pend : List CName} {s : CState} {rn : CName} {rest : List CName}
    (hI : Inv E0 N0 pend s) (hq : s.queue = rn :: rest)
    (hng : strict = true →
      ∀ c ∈ nChildren s.nodes rn, setf s.colors rn DColor.GRAY c ≠ DColor.GRAY) :
    ∃ s2, bfsIterate strict s rn rest = .ok s2 ∧ Inv E0 N0 pend s2 ∧
      cMeasure s2 < cMeasure s ∧
      (∀ x, s.colors x ≠ DColor.WHITE → s2.colors x ≠ DColor.WHITE) ∧
      (strict = true → s2.nodes = s.nodes ∧ s2.rejected = s.rejected) := by
  have hrnq : rn ∈ s.queue := by rw [hq]; exact List.mem_cons_self rn rest
  have hrnN0 : rn ∈ N0 := hI.q_cl rn hrnq
  have hrnnb : s.colors rn ≠ DColor.BLACK := hI.q_col rn hrnq
  obtain ⟨nd, hnd⟩ : ∃ nd, getNode s.nodes rn = some nd :=
    Option.isSome_iff_exists.mp (getNode_isSome_iff.mpr (by rw [hI.names_eq]; exact hrnN0))
  have hcs : nChildren s.nodes rn = nd.children := by
    unfold nChildren
    rw [hnd]
    rfl
  have hchnd : nd.children.Nodup := by rw [← hcs]; exact hI.ch_nd rn
  have hqnd : rest.Nodup ∧ rn ∉ rest := by
    have h := hI.q_nd
    rw [hq] at h
    obtain ⟨h1, h2⟩ := List.nodup_cons.mp h
    exact ⟨h2, h1⟩
  -- color bookkeeping for the GRAY-marked state
  have hcolG_white : ∀ y, setf s.colors rn DColor.GRAY y = DColor.WHITE ↔
      (y ≠ rn ∧ s.colors y = DColor.WHITE) := by
    intro y
    by_cases h : y = rn
    · subst h
      rw [setf_same]
      simp
    · rw [setf_other h]
      simp [h]
  have hgrayOnly : ∀ c, setf s.colors rn DColor.GRAY c = DColor.GRAY → c = rn := by
    intro c hc
    by_cases h : c = rn
    · exact h
    · rw [setf_other h] at hc
      obtain ⟨r2, hr2⟩ := hI.gray_hd c hc
      rw [hq] at hr2
      injection hr2 with h1 _
      exact h1.symm
  -- run the child scan
  obtain ⟨s2, hfold, hnodes, hcolors, hrej, hroots, hindeg, hqueue, hts⟩ :=
    @scan_fold_ok strict rn nd.children
      ({ s with queue := rest, colors := setf s.colors rn DColor.GRAY }) [] hchnd
      (fun hs c hc => hng hs c (by rw [hcs]; exact hc))
  dsimp only at hfold hnodes hcolors hrej hroots hindeg hqueue hts
  set toDel := grayList (setf s.colors rn DColor.GRAY) nd.children with htoDel
  set dQ := deltaQ (setf s.colors rn DColor.GRAY) s.indeg nd.children with hdQ
  set s3 := deleteBackEdges rn toDel s2 with hs3
  set sF : CState := { s3 with colors := setf s3.colors rn DColor.BLACK } with hsF
  have hpres := @deleteBackEdges_pres rn toDel s2
  clear_value toDel dQ s3 sF
  -- the iterate evaluates to sF
  have hiter : bfsIterate strict s rn rest = .ok sF := by
    unfold bfsIterate
    dsimp only
    rw [hnd, Option.getD_some]
    rw [hfold]
    dsimp only
    rw [List.nil_append, hsF, hs3]
  -- component equations for sF
  have hcol3 : s3.colors = setf s.colors rn DColor.GRAY := by
    rw [hs3]
    have h1 := (@deleteBackEdges_pres rn toDel s2).1
    rw [h1, hcolors]
  have hcolF : sF.colors = setf s.colors rn DColor.BLACK := by
    rw [hsF]
    show setf s3.colors rn DColor.BLACK = _
    rw [hcol3, setf_setf_same]
  have hcolF_rn : sF.colors rn = DColor.BLACK := by rw [hcolF]; exact setf_same
  have hcolF_other : ∀ y, y ≠ rn → sF.colors y = s.colors y := by
    intro y h
    rw [hcolF]
    exact setf_other h
  have hindF : ∀ x, sF.indeg x =
      if x ∈ nd.children ∧ setf s.colors rn DColor.GRAY x = DColor.WHITE
      then s.indeg x - 1 else s.indeg x := by
    intro x
    have h1 : sF.indeg = s3.indeg := by rw [hsF]
    rw [h1, hs3]
    have h2 := (@deleteBackEdges_pres rn toDel s2).2.1
    rw [h2]
    exact hindeg x
  have hqF : sF.queue = rest ++ dQ := by
    have h1 : sF.queue = s3.queue := by rw [hsF]
    rw [h1, hs3]
    have h2 := (@deleteBackEdges_pres rn toDel s2).2.2.1
    rw [h2, hqueue]
  have htsF : sF.tsorted = s.tsorted ++ dQ := by
    have h1 : sF.tsorted = s3.tsorted := by rw [hsF]
    rw [h1, hs3]
    have h2 := (@deleteBackEdges_pres rn toDel s2).2.2.2.1
    rw [h2, hts]
  have hrootsF : sF.roots = s.roots := by
    have h1 : sF.roots = s3.roots := by rw [hsF]
    rw [h1, hs3]
    have h2 := (@deleteBackEdges_pres rn toDel s2).2.2.2.2.1
    rw [h2, hroots]
  have hrejF : sF.rejected = s.rejected ++ toDel.map (fun c => (rn, c)) := by
    have h1 : sF.rejected = s3.rejected := by rw [hsF]
    rw [h1, hs3, deleteBackEdges_rejected, hrej]
  have hnamesF : nodeNames sF.nodes = N0 := by
    have h1 : sF.nodes = s3.nodes := by rw [hsF]
    rw [h1, hs3]
    have h2 := (@deleteBackEdges_pres rn toDel s2).2.2.2.2.2
    rw [h2, hnodes, hI.names_eq]
  have hchnd2 : ∀ z, (nChildren s2.nodes z).Nodup := by
    intro z
    rw [hnodes]
    exact hI.ch_nd z
  have hpand2 : ∀ z, (nParents s2.nodes z).Nodup := by
    intro z
    rw [hnodes]
    exact hI.pa_nd z
  have hedC : ∀ x y, edgeC sF.nodes x y ↔
      (edgeC s.nodes x y ∧ ¬(x = rn ∧ y ∈ toDel)) := by
    intro x y
    have h1 : sF.nodes = s3.nodes := by rw [hsF]
    rw [h1, hs3]
    have h := @deleteBackEdges_edgeC rn toDel s2 hchnd2 x y
    unfold edgeC at h ⊢
    rw [hnodes] at h
    exact h
  have hedP : ∀ x y, edgeP sF.nodes x y ↔
      (edgeP s.nodes x y ∧ ¬(x = rn ∧ y ∈ toDel)) := by
    intro x y
    have h1 : sF.nodes = s3.nodes := by rw [hsF]
    rw [h1, hs3]
    have h := @deleteBackEdges_edgeP rn toDel s2 hpand2 x y
    unfold edgeP at h ⊢
    rw [hnodes] at h
    exact h
  have hchndF : ∀ z, (nChildren sF.nodes z).Nodup := by
    intro z
    have h1 : sF.nodes = s3.nodes := by rw [hsF]
    rw [h1, hs3]
    exact @deleteBackEdges_nChildren_nd rn toDel s2 hchnd2 z
  have hpandF : ∀ z, (nParents sF.nodes z).Nodup := by
    intro z
    have h1 : sF.nodes = s3.nodes := by rw [hsF]
    rw [h1, hs3]
    exact @deleteBackEdges_nParents_nd rn toDel s2 hpand2 z
  -- membership characterizations
  have htoDel_mem : ∀ y ∈ toDel, y = rn ∧ rn ∈ nd.children := by
    intro y hy
    rw [htoDel] at hy
    unfold grayList at hy
    rw [List.mem_filter] at hy
    have hgy := gPred_true_iff.mp hy.2
    have h := hgrayOnly y hgy
    refine ⟨h, ?_⟩
    rw [← h]
    exact hy.1
  have hdQ_mem : ∀ y, y ∈ dQ ↔
      (y ∈ nd.children ∧ y ≠ rn ∧ s.colors y = DColor.WHITE ∧ s.indeg y = 1) := by
    intro y
    rw [hdQ]
    unfold deltaQ
    rw [List.mem_filter]
    constructor
    · rintro ⟨hm, hp⟩
      obtain ⟨hw, hi⟩ := dqPred_true_iff.mp hp
      obtain ⟨hne, hsw⟩ := (hcolG_white y).mp hw
      exact ⟨hm, hne, hsw, hi⟩
    · rintro ⟨hm, hne, hsw, hi⟩
      exact ⟨hm, dqPred_true_iff.mpr ⟨(hcolG_white y).mpr ⟨hne, hsw⟩, hi⟩⟩
  have hdQ_nd : dQ.Nodup := by
    rw [hdQ]
    exact List.Nodup.filter _ hchnd
  have hedge_rn_child : ∀ y, y ∈ nd.children ↔ edgeC s.nodes rn y := by
    intro y
    unfold edgeC
    rw [hcs]
  have hpar_of_child : ∀ y, y ∈ nd.children → rn ∈ nParents s.nodes y := by
    intro y hy
    exact (hI.sym rn y).mp ((hedge_rn_child y).mp hy)
  have hchild_not_pend : ∀ y, y ∈ nd.children → y ∉ pend := by
    intro y hy hp
    have h1 := hpar_of_child y hy
    have h2 := (hI.pend_pl y hp).1
    rw [h2] at h1
    cases h1
  have hrn_ts : rn ∈ s.tsorted := (hI.t_iff rn).mpr (Or.inr hrnq)
  have hdQ_N0 : ∀ y ∈ dQ, y ∈ N0 := by
    intro y hy
    have h := (hdQ_mem y).mp hy
    exact hI.ch_cl rn y ((hedge_rn_child y).mp h.1)
  have hdQ_not_queue : ∀ y ∈ dQ, y ∉ s.queue := by
    intro y hy hyq
    have h := (hdQ_mem y).mp hy
    have := hI.zinv y hyq h.2.2.1
    omega
  have hdQ_not_ts : ∀ y ∈ dQ, y ∉ s.tsorted := by
    intro y hy hyt
    have h := (hdQ_mem y).mp hy
    rcases (hI.t_iff y).mp hyt with hc | hc
    · exact hc h.2.2.1
    · exact hdQ_not_queue y hy hc
  -- the invariant for sF
  have hInvF : Inv E0 N0 pend sF := by
    refine ⟨hnamesF, hI.names_nd, hchndF, hpandF, ?_, ?_, ?_, ?_, ?_, ?_, ?_, ?_, ?_,
      ?_, ?_, ?_, ?_, ?_, ?_, ?_, ?_, ?_, hI.pend_nd⟩
    · -- ch_cl
      intro x y h
      exact hI.ch_cl x y ((hedC x y).mp h).1
    · -- sym
      intro x y
      rw [hedC x y, hedP x y, hI.sym x y]
    · -- union
      intro x y
      rw [hrejF]
      constructor
      · intro h
        rcases (hI.union x y).mp h with he | hr
        · by_cases hdel : x = rn ∧ y ∈ toDel
          · refine Or.inr ?_
            rw [List.mem_append]
            refine Or.inr ?_
            rw [List.mem_map]
            exact ⟨y, hdel.2, by rw [hdel.1]⟩
          · exact Or.inl ((hedC x y).mpr ⟨he, hdel⟩)
        · refine Or.inr ?_
          rw [List.mem_append]
          exact Or.inl hr
      · intro h
        rcases h with he | hr
        · exact (hI.union x y).mpr (Or.inl ((hedC x y).mp he).1)
        · rw [List.mem_append] at hr
          rcases hr with hr | hr
          · exact (hI.union x y).mpr (Or.inr hr)
          · rw [List.mem_map] at hr
            obtain ⟨c, hc, hcx⟩ := hr
            rw [Prod.mk.injEq] at hcx
            obtain ⟨hx, hy⟩ := hcx
            obtain ⟨h1, h2⟩ := htoDel_mem c hc
            refine (hI.union x y).mpr (Or.inl ?_)
            rw [← hx, ← hy, h1]
            exact (hedge_rn_child rn).mp h2
    · -- rej_dj
      intro x y h
      rw [hrejF, List.mem_append] at h
      rcases h with h | h
      · intro he
        exact hI.rej_dj x y h ((hedC x y).mp he).1
      · rw [List.mem_map] at h
        obtain ⟨c, hc, hcx⟩ := h
        rw [Prod.mk.injEq] at hcx
        obtain ⟨hx, hy⟩ := hcx
        intro he
        have h2 := ((hedC x y).mp he).2
        exact h2 ⟨hx.symm, by rw [← hy]; exact hc⟩
    · -- q_cl
      intro x hx
      rw [hqF, List.mem_append] at hx
      rcases hx with hx | hx
      · exact hI.q_cl x (by rw [hq]; exact List.mem_cons_of_mem rn hx)
      · exact hdQ_N0 x hx
    · -- q_nd
      rw [hqF, List.nodup_append]
      refine ⟨hqnd.1, hdQ_nd, ?_⟩
      intro a ha hadq
      exact hdQ_not_queue a hadq (by rw [hq]; exact List.mem_cons_of_mem rn ha)
    · -- q_col
      intro x hx
      rw [hqF, List.mem_append] at hx
      have hxrn : x ≠ rn := by
        intro he
        subst he
        rcases hx with hx | hx
        · exact hqnd.2 hx
        · exact (((hdQ_mem x).mp hx).2.1) rfl
      rw [hcolF_other x hxrn]
      rcases hx with hx | hx
      · exact hI.q_col x (by rw [hq]; exact List.mem_cons_of_mem rn hx)
      · rw [((hdQ_mem x).mp hx).2.2.1]
        simp
    · -- gray_hd
      intro x hx
      exfalso
      by_cases hxrn : x = rn
      · rw [hxrn, hcolF_rn] at hx
        cases hx
      · rw [hcolF_other x hxrn] at hx
        obtain ⟨r2, hr2⟩ := hI.gray_hd x hx
        rw [hq] at hr2
        injection hr2 with h1 _
        exact hxrn h1.symm
    · -- col_out
      intro x hx
      have hxrn : x ≠ rn := fun he => hx (he ▸ hrnN0)
      rw [hcolF_other x hxrn]
      exact hI.col_out x hx
    · -- qinv
      intro x hxN0 hxw hxp
      have hxrn : x ≠ rn := by
        intro he
        rw [he, hcolF_rn] at hxw
        cases hxw
      rw [hcolF_other x hxrn] at hxw
      have hxtd : x ∉ toDel := by
        intro h
        have := (htoDel_mem x h).1
        exact hxrn this
      have hparF : nParents sF.nodes x = nParents s.nodes x := by
        have h1 : sF.nodes = s3.nodes := by rw [hsF]
        rw [h1, hs3, @deleteBackEdges_nParents_not_mem rn toDel s2 x hxtd, hnodes]
      rw [hparF]
      have hold := hI.qinv x hxN0 hxw hxp
      have hcong : ∀ y, y ∈ nParents s.nodes x → y ≠ rn →
          sF.colors y = s.colors y := fun y _ hyrn => hcolF_other y hyrn
      by_cases hxc : x ∈ nd.children
      · -- rn is a parent of x; its color turns BLACK, the count drops by one
        have hrnpar : rn ∈ nParents s.nodes x := hpar_of_child x hxc
        have hcnt := ncount_setf_black hrnpar (hI.pa_nd x) hrnnb
        have hcnt2 : ncount sF.colors (nParents s.nodes x)
            = ncount (setf s.colors rn DColor.BLACK) (nParents s.nodes x) :=
          ncount_congr (fun p _ => by rw [hcolF])
        have hiF := hindF x
        rw [if_pos ⟨hxc, (hcolG_white x).mpr ⟨hxrn, hxw⟩⟩] at hiF
        rw [hiF, hcnt2, hold]
        omega
      · have hrnpar : rn ∉ nParents s.nodes x := by
          intro h
          exact hxc ((hedge_rn_child x).mpr ((hI.sym rn x).mpr h))
        have hcnt2 : ncount sF.colors (nParents s.nodes x)
            = ncount s.colors (nParents s.nodes x) := by
          refine ncount_congr (fun p hp => ?_)
          have hprn : p ≠ rn := fun he => hrnpar (he ▸ hp)
          exact hcolF_other p hprn
        have hiF := hindF x
        rw [if_neg (fun hcc => hxc hcc.1)] at hiF
        rw [hiF, hcnt2, hold]
    · -- zinv
      intro x hx hxw
      rw [hqF, List.mem_append] at hx
      have hxrn : x ≠ rn := by
        intro he
        rw [he, hcolF_rn] at hxw
        cases hxw
      rw [hcolF_other x hxrn] at hxw
      rcases hx with hx | hx
      · have hxq : x ∈ s.queue := by rw [hq]; exact List.mem_cons_of_mem rn hx
        have hz := hI.zinv x hxq hxw
        have hiF := hindF x
        by_cases hxc : x ∈ nd.children
        · exfalso
          have hrnpar : rn ∈ nParents s.nodes x := hpar_of_child x hxc
          have hxp : x ∉ pend := fun hp => hI.pend_q x hp hxq
          have hold := hI.qinv x (hI.q_cl x hxq) hxw hxp
          have hpos := ncount_nonzero_of_mem hrnpar hrnnb
          omega
        · rw [if_neg (fun hcc => hxc hcc.1)] at hiF
          rw [hiF]
          exact hz
      · have h := (hdQ_mem x).mp hx
        have hiF := hindF x
        rw [if_pos ⟨h.1, (hcolG_white x).mpr ⟨h.2.1, h.2.2.1⟩⟩] at hiF
        rw [hiF, h.2.2.2]
        omega
    · -- winv
      intro x hxN0 hxw hxi
      have hxrn : x ≠ rn := by
        intro he
        rw [he, hcolF_rn] at hxw
        cases hxw
      rw [hcolF_other x hxrn] at hxw
      have hiF := hindF x
      by_cases hxc : x ∈ nd.children
      · rw [if_pos ⟨hxc, (hcolG_white x).mpr ⟨hxrn, hxw⟩⟩] at hiF
        have hx1 : s.indeg x = 1 := by omega
        have hxdq : x ∈ dQ := (hdQ_mem x).mpr ⟨hxc, hxrn, hxw, hx1⟩
        refine Or.inl ?_
        rw [hqF, List.mem_append]
        exact Or.inr hxdq
      · rw [if_neg (fun hcc => hxc hcc.1)] at hiF
        have hx0 : s.indeg x = 0 := by omega
        rcases hI.winv x hxN0 hxw hx0 with hxq | hxp
        · rw [hq] at hxq
          rcases List.mem_cons.mp hxq with h | h
          · exact absurd h hxrn
          · refine Or.inl ?_
            rw [hqF, List.mem_append]
            exact Or.inl h
        · exact Or.inr hxp
    · -- t_iff
      intro x
      rw [htsF, hqF, List.mem_append, List.mem_append]
      by_cases hxrn : x = rn
      · subst hxrn
        constructor
        · intro _
          refine Or.inl ?_
          rw [hcolF_rn]
          simp
        · intro _
          refine Or.inl hrn_ts
      · rw [hcolF_other x hxrn]
        have hold := hI.t_iff x
        rw [hq] at hold
        constructor
        · intro h
          rcases h with h | h
          · rcases hold.mp h with hc | hc
            · exact Or.inl hc
            · rcases List.mem_cons.mp hc with h2 | h2
              · exact absurd h2 hxrn
              · exact Or.inr (Or.inl h2)
          · exact Or.inr (Or.inr h)
        · intro h
          rcases h with h | h
          · exact Or.inl (hold.mpr (Or.inl h))
          · rcases h with h | h
            · exact Or.inl (hold.mpr (Or.inr (List.mem_cons_of_mem rn h)))
            · exact Or.inr h
    · -- t_nd
      rw [htsF, List.nodup_append]
      exact ⟨hI.t_nd, hdQ_nd, fun a ha hadq => hdQ_not_ts a hadq ha⟩
    · -- porder
      intro x y hexy hyts
      have hex := (hedC x y).mp hexy
      rw [htsF] at hyts ⊢
      rcases List.mem_append.mp hyts with hyt | hydq
      · exact earlierIn_append_left (hI.porder x y hex.1 hyt)
      · have h := (hdQ_mem y).mp hydq
        have hynp : y ∉ pend := hchild_not_pend y h.1
        have hyN0 : y ∈ N0 := hdQ_N0 y hydq
        have hold := hI.qinv y hyN0 h.2.2.1 hynp
        have hone : ncount s.colors (nParents s.nodes y) = 1 := by omega
        have hrnpar : rn ∈ nParents s.nodes y := hpar_of_child y h.1
        have hxpar : x ∈ nParents s.nodes y := (hI.sym x y).mp hex.1
        by_cases hxrn : x = rn
        · subst hxrn
          exact earlierIn_append_cross hrn_ts hydq
        · have hxb : s.colors x = DColor.BLACK := by
            by_contra hxb
            have := ncount_two (hI.pa_nd y) hxpar hrnpar hxrn hxb hrnnb
            omega
          have hxts : x ∈ s.tsorted := (hI.t_iff x).mpr (Or.inl (by rw [hxb]; simp))
          exact earlierIn_append_cross hxts hydq
    · -- pend_pl
      intro z hz
      obtain ⟨hzp, hzN0⟩ := hI.pend_pl z hz
      have hztd : z ∉ toDel := by
        intro h
        obtain ⟨h1, h2⟩ := htoDel_mem z h
        have := hpar_of_child z (by rw [h1]; exact h2)
        rw [hzp] at this
        cases this
      have hparF : nParents sF.nodes z = nParents s.nodes z := by
        have h1 : sF.nodes = s3.nodes := by rw [hsF]
        rw [h1, hs3, @deleteBackEdges_nParents_not_mem rn toDel s2 z hztd, hnodes]
      rw [hparF, hzp]
      exact ⟨rfl, hzN0⟩
    · -- pend_wh
      intro z hz
      have hzrn : z ≠ rn := by
        intro he
        exact hI.pend_q z hz (he ▸ hrnq)
      rw [hcolF_other z hzrn]
      exact hI.pend_wh z hz
    · -- pend_q
      intro z hz
      rw [hqF, List.mem_append]
      rintro (h | h)
      · exact hI.pend_q z hz (by rw [hq]; exact List.mem_cons_of_mem rn h)
      · have h2 := (hdQ_mem z).mp h
        have h3 := hpar_of_child z h2.1
        rw [(hI.pend_pl z hz).1] at h3
        cases h3
  -- the measure decreases
  have hmeas : cMeasure sF < cMeasure s := by
    have hf : ∀ x, (if sF.colors x = DColor.WHITE then 1 + (sF.indeg x).toNat else 0)
        ≤ (if s.colors x = DColor.WHITE then 1 + (s.indeg x).toNat else 0) := by
      intro x
      by_cases hxrn : x = rn
      · subst hxrn
        rw [hcolF_rn]
        simp
      · rw [hcolF_other x hxrn]
        by_cases hw : s.colors x = DColor.WHITE
        · rw [if_pos hw, if_pos hw]
          have hiF := hindF x
          by_cases hxc : x ∈ nd.children ∧ setf s.colors rn DColor.GRAY x = DColor.WHITE
          · rw [if_pos hxc] at hiF
            rw [hiF]
            omega
          · rw [if_neg hxc] at hiF
            rw [hiF]
        · rw [if_neg hw, if_neg hw]
    have hdrop : ∀ y ∈ dQ,
        1 ≤ (if s.colors y = DColor.WHITE then 1 + (s.indeg y).toNat else 0)
          - (if sF.colors y = DColor.WHITE then 1 + (sF.indeg y).toNat else 0) := by
      intro y hy
      have h := (hdQ_mem y).mp hy
      rw [hcolF_other y h.2.1, if_pos h.2.2.1, if_pos h.2.2.1]
      have hiF := hindF y
      rw [if_pos ⟨h.1, (hcolG_white y).mpr ⟨h.2.1, h.2.2.1⟩⟩] at hiF
      rw [hiF, h.2.2.2]
      simp
    have hsplit := @sum_map_split N0
      (fun x => if s.colors x = DColor.WHITE then 1 + (s.indeg x).toNat else 0)
      (fun x => if sF.colors x = DColor.WHITE then 1 + (sF.indeg x).toNat else 0)
      (fun x _ => hf x)
    dsimp only at hsplit
    have hcount : dQ.length ≤ N0.countP (fun x => decide (1 ≤
        (if s.colors x = DColor.WHITE then 1 + (s.indeg x).toNat else 0)
          - (if sF.colors x = DColor.WHITE then 1 + (sF.indeg x).toNat else 0))) := by
      refine nodup_sub_le_countP _ hdQ_nd (fun y hy => ?_)
      exact ⟨hdQ_N0 y hy, by simpa using hdrop y hy⟩
    have hcsum := @countP_le_sum N0
      (fun x => (if s.colors x = DColor.WHITE then 1 + (s.indeg x).toNat else 0)
        - (if sF.colors x = DColor.WHITE then 1 + (sF.indeg x).toNat else 0))
    unfold cMeasure
    rw [whiteDegSum_eq s, whiteDegSum_eq sF, hnamesF, hI.names_eq, hq, hqF]
    rw [List.length_append, List.length_cons]
    have hs2 := hsplit
    specialize hcsum
    omega
  -- the final bundle
  refine ⟨sF, hiter, hInvF, hmeas, ?_, ?_⟩
  · intro x hx
    by_cases hxrn : x = rn
    · rw [hxrn, hcolF_rn]
      simp
    · rw [hcolF_other x hxrn]
      exact hx
  · intro hs
    have hnog : toDel = [] := by
      rw [htoDel]
      unfold grayList
      refine List.filter_eq_nil.mpr (fun c hc => ?_)
      have := hng hs c (by rw [hcs]; exact hc)
      simpa [gPred_true_iff] using this
    constructor
    · have h1 : sF.nodes = s3.nodes := by rw [hsF]
      rw [h1, hs3, hnog]
      show (deleteBackEdges rn [] s2).nodes = s.nodes
      exact hnodes
    · rw [hrejF, hnog]
      simp

theorem Inv.grayOnly {E0 : List (CName × CName)} {N0 pend : List CName}
    {s : CState} {rn : CName} {rest : List CName} (hI : Inv E0 N0 pend s)
    (hq : s.queue = rn :: rest) :
    ∀ c, setf s.colors rn DColor.GRAY c = DColor.GRAY → c = rn := by
  intro c hc
  by_cases h : c = rn
  · exact h
  · rw [setf_other h] at hc
    obtain ⟨r2, hr2⟩ := hI.gray_hd c hc
    rw [hq] at hr2
    injection hr2 with h1 _
    exact h1.symm

theorem bfsIterate_err_spec {strict : Bool} {E0 : List (CName × CName)}
    {N0 pend : List CName} {s : CState} {rn : CName} {rest : List CName}
    (hI : Inv E0 N0 pend s) (hq : s.queue = rn :: rest) (hs : strict = true)
    (hgr : ∃ c ∈ nChildren s.nodes rn, setf s.colors rn DColor.GRAY c = DColor.GRAY) :
    bfsIterate strict s rn rest = .error (.cycleErr "Back-edge found") ∧
      (rn, rn) ∈ E0 := by
  have hrnq : rn ∈ s.queue := by rw [hq]; exact List.mem_cons_self rn rest
  have hrnN0 : rn ∈ N0 := hI.q_cl rn hrnq
  obtain ⟨nd, hnd⟩ : ∃ nd, getNode s.nodes rn = some nd :=
    Option.isSome_iff_exists.mp (getNode_isSome_iff.mpr (by rw [hI.names_eq]; exact hrnN0))
  have hcs : nChildren s.nodes rn = nd.children := by
    unfold nChildren
    rw [hnd]
    rfl
  obtain ⟨c, hcm, hcg⟩ := hgr
  have hcrn : c = rn := hI.grayOnly hq c hcg
  constructor
  · unfold bfsIterate
    dsimp only
    rw [hnd, Option.getD_some]
    rw [scan_fold_error hs _ [] ⟨c, by rw [← hcs]; exact hcm, hcg⟩]
  · refine (hI.union rn rn).mpr (Or.inl ?_)
    show rn ∈ nChildren s.nodes rn
    exact hcrn ▸ hcm

theorem bfsLoop_spec {strict : Bool} {E0 : List (CName × CName)}
    {N0 pend : List CName} :
    ∀ (fuel : Nat) (s : CState), Inv E0 N0 pend s → cMeasure s < fuel →
    (∃ s2, bfsLoop strict fuel s = .ok s2 ∧ Inv E0 N0 pend s2 ∧ s2.queue = [] ∧
      (∀ x, s.colors x ≠ DColor.WHITE → s2.colors x ≠ DColor.WHITE) ∧
      (strict = true → s2.nodes = s.nodes ∧ s2.rejected = s.rejected)) ∨
    (strict = true ∧ (∃ a, (a, a) ∈ E0) ∧
      bfsLoop strict fuel s = .error (.cycleErr "Back-edge found")) := by
  intro fuel
  induction fuel with
  | zero =>
    intro s _ hm
    omega
  | succ fuel ih =>
    intro s hI hm
    cases hq : s.queue with
    | nil =>
      refine Or.inl ⟨s, bfsLoop_queue_nil hq, hI, hq, fun x hx => hx,
        fun _ => ⟨rfl, rfl⟩⟩
    | cons rn rest =>
      rw [bfsLoop_queue_cons hq]
      by_cases hgr : ∃ c ∈ nChildren s.nodes rn,
          setf s.colors rn DColor.GRAY c = DColor.GRAY
      · cases hstrict : strict with
        | true =>
          obtain ⟨herr, hE0⟩ := bfsIterate_err_spec hI hq hstrict hgr
          rw [hstrict] at herr
          rw [herr]
          exact Or.inr ⟨rfl, ⟨rn, hE0⟩, rfl⟩
        | false =>
          subst hstrict
          obtain ⟨s2, hiter, hI2, hm2, hmono, _⟩ :=
            bfsIterate_ok_spec hI hq (fun habs => absurd habs Bool.false_ne_true)
          rw [hiter]
          rcases ih s2 hI2 (by omega) with ⟨s3, h1, h2, h3, h4, h5⟩ | ⟨habs, _⟩
          · exact Or.inl ⟨s3, h1, h2, h3, fun x hx => h4 x (hmono x hx),
              fun habs => absurd habs Bool.false_ne_true⟩
          · exact absurd habs Bool.false_ne_true
      · obtain ⟨s2, hiter, hI2, hm2, hmono, hspres⟩ :=
          bfsIterate_ok_spec hI hq (fun _ c hc hcg => hgr ⟨c, hc, hcg⟩)
        rw [hiter]
        rcases ih s2 hI2 (by omega) with ⟨s3, h1, h2, h3, h4, h5⟩ | ⟨h1, h2, h3⟩
        · refine Or.inl ⟨s3, h1, h2, h3, fun x hx => h4 x (hmono x hx), ?_⟩
          intro hst
          obtain ⟨ha, hb⟩ := hspres hst
          obtain ⟨hc, hd⟩ := h5 hst
          exact ⟨by rw [hc, ha], by rw [hd, hb]⟩
        · exact Or.inr ⟨h1, h2, h3⟩

theorem ncount_congr_nb {col1 col2 : CName → DColor} {l : List CName}
    (h : ∀ p ∈ l, (col1 p = DColor.BLACK ↔ col2 p = DColor.BLACK)) :
    ncount col1 l = ncount col2 l := by
  unfold ncount
  refine List.countP_congr (fun p hp => ?_)
  have := h p hp
  cases h1 : nbPred col1 p
  · have := nbPred_false_iff.mp h1
    rw [(nbPred_false_iff.mpr ((h p hp).mp this)).symm]
  · have := nbPred_true_iff.mp h1
    have h2 : col2 p ≠ DColor.BLACK := fun hb => this ((h p hp).mpr hb)
    rw [(nbPred_true_iff.mpr h2).symm]

/-- Seeding a pending root establishes the invariant with that root removed
from the pending list, and runs the queue to completion. -/
theorem seedAndRun_spec {strict : Bool} {E0 : List (CName × CName)}
    {N0 pend2 : List CName} {r : CName} {s : CState}
    (hI : Inv E0 N0 (r :: pend2) s) (hq : s.queue = []) :
    (∃ s2, seedAndRun strict r s = .ok s2 ∧ Inv E0 N0 pend2 s2 ∧ s2.queue = [] ∧
      (∀ x, s.colors x ≠ DColor.WHITE → s2.colors x ≠ DColor.WHITE) ∧
      s2.colors r ≠ DColor.WHITE ∧
      (strict = true → s2.nodes = s.nodes ∧ s2.rejected = s.rejected)) ∨
    (strict = true ∧ (∃ a, (a, a) ∈ E0) ∧
      seedAndRun strict r s = .error (.cycleErr "Back-edge found")) := by
  have hrpend : r ∈ r :: pend2 := List.mem_cons_self r pend2
  have hrN0 : r ∈ N0 := (hI.pend_pl r hrpend).2
  have hrw : s.colors r = DColor.WHITE := hI.pend_wh r hrpend
  have hrpl : nParents s.nodes r = [] := (hI.pend_pl r hrpend).1
  have hrnpend2 : r ∉ pend2 := (List.nodup_cons.mp hI.pend_nd).1
  have hrnts : r ∉ s.tsorted := by
    intro h
    rcases (hI.t_iff r).mp h with hc | hc
    · exact hc hrw
    · rw [hq] at hc
      cases hc
  have hIs1 : Inv E0 N0 pend2
      ({ s with colors := setf s.colors r DColor.GRAY,
                tsorted := s.tsorted ++ [r], queue := [r] }) := by
    refine ⟨hI.names_eq, hI.names_nd, hI.ch_nd, hI.pa_nd, hI.ch_cl, hI.sym,
      hI.union, hI.rej_dj, ?_, ?_, ?_, ?_, ?_, ?_, ?_, ?_, ?_, ?_, ?_, ?_, ?_, ?_,
      (List.nodup_cons.mp hI.pend_nd).2⟩
    · -- q_cl
      intro x hx
      rw [List.mem_singleton] at hx
      subst hx
      exact hrN0
    · -- q_nd
      exact List.nodup_singleton r
    · -- q_col
      intro x hx
      rw [List.mem_singleton] at hx
      subst hx
      show setf s.colors x DColor.GRAY x ≠ DColor.BLACK
      rw [setf_same]
      simp
    · -- gray_hd
      intro x hx
      show ∃ rest2, [r] = x :: rest2
      by_cases h : x = r
      · subst h
        exact ⟨[], rfl⟩
      · change setf s.colors r DColor.GRAY x = DColor.GRAY at hx
        rw [setf_other h] at hx
        obtain ⟨r2, hr2⟩ := hI.gray_hd x hx
        rw [hq] at hr2
        cases hr2
    · -- col_out
      intro x hx
      have hxr : x ≠ r := fun he => hx (he ▸ hrN0)
      show setf s.colors r DColor.GRAY x = DColor.WHITE
      rw [setf_other hxr]
      exact hI.col_out x hx
    · -- qinv
      intro x hxN0 hxw hxp
      show s.indeg x = (ncount (setf s.colors r DColor.GRAY) (nParents s.nodes x) : Int)
      have hxr : x ≠ r := by
        intro he
        subst he
        change setf s.colors x DColor.GRAY x = DColor.WHITE at hxw
        rw [setf_same] at hxw
        cases hxw
      change setf s.colors r DColor.GRAY x = DColor.WHITE at hxw
      rw [setf_other hxr] at hxw
      have hxp2 : x ∉ r :: pend2 := by
        intro h
        rcases List.mem_cons.mp h with h2 | h2
        · exact hxr h2
        · exact hxp h2
      have hold := hI.qinv x hxN0 hxw hxp2
      rw [hold]
      have : ncount (setf s.colors r DColor.GRAY) (nParents s.nodes x)
          = ncount s.colors (nParents s.nodes x) := by
        refine ncount_congr_nb (fun p hp => ?_)
        by_cases hpr : p = r
        · subst hpr
          rw [setf_same, hrw]
          simp
        · rw [setf_other hpr]
      rw [this]
    · -- zinv
      intro x hx hxw
      rw [List.mem_singleton] at hx
      subst hx
      change setf s.colors x DColor.GRAY x = DColor.WHITE at hxw
      rw [setf_same] at hxw
      cases hxw
    · -- winv
      intro x hxN0 hxw hxi
      have hxr : x ≠ r := by
        intro he
        subst he
        change setf s.colors x DColor.GRAY x = DColor.WHITE at hxw
        rw [setf_same] at hxw
        cases hxw
      change setf s.colors r DColor.GRAY x = DColor.WHITE at hxw
      rw [setf_other hxr] at hxw
      rcases hI.winv x hxN0 hxw hxi with hq2 | hp2
      · rw [hq] at hq2
        cases hq2
      · rcases List.mem_cons.mp hp2 with h2 | h2
        · exact absurd h2 hxr
        · exact Or.inr h2
    · -- t_iff
      intro x
      show x ∈ s.tsorted ++ [r] ↔
        (setf s.colors r DColor.GRAY x ≠ DColor.WHITE ∨ x ∈ [r])
      rw [List.mem_append, List.mem_singleton]
      by_cases hxr : x = r
      · subst hxr
        constructor
        · intro _
          exact Or.inr rfl
        · intro _
          exact Or.inr rfl
      · rw [setf_other hxr]
        have hold := hI.t_iff x
        rw [hq] at hold
        constructor
        · intro h
          rcases h with h | h
          · rcases hold.mp h with hc | hc
            · exact Or.inl hc
            · cases hc
          · exact absurd h hxr
        · intro h
          rcases h with h | h
          · exact Or.inl (hold.mpr (Or.inl h))
          · exact absurd h hxr
    · -- t_nd
      show (s.tsorted ++ [r]).Nodup
      rw [List.nodup_append]
      refine ⟨hI.t_nd, List.nodup_singleton r, ?_⟩
      intro a ha har
      rw [List.mem_singleton] at har
      subst har
      exact hrnts ha
    · -- porder
      intro x y hexy hyts
      show earlierIn (s.tsorted ++ [r]) x y
      change y ∈ s.tsorted ++ [r] at hyts
      rcases List.mem_append.mp hyts with hyt | hyr
      · exact earlierIn_append_left (hI.porder x y hexy hyt)
      · rw [List.mem_singleton] at hyr
        subst hyr
        exfalso
        have := (hI.sym x y).mp hexy
        change x ∈ nParents s.nodes y at this
        rw [hrpl] at this
        cases this
    · -- pend_pl
      intro z hz
      exact hI.pend_pl z (List.mem_cons_of_mem r hz)
    · -- pend_wh
      intro z hz
      have hzr : z ≠ r := fun he => hrnpend2 (he ▸ hz)
      show setf s.colors r DColor.GRAY z = DColor.WHITE
      rw [setf_other hzr]
      exact hI.pend_wh z (List.mem_cons_of_mem r hz)
    · -- pend_q
      intro z hz
      have hzr : z ≠ r := fun he => hrnpend2 (he ▸ hz)
      rw [List.mem_singleton]
      exact hzr
  rcases @bfsLoop_spec strict E0 N0 pend2 (cMeasure ({ s with colors := setf s.colors r DColor.GRAY, tsorted := s.tsorted ++ [r], queue := [r] }) + 1) ({ s with colors := setf s.colors r DColor.GRAY, tsorted := s.tsorted ++ [r], queue := [r] }) hIs1 (by omega) with ⟨s2, h1, h2, h3, h4, h5⟩ | ⟨h1, h2, h3⟩
  · refine Or.inl ⟨s2, h1, h2, h3, ?_, ?_, ?_⟩
    · intro x hx
      refine h4 x ?_
      show setf s.colors r DColor.GRAY x ≠ DColor.WHITE
      by_cases hxr : x = r
      · subst hxr
        rw [setf_same]
        simp
      · rw [setf_other hxr]
        exact hx
    · refine h4 r ?_
      show setf s.colors r DColor.GRAY r ≠ DColor.WHITE
      rw [setf_same]
      simp
    · intro hst
      obtain ⟨ha, hb⟩ := h5 hst
      exact ⟨ha, hb⟩
  · exact Or.inr ⟨h1, h2, h3⟩

/-! Characterization of the incoming-edge stripping loop of non-strict
remediation. -/

theorem stripFold_pres {u : CName} :
    ∀ (ps : List CName) (s : CState),
    (ps.foldl (fun s p => removeEdge s p u) s).colors = s.colors ∧
    (ps.foldl (fun s p => removeEdge s p u) s).indeg = s.indeg ∧
    (ps.foldl (fun s p => removeEdge s p u) s).queue = s.queue ∧
    (ps.foldl (fun s p => removeEdge s p u) s).tsorted = s.tsorted ∧
    nodeNames (ps.foldl (fun s p => removeEdge s p u) s).nodes = nodeNames s.nodes := by
  intro ps
  induction ps with
  | nil => intro s; exact ⟨rfl, rfl, rfl, rfl, rfl⟩
  | cons p qs ih =>
    intro s
    rw [List.foldl_cons]
    have h := ih (removeEdge s p u)
    refine ⟨h.1, h.2.1, h.2.2.1, h.2.2.2.1, ?_⟩
    rw [h.2.2.2.2, nodeNames_removeEdge]

theorem stripFold_rejected {u : CName} :
    ∀ (ps : List CName) (s : CState),
    (ps.foldl (fun s p => removeEdge s p u) s).rejected
      = s.rejected ++ ps.map (fun p => (p, u)) := by
  intro ps
  induction ps with
  | nil => intro s; simp
  | cons p qs ih =>
    intro s
    rw [List.foldl_cons, ih (removeEdge s p u), removeEdge_rejected, List.map_cons,
      List.append_assoc]
    rfl

theorem stripFold_ch_nd {u : CName} :
    ∀ (ps : List CName) (s : CState), (∀ z, (nChildren s.nodes z).Nodup) →
    ∀ z, (nChildren ((ps.foldl (fun s p => removeEdge s p u) s)).nodes z).Nodup := by
  intro ps
  induction ps with
  | nil => intro s h; exact h
  | cons p qs ih =>
    intro s h
    rw [List.foldl_cons]
    refine ih (removeEdge s p u) (fun z => ?_)
    rw [nChildren_removeEdge]
    by_cases hz : z = p
    · rw [if_pos hz]; exact (h z).erase u
    · rw [if_neg hz]; exact h z

theorem stripFold_pa_nd {u : CName} :
    ∀ (ps : List CName) (s : CState), (∀ z, (nParents s.nodes z).Nodup) →
    ∀ z, (nParents ((ps.foldl (fun s p => removeEdge s p u) s)).nodes z).Nodup := by
  intro ps
  induction ps with
  | nil => intro s h; exact h
  | cons p qs ih =>
    intro s h
    rw [List.foldl_cons]
    refine ih (removeEdge s p u) (fun z => ?_)
    rw [nParents_removeEdge]
    by_cases hz : z = u
    · rw [if_pos hz]; exact (h z).erase p
    · rw [if_neg hz]; exact h z

theorem stripFold_edgeC {u : CName} :
    ∀ (ps : List CName) (s : CState), (∀ z, (nChildren s.nodes z).Nodup) →
    ∀ x y, edgeC ((ps.foldl (fun s p => removeEdge s p u) s)).nodes x y ↔
      (edgeC s.nodes x y ∧ ¬(x ∈ ps ∧ y = u)) := by
  intro ps
  induction ps with
  | nil =>
    intro s _ x y
    simp
  | cons p qs ih =>
    intro s hnd x y
    rw [List.foldl_cons]
    have hnd' : ∀ z, (nChildren (removeEdge s p u).nodes z).Nodup := by
      intro z
      rw [nChildren_removeEdge]
      by_cases hz : z = p
      · rw [if_pos hz]; exact (hnd z).erase u
      · rw [if_neg hz]; exact hnd z
    rw [ih (removeEdge s p u) hnd' x y]
    unfold edgeC
    rw [nChildren_removeEdge]
    by_cases hx : x = p
    · rw [if_pos hx]
      rw [List.Nodup.mem_erase_iff (hnd x)]
      constructor
      · rintro ⟨⟨hyu, hym⟩, hnr⟩
        refine ⟨hym, ?_⟩
        rintro ⟨_, hyeq⟩
        exact hyu hyeq
      · rintro ⟨hym, hnr⟩
        refine ⟨⟨fun hyu => hnr ⟨by rw [hx]; exact List.mem_cons_self p qs, hyu⟩, hym⟩, ?_⟩
        rintro ⟨hxq, hyeq⟩
        exact hnr ⟨List.mem_cons_of_mem p hxq, hyeq⟩
    · rw [if_neg hx]
      constructor
      · rintro ⟨hym, hnr⟩
        refine ⟨hym, ?_⟩
        rintro ⟨hxm, hyeq⟩
        rcases List.mem_cons.mp hxm with h2 | h2
        · exact hx h2
        · exact hnr ⟨h2, hyeq⟩
      · rintro ⟨hym, hnr⟩
        exact ⟨hym, fun ⟨hxq, hyeq⟩ => hnr ⟨List.mem_cons_of_mem p hxq, hyeq⟩⟩

theorem stripFold_edgeP {u : CName} :
    ∀ (ps : List CName) (s : CState), (∀ z, (nParents s.nodes z).Nodup) →
    ∀ x y, edgeP ((ps.foldl (fun s p => removeEdge s p u) s)).nodes x y ↔
      (edgeP s.nodes x y ∧ ¬(x ∈ ps ∧ y = u)) := by
  intro ps
  induction ps with
  | nil =>
    intro s _ x y
    simp
  | cons p qs ih =>
    intro s hnd x y
    rw [List.foldl_cons]
    have hnd' : ∀ z, (nParents (removeEdge s p u).nodes z).Nodup := by
      intro z
      rw [nParents_removeEdge]
      by_cases hz : z = u
      · rw [if_pos hz]; exact (hnd z).erase p
      · rw [if_neg hz]; exact hnd z
    rw [ih (removeEdge s p u) hnd' x y]
    unfold edgeP
    rw [nParents_removeEdge]
    by_cases hy : y = u
    · rw [if_pos hy]
      rw [List.Nodup.mem_erase_iff (hnd y)]
      constructor
      · rintro ⟨⟨hxp, hxm⟩, hnr⟩
        refine ⟨hxm, ?_⟩
        rintro ⟨hxm2, hyeq⟩
        rcases List.mem_cons.mp hxm2 with h2 | h2
        · exact hxp h2
        · exact hnr ⟨h2, hyeq⟩
      · rintro ⟨hxm, hnr⟩
        refine ⟨⟨fun hxp => hnr ⟨by rw [hxp]; exact List.mem_cons_self p qs, hy⟩, hxm⟩, ?_⟩
        rintro ⟨hxq, hyeq⟩
        exact hnr ⟨List.mem_cons_of_mem p hxq, hyeq⟩
    · rw [if_neg hy]
      constructor
      · rintro ⟨hxm, hnr⟩
        exact ⟨hxm, fun ⟨_, hyeq⟩ => hy hyeq⟩
      · rintro ⟨hxm, hnr⟩
        exact ⟨hxm, fun ⟨hxq, hyeq⟩ => hy hyeq⟩

theorem stripFold_nParents_u {u : CName} :
    ∀ (ps : List CName) (s : CState),
    nParents ((ps.foldl (fun s p => removeEdge s p u) s)).nodes u
      = ps.foldl (fun l p => l.erase p) (nParents s.nodes u) := by
  intro ps
  induction ps with
  | nil => intro s; rfl
  | cons p qs ih =>
    intro s
    rw [List.foldl_cons, List.foldl_cons, ih (removeEdge s p u), nParents_removeEdge,
      if_pos rfl]

theorem stripFold_nParents_other {u : CName} :
    ∀ (ps : List CName) (s : CState) (y : CName), y ≠ u →
    nParents ((ps.foldl (fun s p => removeEdge s p u) s)).nodes y
      = nParents s.nodes y := by
  intro ps
  induction ps with
  | nil => intro s y _; rfl
  | cons p qs ih =>
    intro s y hy
    rw [List.foldl_cons, ih (removeEdge s p u) y hy, nParents_removeEdge, if_neg hy]

theorem foldl_erase_gen : ∀ l acc : List CName, (∀ x ∈ acc, x ∈ l) → acc.Nodup →
    l.foldl (fun acc p => acc.erase p) acc = [] := by
  intro l
  induction l with
  | nil =>
    intro acc hacc _
    cases hacc2 : acc with
    | nil => rfl
    | cons a t => exact absurd (hacc a (by rw [hacc2]; exact List.mem_cons_self a t)) (by simp)
  | cons p qs ih =>
    intro acc hacc hnd
    rw [List.foldl_cons]
    refine ih (acc.erase p) (fun x hx => ?_) (hnd.erase p)
    obtain ⟨hxp, hx2⟩ := (List.Nodup.mem_erase_iff hnd).mp hx
    rcases List.mem_cons.mp (hacc x hx2) with h | h
    · exact absurd h hxp
    · exact h

theorem foldl_erase_self (l : List CName) (hl : l.Nodup) :
    l.foldl (fun acc p => acc.erase p) l = [] :=
  foldl_erase_gen l l (fun _ hx => hx) hl

/-- The snapshot parent list taken by `stripIncoming` is `nParents`. -/
theorem stripIncoming_eq (u : CName) (s : CState) :
    stripIncoming u s = (nParents s.nodes u).foldl (fun s p => removeEdge s p u) s := by
  unfold stripIncoming nParents
  cases getNode s.nodes u with
  | none => rfl
  | some nd => rfl

/-- The traversal invariant ignores the `roots` output field. -/
theorem Inv_roots {E0 : List (CName × CName)} {N0 pend : List CName} {s : CState}
    {r2 : List CName} (hI : Inv E0 N0 pend s) : Inv E0 N0 pend { s with roots := r2 } :=
  ⟨hI.names_eq, hI.names_nd, hI.ch_nd, hI.pa_nd, hI.ch_cl, hI.sym, hI.union,
    hI.rej_dj, hI.q_cl, hI.q_nd, hI.q_col, hI.gray_hd, hI.col_out, hI.qinv,
    hI.zinv, hI.winv, hI.t_iff, hI.t_nd, hI.porder, hI.pend_pl, hI.pend_wh,
    hI.pend_q, hI.pend_nd⟩

/-- Stripping the incoming edges of a still-white node `u` turns it into a
valid pending root: the invariant holds with `u` pending, and the colors,
indegrees and queue are untouched. -/
theorem stripIncoming_spec {E0 : List (CName × CName)} {N0 : List CName}
    {s : CState} {u : CName} (hI : Inv E0 N0 [] s) (hq : s.queue = [])
    (huN : u ∈ N0) (huw : s.colors u = DColor.WHITE) :
    Inv E0 N0 [u] (stripIncoming u s) ∧
    (stripIncoming u s).colors = s.colors ∧
    (stripIncoming u s).queue = s.queue := by
  rw [stripIncoming_eq]
  have hpres := @stripFold_pres u (nParents s.nodes u) s
  obtain ⟨hcol, hind, hqu, hts, hnm⟩ := hpres
  have hrej := @stripFold_rejected u (nParents s.nodes u) s
  have hC := @stripFold_edgeC u (nParents s.nodes u) s hI.ch_nd
  have hP := @stripFold_edgeP u (nParents s.nodes u) s hI.pa_nd
  have hpu : nParents ((nParents s.nodes u).foldl
      (fun s p => removeEdge s p u) s).nodes u = [] := by
    rw [@stripFold_nParents_u u (nParents s.nodes u) s,
      foldl_erase_self (nParents s.nodes u) (hI.pa_nd u)]
  have hpo := @stripFold_nParents_other u (nParents s.nodes u) s
  refine ⟨⟨?_, hI.names_nd, @stripFold_ch_nd u (nParents s.nodes u) s hI.ch_nd,
    @stripFold_pa_nd u (nParents s.nodes u) s hI.pa_nd, ?_, ?_, ?_, ?_, ?_, ?_,
    ?_, ?_, ?_, ?_, ?_, ?_, ?_, ?_, ?_, ?_, ?_, ?_, ?_⟩, hcol, hqu⟩
  · rw [hnm]; exact hI.names_eq
  · intro x y h
    exact hI.ch_cl x y ((hC x y).mp h).1
  · intro x y
    rw [hC x y, hP x y, hI.sym x y]
  · intro x y
    rw [hrej, hC x y]
    constructor
    · intro hE
      rcases (hI.union x y).mp hE with he | hr
      · by_cases hxy : x ∈ nParents s.nodes u ∧ y = u
        · refine Or.inr (List.mem_append_right _ ?_)
          rw [List.mem_map]
          exact ⟨x, hxy.1, by rw [hxy.2]⟩
        · exact Or.inl ⟨he, hxy⟩
      · exact Or.inr (List.mem_append_left _ hr)
    · intro h
      rcases h with ⟨he, _⟩ | hr
      · exact (hI.union x y).mpr (Or.inl he)
      · rcases List.mem_append.mp hr with hr | hr
        · exact (hI.union x y).mpr (Or.inr hr)
        · rw [List.mem_map] at hr
          obtain ⟨p, hp, hpe⟩ := hr
          rw [Prod.mk.injEq] at hpe
          obtain ⟨hp1, hp2⟩ := hpe
          refine (hI.union x y).mpr (Or.inl ?_)
          rw [← hp1, ← hp2]
          rw [hI.sym p u]
          unfold edgeP
          exact hp
  · intro x y hr
    rw [hrej] at hr
    rw [hC x y]
    rcases List.mem_append.mp hr with hr | hr
    · rintro ⟨he, _⟩
      exact hI.rej_dj x y hr he
    · rw [List.mem_map] at hr
      obtain ⟨p, hp, hpe⟩ := hr
      rw [Prod.mk.injEq] at hpe
      obtain ⟨hp1, hp2⟩ := hpe
      rintro ⟨_, hn⟩
      exact hn ⟨by rw [← hp1]; exact hp, hp2.symm⟩
  · intro x hx
    rw [hqu, hq] at hx
    cases hx
  · rw [hqu, hq]
    exact List.nodup_nil
  · intro x hx
    rw [hqu, hq] at hx
    cases hx
  · intro x hcx
    rw [hcol] at hcx
    obtain ⟨rest, hrest⟩ := hI.gray_hd x hcx
    rw [hq] at hrest
    cases hrest
  · intro x hx
    rw [hcol]
    exact hI.col_out x hx
  · intro x hxN hxw hxp
    have hxu : x ≠ u := by
      intro h
      exact hxp (by rw [h]; exact List.mem_cons_self u [])
    rw [hcol] at hxw
    rw [hcol, hind, hpo x hxu]
    exact hI.qinv x hxN hxw (List.not_mem_nil x)
  · intro x hx
    rw [hqu, hq] at hx
    cases hx
  · intro x hxN hxw hxz
    rw [hcol] at hxw
    rw [hind] at hxz
    rcases hI.winv x hxN hxw hxz with hc | hc
    · rw [hq] at hc
      cases hc
    · cases hc
  · intro x
    rw [hts, hcol, hqu]
    exact hI.t_iff x
  · rw [hts]
    exact hI.t_nd
  · intro x y he hy
    rw [hts] at hy ⊢
    exact hI.porder x y ((hC x y).mp he).1 hy
  · intro x hx
    rcases List.mem_cons.mp hx with h | h
    · subst h
      exact ⟨hpu, huN⟩
    · cases h
  · intro x hx
    rcases List.mem_cons.mp hx with h | h
    · subst h
      rw [hcol]
      exact huw
    · cases h
  · intro x hx hq2
    rw [hqu, hq] at hq2
    cases hq2
  · exact List.nodup_singleton u

theorem whileLoop_succ_none {strict : Bool} {fuel : Nat} {s : CState}
    (h : (whiteNames s).getLast? = none) :
    whileLoop strict (fuel + 1) s = .ok s := by
  show (match (whiteNames s).getLast? with
    | none => Except.ok s
    | some u =>
      match seedAndRun strict u
          ({ stripIncoming u s with roots := (stripIncoming u s).roots ++ [u] }) with
      | .error e => .error e
      | .ok s3 => whileLoop strict fuel s3) = .ok s
  rw [h]

theorem whileLoop_succ_some {strict : Bool} {fuel : Nat} {s : CState} {u : CName}
    (h : (whiteNames s).getLast? = some u) :
    whileLoop strict (fuel + 1) s =
      match seedAndRun strict u
          ({ stripIncoming u s with roots := (stripIncoming u s).roots ++ [u] }) with
      | .error e => .error e
      | .ok s3 => whileLoop strict fuel s3 := by
  show (match (whiteNames s).getLast? with
    | none => Except.ok s
    | some u =>
      match seedAndRun strict u
          ({ stripIncoming u s with roots := (stripIncoming u s).roots ++ [u] }) with
      | .error e => .error e
      | .ok s3 => whileLoop strict fuel s3) = _
  rw [h]

/-- The unvisited-node list is the white-name filter of the invariant name
universe. -/
theorem whiteNames_eq {E0 : List (CName × CName)} {N0 pend : List CName}
    {s : CState} (hI : Inv E0 N0 pend s) :
    whiteNames s = N0.filter (fun x => s.colors x = DColor.WHITE) := by
  unfold whiteNames
  rw [show s.nodes.map (fun nd => nd.name) = nodeNames s.nodes from rfl, hI.names_eq]

/-- The non-strict remediation loop: with enough fuel it terminates
successfully, preserving the invariant with nothing pending, and afterwards
no white (unvisited) node remains. -/
theorem whileLoop_spec {E0 : List (CName × CName)} {N0 : List CName} :
    ∀ (fuel : Nat) (s : CState), Inv E0 N0 [] s → s.queue = [] →
    (whiteNames s).length < fuel →
    ∃ s2, whileLoop false fuel s = .ok s2 ∧ Inv E0 N0 [] s2 ∧ s2.queue = [] ∧
      whiteNames s2 = [] := by
  intro fuel
  induction fuel with
  | zero =>
    intro s _ _ hf
    omega
  | succ fuel ih =>
    intro s hI hq hf
    cases hlast : (whiteNames s).getLast? with
    | none =>
      refine ⟨s, whileLoop_succ_none hlast, hI, hq, ?_⟩
      cases hw : whiteNames s with
      | nil => rfl
      | cons a t =>
        rw [hw] at hlast
        rw [List.getLast?_eq_none_iff] at hlast
        cases hlast
    | some u =>
      have humem : u ∈ whiteNames s := List.mem_of_mem_getLast? hlast
      rw [whiteNames_eq hI, List.mem_filter] at humem
      obtain ⟨huN, huw⟩ := humem
      rw [decide_eq_true_eq] at huw
      obtain ⟨hIF, hcolF, hqF⟩ := stripIncoming_spec hI hq huN huw
      have hIR : Inv E0 N0 [u]
          ({ stripIncoming u s with roots := (stripIncoming u s).roots ++ [u] }) :=
        Inv_roots hIF
      have hqR : ({ stripIncoming u s with
          roots := (stripIncoming u s).roots ++ [u] } : CState).queue = [] := by
        show (stripIncoming u s).queue = []
        rw [hqF, hq]
      rcases @seedAndRun_spec false E0 N0 [] u
          ({ stripIncoming u s with roots := (stripIncoming u s).roots ++ [u] })
          hIR hqR with ⟨s3, hrun, hI3, hq3, hmono, hunw, _⟩ | ⟨hc, _, _⟩
      · have hmono' : ∀ x, s.colors x ≠ DColor.WHITE → s3.colors x ≠ DColor.WHITE := by
          intro x hx
          refine hmono x ?_
          show (stripIncoming u s).colors x ≠ DColor.WHITE
          rw [hcolF]
          exact hx
        have hlen : (whiteNames s3).length < (whiteNames s).length := by
          rw [whiteNames_eq hI3, whiteNames_eq hI,
            ← List.countP_eq_length_filter, ← List.countP_eq_length_filter]
          refine countP_lt_countP _ _ ?_ u huN
            (by simp only [decide_eq_true_eq]; exact huw) ?_
          · intro x _ hx
            simp only [decide_eq_true_eq] at hx ⊢
            by_contra hxw
            exact hmono' x hxw hx
          · simp only [decide_eq_false_iff_not, decide_eq_true_eq]
            exact hunw
        obtain ⟨s4, hrun4, hI4, hq4, hw4⟩ := ih s3 hI3 hq3 (by omega)
        refine ⟨s4, ?_, hI4, hq4, hw4⟩
        rw [whileLoop_succ_some hlast, hrun]
        exact hrun4
      · cases hc

/-! Characterization of `init_nodes`. -/

theorem nodup_append_one {l : List CName} {a : CName} (h : l.Nodup) (h2 : a ∉ l) :
    (l ++ [a]).Nodup := by
  rw [List.nodup_append]
  refine ⟨h, List.nodup_singleton a, ?_⟩
  intro x hx hx2
  rw [List.mem_singleton] at hx2
  subst hx2
  exact h2 hx

theorem getNode_append_some {ns : List DependencyNode} {nd v : DependencyNode}
    {x : CName} (h : getNode ns x = some v) : getNode (ns ++ [nd]) x = some v := by
  induction ns with
  | nil => cases h
  | cons nd0 tl ih =>
    by_cases hn : nd0.name = x
    · rw [getNode_cons_of_name hn] at h
      rw [List.cons_append, getNode_cons_of_name hn]
      exact h
    · rw [getNode_cons_of_ne hn] at h
      rw [List.cons_append, getNode_cons_of_ne hn]
      exact ih h

theorem getNode_append_none {ns : List DependencyNode} {nd : DependencyNode}
    {x : CName} (h : getNode ns x = none) :
    getNode (ns ++ [nd]) x = if nd.name = x then some nd else none := by
  induction ns with
  | nil =>
    by_cases hn : nd.name = x
    · rw [if_pos hn, List.nil_append]
      exact getNode_cons_of_name hn
    · rw [if_neg hn, List.nil_append]
      rw [getNode_cons_of_ne hn]
      rfl
  | cons nd0 tl ih =>
    by_cases hn : nd0.name = x
    · rw [getNode_cons_of_name hn] at h
      cases h
    · rw [getNode_cons_of_ne hn] at h
      rw [List.cons_append, getNode_cons_of_ne hn]
      exact ih h

theorem nodeNames_append {ns1 ns2 : List DependencyNode} :
    nodeNames (ns1 ++ ns2) = nodeNames ns1 ++ nodeNames ns2 := by
  unfold nodeNames
  exact List.map_append _ ns1 ns2

theorem addNode_ok {ns ns' : List DependencyNode} {nm : CName} {attrs : CompAttrs}
    (h : addNode ns nm attrs = .ok ns') :
    getNode ns nm = none ∧ ns' = ns ++ [⟨nm, attrs, [], []⟩] := by
  unfold addNode at h
  by_cases hg : (getNode ns nm).isSome
  · rw [if_pos hg] at h
    cases h
  · rw [if_neg hg] at h
    injection h with h
    exact ⟨Option.not_isSome_iff_eq_none.mp hg, h.symm⟩

theorem addNode_ok_of {ns : List DependencyNode} {nm : CName} {attrs : CompAttrs}
    (h : getNode ns nm = none) :
    addNode ns nm attrs = .ok (ns ++ [⟨nm, attrs, [], []⟩]) := by
  unfold addNode
  rw [if_neg (by rw [h]; simp)]

theorem nodesFold_error {comps : List (CName × CompAttrs)} {e : BuildErr} :
    comps.foldl (fun (acc : Except BuildErr (List DependencyNode)) p =>
      match acc with
      | .error e => .error e
      | .ok ns => addNode ns p.1 p.2) (.error e) = .error e := by
  induction comps with
  | nil => rfl
  | cons p rest ih => exact ih

theorem nodesFold_ok : ∀ (comps : List (CName × CompAttrs))
    (ns0 ns : List DependencyNode),
    comps.foldl (fun (acc : Except BuildErr (List DependencyNode)) p =>
      match acc with
      | .error e => .error e
      | .ok ns => addNode ns p.1 p.2) (.ok ns0) = .ok ns →
    nodeNames ns = nodeNames ns0 ++ comps.map (fun p => p.1) ∧
    ((nodeNames ns0).Nodup → (nodeNames ns).Nodup) ∧
    ((∀ x, nChildren ns0 x = []) → ∀ x, nChildren ns x = []) ∧
    ((∀ x, nParents ns0 x = []) → ∀ x, nParents ns x = []) := by
  intro comps
  induction comps with
  | nil =>
    intro ns0 ns h
    injection h with h
    subst h
    exact ⟨by simp, fun h => h, fun h => h, fun h => h⟩
  | cons p rest ih =>
    intro ns0 ns h
    rw [List.foldl_cons] at h
    change List.foldl _ (addNode ns0 p.1 p.2) rest = Except.ok ns at h
    cases hadd : addNode ns0 p.1 p.2 with
    | error e =>
      rw [hadd, nodesFold_error] at h
      cases h
    | ok ns1 =>
      rw [hadd] at h
      obtain ⟨hg0, hns1⟩ := addNode_ok hadd
      obtain ⟨ha, hb, hc, hd⟩ := ih ns1 ns h
      have hnames1 : nodeNames ns1 = nodeNames ns0 ++ [p.1] := by
        rw [hns1, nodeNames_append]
        rfl
      have hp1 : p.1 ∉ nodeNames ns0 := by
        intro hmem
        have := getNode_isSome_iff.mpr hmem
        rw [hg0] at this
        cases this
      refine ⟨?_, ?_, ?_, ?_⟩
      · rw [ha, hnames1, List.append_assoc]
        rfl
      · intro hnd
        refine hb ?_
        rw [hnames1]
        exact nodup_append_one hnd hp1
      · intro hch
        refine hc ?_
        intro x
        rw [hns1]
        unfold nChildren
        cases hg : getNode ns0 x with
        | some nd =>
          rw [getNode_append_some hg]
          have := hch x
          unfold nChildren at this
          rw [hg] at this
          exact this
        | none =>
          rw [getNode_append_none hg]
          by_cases hx : p.1 = x
          · rw [if_pos hx]
            rfl
          · rw [if_neg hx]
            rfl
      · intro hpa
        refine hd ?_
        intro x
        rw [hns1]
        unfold nParents
        cases hg : getNode ns0 x with
        | some nd =>
          rw [getNode_append_some hg]
          have := hpa x
          unfold nParents at this
          rw [hg] at this
          exact this
        | none =>
          rw [getNode_append_none hg]
          by_cases hx : p.1 = x
          · rw [if_pos hx]
            rfl
          · rw [if_neg hx]
            rfl

theorem nodesFold_ok_of : ∀ (comps : List (CName × CompAttrs))
    (ns0 : List DependencyNode),
    (comps.map (fun p => p.1)).Nodup →
    (∀ nm ∈ comps.map (fun p => p.1), nm ∉ nodeNames ns0) →
    ∃ ns, comps.foldl (fun (acc : Except BuildErr (List DependencyNode)) p =>
      match acc with
      | .error e => .error e
      | .ok ns => addNode ns p.1 p.2) (.ok ns0) = .ok ns := by
  intro comps
  induction comps with
  | nil =>
    intro ns0 _ _
    exact ⟨ns0, rfl⟩
  | cons p rest ih =>
    intro ns0 hnd hfresh
    have hp1 : p.1 ∉ nodeNames ns0 :=
      hfresh p.1 (by rw [List.map_cons]; exact List.mem_cons_self _ _)
    have hg0 : getNode ns0 p.1 = none := by
      cases hg : getNode ns0 p.1 with
      | none => rfl
      | some nd =>
        exact absurd (getNode_isSome_iff.mp (by rw [hg]; rfl)) hp1
    have hadd := @addNode_ok_of ns0 p.1 p.2 hg0
    rw [List.map_cons] at hnd hfresh
    obtain ⟨hp1r, hndr⟩ := List.nodup_cons.mp hnd
    have hfresh2 : ∀ nm ∈ rest.map (fun p => p.1),
        nm ∉ nodeNames (ns0 ++ [⟨p.1, p.2, [], []⟩]) := by
      intro nm hnm hmem
      rw [nodeNames_append] at hmem
      rcases List.mem_append.mp hmem with hmem | hmem
      · exact hfresh nm (List.mem_cons_of_mem _ hnm) hmem
      · rw [show nodeNames [(⟨p.1, p.2, [], []⟩ : DependencyNode)] = [p.1] from rfl,
          List.mem_singleton] at hmem
        subst hmem
        exact hp1r hnm
    obtain ⟨ns, hns⟩ := ih (ns0 ++ [⟨p.1, p.2, [], []⟩]) hndr hfresh2
    refine ⟨ns, ?_⟩
    rw [List.foldl_cons]
    change List.foldl _ (addNode ns0 p.1 p.2) rest = Except.ok ns
    rw [hadd]
    exact hns

/-! Characterization of `init_edges`. -/

theorem addEdge_ok {ns ns' : List DependencyNode} {a b : CName}
    (h : addEdge ns a b = .ok ns') :
    a ∈ nodeNames ns ∧ b ∈ nodeNames ns ∧ ¬ edgeC ns a b ∧
    ns' = updNode (updNode ns a (addChildFn b)) b (addParentFn a) := by
  unfold addEdge at h
  cases hga : getNode ns a with
  | none =>
    rw [hga] at h
    cases h
  | some comp =>
    rw [hga] at h
    cases hgb : getNode ns b with
    | none =>
      rw [hgb] at h
      cases h
    | some nd2 =>
      rw [hgb] at h
      dsimp only at h
      by_cases hdup : b ∈ comp.children
      · rw [if_pos hdup] at h
        cases h
      · rw [if_neg hdup] at h
        injection h with h
        refine ⟨getNode_isSome_iff.mp (by rw [hga]; rfl),
          getNode_isSome_iff.mp (by rw [hgb]; rfl), ?_, h.symm⟩
        intro he
        unfold edgeC nChildren at he
        rw [hga, Option.map_some', Option.getD_some] at he
        exact hdup he

theorem addEdge_ok_of {ns : List DependencyNode} {a b : CName}
    (ha : a ∈ nodeNames ns) (hb : b ∈ nodeNames ns) (hne : ¬ edgeC ns a b) :
    addEdge ns a b = .ok (updNode (updNode ns a (addChildFn b)) b (addParentFn a)) := by
  unfold addEdge
  cases hga : getNode ns a with
  | none =>
    have := getNode_isSome_iff.mpr ha
    rw [hga] at this
    cases this
  | some comp =>
    cases hgb : getNode ns b with
    | none =>
      have := getNode_isSome_iff.mpr hb
      rw [hgb] at this
      cases this
    | some nd2 =>
      dsimp only
      rw [if_neg ?_]
      intro hdup
      refine hne ?_
      unfold edgeC nChildren
      rw [hga, Option.map_some', Option.getD_some]
      exact hdup

theorem addEdge_result_names {ns : List DependencyNode} {a b : CName} :
    nodeNames (updNode (updNode ns a (addChildFn b)) b (addParentFn a))
      = nodeNames ns := by
  rw [nodeNames_updNode (addParentFn_name a), nodeNames_updNode (addChildFn_name b)]

theorem addEdge_result_nChildren {ns : List DependencyNode} {a b : CName}
    (ha : a ∈ nodeNames ns) (x : CName) :
    nChildren (updNode (updNode ns a (addChildFn b)) b (addParentFn a)) x
      = if x = a then nChildren ns a ++ [b] else nChildren ns x := by
  rw [nChildren_updNode_keep (addParentFn_name a) (fun nd => rfl)]
  unfold nChildren
  rw [getNode_updNode (addChildFn_name b)]
  by_cases hx : x = a
  · rw [if_pos hx, if_pos hx, hx]
    cases hga : getNode ns a with
    | none =>
      have hsome := getNode_isSome_iff.mpr ha
      rw [hga] at hsome
      simp at hsome
    | some comp => simp [addChildFn]
  · rw [if_neg hx, if_neg hx]

theorem addEdge_result_nParents {ns : List DependencyNode} {a b : CName}
    (hb : b ∈ nodeNames ns) (x : CName) :
    nParents (updNode (updNode ns a (addChildFn b)) b (addParentFn a)) x
      = if x = b then nParents ns b ++ [a] else nParents ns x := by
  unfold nParents
  rw [getNode_updNode (addParentFn_name a)]
  by_cases hx : x = b
  · rw [if_pos hx, if_pos hx, hx]
    rw [getNode_updNode (addChildFn_name b)]
    by_cases hba : b = a
    · rw [if_pos hba]
      cases hgb : getNode ns b with
      | none =>
        have hsome := getNode_isSome_iff.mpr hb
        rw [hgb] at hsome
        simp at hsome
      | some nd2 => simp [addParentFn, addChildFn]
    · rw [if_neg hba]
      cases hgb : getNode ns b with
      | none =>
        have hsome := getNode_isSome_iff.mpr hb
        rw [hgb] at hsome
        simp at hsome
      | some nd2 => simp [addParentFn]
  · rw [if_neg hx, if_neg hx]
    rw [getNode_updNode (addChildFn_name b)]
    by_cases hxa : x = a
    · rw [if_pos hxa]
      cases hg : getNode ns x with
      | none => rfl
      | some nd => simp [addChildFn]
    · rw [if_neg hxa]

theorem addEdge_edgeC {ns ns' : List DependencyNode} {a b : CName}
    (h : addEdge ns a b = .ok ns') (x y : CName) :
    edgeC ns' x y ↔ (edgeC ns x y ∨ (x = a ∧ y = b)) := by
  obtain ⟨ha, _, _, hns⟩ := addEdge_ok h
  subst hns
  unfold edgeC
  rw [addEdge_result_nChildren ha x]
  by_cases hx : x = a
  · subst hx
    rw [if_pos rfl, List.mem_append, List.mem_singleton]
    constructor
    · rintro (h2 | h2)
      · exact Or.inl h2
      · exact Or.inr ⟨rfl, h2⟩
    · rintro (h2 | ⟨_, h2⟩)
      · exact Or.inl h2
      · exact Or.inr h2
  · rw [if_neg hx]
    constructor
    · exact Or.inl
    · rintro (h2 | ⟨h2, _⟩)
      · exact h2
      · exact absurd h2 hx

theorem addEdge_edgeP {ns ns' : List DependencyNode} {a b : CName}
    (h : addEdge ns a b = .ok ns') (x y : CName) :
    edgeP ns' x y ↔ (edgeP ns x y ∨ (x = a ∧ y = b)) := by
  obtain ⟨_, hb, _, hns⟩ := addEdge_ok h
  subst hns
  unfold edgeP
  rw [addEdge_result_nParents hb y]
  by_cases hy : y = b
  · subst hy
    rw [if_pos rfl, List.mem_append, List.mem_singleton]
    constructor
    · rintro (h2 | h2)
      · exact Or.inl h2
      · exact Or.inr ⟨h2, rfl⟩
    · rintro (h2 | ⟨h2, _⟩)
      · exact Or.inl h2
      · exact Or.inr h2
  · rw [if_neg hy]
    constructor
    · exact Or.inl
    · rintro (h2 | ⟨_, h2⟩)
      · exact h2
      · exact absurd h2 hy

theorem edgesFold_error {ds : List (CName × CName)} {e : BuildErr} :
    ds.foldl (fun (acc : Except BuildErr (List DependencyNode)) d =>
      match acc with
      | .error e => .error e
      | .ok ns => addEdge ns d.1 d.2) (.error e) = .error e := by
  induction ds with
  | nil => rfl
  | cons d rest ih => exact ih

theorem edgesFold_ok : ∀ (ds : List (CName × CName)) (ns1 ns2 : List DependencyNode),
    ds.foldl (fun (acc : Except BuildErr (List DependencyNode)) d =>
      match acc with
      | .error e => .error e
      | .ok ns => addEdge ns d.1 d.2) (.ok ns1) = .ok ns2 →
    (∀ x y, edgeC ns1 x y ↔ edgeP ns1 x y) →
    (∀ x, (nChildren ns1 x).Nodup) →
    (∀ x, (nParents ns1 x).Nodup) →
    (∀ x y, edgeC ns1 x y → y ∈ nodeNames ns1) →
    nodeNames ns2 = nodeNames ns1 ∧
    (∀ x y, edgeC ns2 x y ↔ (edgeC ns1 x y ∨ (x, y) ∈ ds)) ∧
    (∀ x y, edgeC ns2 x y ↔ edgeP ns2 x y) ∧
    (∀ x, (nChildren ns2 x).Nodup) ∧
    (∀ x, (nParents ns2 x).Nodup) ∧
    (∀ x y, edgeC ns2 x y → y ∈ nodeNames ns2) := by
  intro ds
  induction ds with
  | nil =>
    intro ns1 ns2 h hsym hchnd hpand hcl
    injection h with h
    subst h
    refine ⟨rfl, ?_, hsym, hchnd, hpand, hcl⟩
    intro x y
    simp
  | cons d rest ih =>
    intro ns1 ns2 h hsym hchnd hpand hcl
    rw [List.foldl_cons] at h
    change List.foldl _ (addEdge ns1 d.1 d.2) rest = Except.ok ns2 at h
    cases hadd : addEdge ns1 d.1 d.2 with
    | error e =>
      rw [hadd, edgesFold_error] at h
      cases h
    | ok nsm =>
      rw [hadd] at h
      obtain ⟨ha, hb, hnedge, hnsm⟩ := addEdge_ok hadd
      have hCm := addEdge_edgeC hadd
      have hPm := addEdge_edgeP hadd
      have hsymm : ∀ x y, edgeC nsm x y ↔ edgeP nsm x y := by
        intro x y
        rw [hCm x y, hPm x y, hsym x y]
      have hchndm : ∀ x, (nChildren nsm x).Nodup := by
        intro x
        rw [hnsm, addEdge_result_nChildren ha x]
        by_cases hx : x = d.1
        · rw [if_pos hx]
          refine nodup_append_one (hchnd d.1) ?_
          exact fun hmem => hnedge hmem
        · rw [if_neg hx]
          exact hchnd x
      have hpandm : ∀ x, (nParents nsm x).Nodup := by
        intro x
        rw [hnsm, addEdge_result_nParents hb x]
        by_cases hx : x = d.2
        · rw [if_pos hx]
          refine nodup_append_one (hpand d.2) ?_
          intro hmem
          refine hnedge ?_
          rw [hsym d.1 d.2]
          exact hmem
        · rw [if_neg hx]
          exact hpand x
      have hnamesm : nodeNames nsm = nodeNames ns1 := by
        rw [hnsm]
        exact addEdge_result_names
      have hclm : ∀ x y, edgeC nsm x y → y ∈ nodeNames nsm := by
        intro x y he
        rw [hnamesm]
        rcases (hCm x y).mp he with h2 | ⟨_, h2⟩
        · exact hcl x y h2
        · rw [h2]
          exact hb
      obtain ⟨h1, h2, h3, h4, h5, h6⟩ := ih nsm ns2 h hsymm hchndm hpandm hclm
      refine ⟨by rw [h1, hnamesm], ?_, h3, h4, h5, h6⟩
      intro x y
      rw [h2 x y, hCm x y, List.mem_cons]
      constructor
      · rintro ((he | ⟨hx, hy⟩) | hr)
        · exact Or.inl he
        · refine Or.inr (Or.inl ?_)
          rw [hx, hy]
        · exact Or.inr (Or.inr hr)
      · rintro (he | (hd | hr))
        · exact Or.inl (Or.inl he)
        · refine Or.inl (Or.inr ?_)
          rw [Prod.ext_iff] at hd
          exact hd
        · exact Or.inr hr

theorem edgesFold_ok_of : ∀ (ds : List (CName × CName)) (ns1 : List DependencyNode),
    (∀ d ∈ ds, d.1 ∈ nodeNames ns1 ∧ d.2 ∈ nodeNames ns1) → ds.Nodup →
    (∀ d ∈ ds, ¬ edgeC ns1 d.1 d.2) →
    ∃ ns2, ds.foldl (fun (acc : Except BuildErr (List DependencyNode)) d =>
      match acc with
      | .error e => .error e
      | .ok ns => addEdge ns d.1 d.2) (.ok ns1) = .ok ns2 := by
  intro ds
  induction ds with
  | nil =>
    intro ns1 _ _ _
    exact ⟨ns1, rfl⟩
  | cons d rest ih =>
    intro ns1 hkn hnd hni
    have hd0 := hkn d (List.mem_cons_self d rest)
    have hadd := addEdge_ok_of hd0.1 hd0.2 (hni d (List.mem_cons_self d rest))
    have hCm := addEdge_edgeC hadd
    obtain ⟨hdr, hndr⟩ := List.nodup_cons.mp hnd
    obtain ⟨ns2, hns2⟩ := ih
      (updNode (updNode ns1 d.1 (addChildFn d.2)) d.2 (addParentFn d.1))
      (fun d2 hd2 => by
        rw [addEdge_result_names]
        exact hkn d2 (List.mem_cons_of_mem d hd2))
      hndr
      (fun d2 hd2 he => by
        rcases (hCm d2.1 d2.2).mp he with h2 | ⟨h2a, h2b⟩
        · exact hni d2 (List.mem_cons_of_mem d hd2) h2
        · refine hdr ?_
          have : d2 = d := by
            rw [Prod.ext_iff]
            exact ⟨h2a, h2b⟩
          rw [← this]
          exact hd2)
    refine ⟨ns2, ?_⟩
    rw [List.foldl_cons]
    change List.foldl _ (addEdge ns1 d.1 d.2) rest = Except.ok ns2
    rw [hadd]
    exact hns2

theorem initNodes_spec {comps : List (CName × CompAttrs)} {ns : List DependencyNode}
    (h : initNodes comps = .ok ns) :
    nodeNames ns = comps.map (fun p => p.1) ∧ (nodeNames ns).Nodup ∧
    (∀ x, nChildren ns x = []) ∧ (∀ x, nParents ns x = []) := by
  unfold initNodes at h
  obtain ⟨ha, hb, hc, hd⟩ := nodesFold_ok comps [] ns h
  exact ⟨by simpa using ha, hb (by simp [nodeNames]),
    hc (fun x => rfl), hd (fun x => rfl)⟩

theorem initNodes_ok_of {comps : List (CName × CompAttrs)}
    (h : (comps.map (fun p => p.1)).Nodup) : ∃ ns, initNodes comps = .ok ns := by
  unfold initNodes
  exact nodesFold_ok_of comps [] h (fun nm _ hmem => by simp [nodeNames] at hmem)

theorem initEdges_spec {ns0 ns2 : List DependencyNode} {ds : List (CName × CName)}
    {rs : List CName} (h : initEdges ns0 ds = .ok (ns2, rs)) :
    ds.foldl (fun (acc : Except BuildErr (List DependencyNode)) d =>
      match acc with
      | .error e => .error e
      | .ok ns => addEdge ns d.1 d.2) (.ok ns0) = .ok ns2 ∧
    rs = (ns2.filter (fun nd => nd.parents.isEmpty)).map (fun nd => nd.name) := by
  unfold initEdges at h
  cases hf : ds.foldl (fun (acc : Except BuildErr (List DependencyNode)) d =>
      match acc with
      | .error e => .error e
      | .ok ns => addEdge ns d.1 d.2) (.ok ns0) with
  | error e =>
    rw [hf] at h
    cases h
  | ok ns =>
    rw [hf] at h
    injection h with h
    rw [Prod.mk.injEq] at h
    obtain ⟨h1, h2⟩ := h
    subst h1
    exact ⟨rfl, h2.symm⟩

theorem initEdges_ok_of {ns0 : List DependencyNode} {ds : List (CName × CName)}
    (hkn : ∀ d ∈ ds, d.1 ∈ nodeNames ns0 ∧ d.2 ∈ nodeNames ns0) (hnd : ds.Nodup)
    (hni : ∀ x, nChildren ns0 x = []) :
    ∃ ns2 rs, initEdges ns0 ds = .ok (ns2, rs) := by
  obtain ⟨ns2, hns2⟩ := edgesFold_ok_of ds ns0 hkn hnd
    (fun d _ he => by
      unfold edgeC at he
      rw [hni d.1] at he
      cases he)
  unfold initEdges
  rw [hns2]
  exact ⟨ns2, _, rfl⟩

/-! The initial root list. -/

theorem rootList_nodup {ns2 : List DependencyNode} (hnd : (nodeNames ns2).Nodup) :
    ((ns2.filter (fun nd => nd.parents.isEmpty)).map (fun nd => nd.name)).Nodup := by
  refine List.Nodup.sublist ?_ hnd
  exact List.Sublist.map _ (List.filter_sublist ns2)

theorem rootList_mem {ns2 : List DependencyNode} (hnd : (nodeNames ns2).Nodup)
    {r : CName}
    (h : r ∈ (ns2.filter (fun nd => nd.parents.isEmpty)).map (fun nd => nd.name)) :
    r ∈ nodeNames ns2 ∧ nParents ns2 r = [] := by
  rw [List.mem_map] at h
  obtain ⟨nd, hmem, hname⟩ := h
  have hmem2 := List.mem_of_mem_filter hmem
  have hp := List.of_mem_filter hmem
  rw [List.isEmpty_iff] at hp
  have hg : getNode ns2 nd.name = some nd := getNode_eq_some_of_mem hnd hmem2
  subst hname
  refine ⟨List.mem_map_of_mem _ hmem2, ?_⟩
  unfold nParents
  rw [hg, Option.map_some', Option.getD_some]
  exact hp

theorem rootList_complete {ns2 : List DependencyNode} (hnd : (nodeNames ns2).Nodup)
    {x : CName} (hx : x ∈ nodeNames ns2) (hp : nParents ns2 x = []) :
    x ∈ (ns2.filter (fun nd => nd.parents.isEmpty)).map (fun nd => nd.name) := by
  rcases List.mem_map.mp hx with ⟨nd, hmem, hname⟩
  have hg : getNode ns2 nd.name = some nd := getNode_eq_some_of_mem hnd hmem
  rw [hname] at hg
  unfold nParents at hp
  rw [hg, Option.map_some', Option.getD_some] at hp
  refine List.mem_map.mpr ⟨nd, ?_, hname⟩
  refine List.mem_filter.mpr ⟨hmem, ?_⟩
  rw [List.isEmpty_iff]
  exact hp

/-- The invariant holds at the start of the traversal: every node white, the
indegree dictionary holding each node's parent-count, the queue, order and
rejected list empty, and the initial root list pending. -/
theorem initInv {deps : List (CName × CName)} {s : CState}
    (hq : s.queue = []) (hts : s.tsorted = []) (hrej : s.rejected = [])
    (hroots : s.roots =
      (s.nodes.filter (fun nd => nd.parents.isEmpty)).map (fun nd => nd.name))
    (hcol : s.colors = fun _ => DColor.WHITE)
    (hind : s.indeg = fun x =>
      ((getNode s.nodes x).map (fun nd => (nd.parents.length : Int))).getD 0)
    (hnd : (nodeNames s.nodes).Nodup)
    (hsym : ∀ x y, edgeC s.nodes x y ↔ edgeP s.nodes x y)
    (hE : ∀ x y, edgeC s.nodes x y ↔ (x, y) ∈ deps)
    (hchnd : ∀ x, (nChildren s.nodes x).Nodup)
    (hpand : ∀ x, (nParents s.nodes x).Nodup)
    (hcl : ∀ x y, edgeC s.nodes x y → y ∈ nodeNames s.nodes) :
    Inv deps (nodeNames s.nodes) s.roots s := by
  refine ⟨rfl, hnd, hchnd, hpand, hcl, hsym, ?_, ?_, ?_, ?_, ?_, ?_, ?_, ?_, ?_,
    ?_, ?_, ?_, ?_, ?_, ?_, ?_, ?_⟩
  · intro x y
    rw [hrej]
    constructor
    · intro hd
      exact Or.inl ((hE x y).mpr hd)
    · rintro (he | hr)
      · exact (hE x y).mp he
      · cases hr
  · intro x y hr
    rw [hrej] at hr
    cases hr
  · intro x hx
    rw [hq] at hx
    cases hx
  · rw [hq]
    exact List.nodup_nil
  · intro x hx
    rw [hq] at hx
    cases hx
  · intro x hc
    rw [hcol] at hc
    cases hc
  · intro x _
    rw [hcol]
  · intro x hxN _ _
    rcases List.mem_map.mp hxN with ⟨nd, hmem, hname⟩
    have hg : getNode s.nodes nd.name = some nd := getNode_eq_some_of_mem hnd hmem
    rw [hname] at hg
    rw [hind]
    dsimp only
    rw [hg, Option.map_some', Option.getD_some]
    unfold ncount
    rw [show nParents s.nodes x = nd.parents by
      unfold nParents; rw [hg, Option.map_some', Option.getD_some]]
    rw [List.countP_eq_length.mpr ?_]
    intro p _
    rw [nbPred_true_iff, hcol]
    intro hb
    cases hb
  · intro x hx
    rw [hq] at hx
    cases hx
  · intro x hxN _ hz
    refine Or.inr ?_
    rw [hroots]
    refine rootList_complete hnd hxN ?_
    rcases List.mem_map.mp hxN with ⟨nd, hmem, hname⟩
    have hg : getNode s.nodes nd.name = some nd := getNode_eq_some_of_mem hnd hmem
    rw [hname] at hg
    rw [hind] at hz
    dsimp only at hz
    rw [hg, Option.map_some', Option.getD_some] at hz
    have hlen : nd.parents.length = 0 := Int.ofNat_eq_zero.mp hz
    unfold nParents
    rw [hg, Option.map_some', Option.getD_some]
    exact List.length_eq_zero.mp hlen
  · intro x
    rw [hts, hcol, hq]
    constructor
    · intro hx
      cases hx
    · rintro (hc | hc)
      · exact absurd rfl hc
      · cases hc
  · rw [hts]
    exact List.nodup_nil
  · intro x y _ hy
    rw [hts] at hy
    cases hy
  · intro x hx
    rw [hroots] at hx
    have := rootList_mem hnd hx
    exact ⟨this.2, this.1⟩
  · intro x _
    rw [hcol]
  · intro x _ hx
    rw [hq] at hx
    cases hx
  · rw [hroots]
    exact rootList_nodup hnd

/-! The fold of `seedAndRun` over the initial root list. -/

theorem rootsFold_error {pend : List CName} {strict : Bool} {e : BuildErr} :
    pend.foldl (fun (acc : Except BuildErr CState) r =>
      match acc with
      | .error e => .error e
      | .ok st => seedAndRun strict r st) (.error e) = .error e := by
  induction pend with
  | nil => rfl
  | cons r rest ih => exact ih

theorem rootsFold_spec {strict : Bool} {E0 : List (CName × CName)} {N0 : List CName} :
    ∀ (pend : List CName) (s : CState), Inv E0 N0 pend s → s.queue = [] →
    (∃ s2, pend.foldl (fun (acc : Except BuildErr CState) r =>
        match acc with
        | .error e => .error e
        | .ok st => seedAndRun strict r st) (.ok s) = .ok s2 ∧
      Inv E0 N0 [] s2 ∧ s2.queue = [] ∧
      (∀ x, s.colors x ≠ DColor.WHITE → s2.colors x ≠ DColor.WHITE) ∧
      (strict = true → s2.nodes = s.nodes ∧ s2.rejected = s.rejected)) ∨
    (strict = true ∧ (∃ a, (a, a) ∈ E0) ∧
      pend.foldl (fun (acc : Except BuildErr CState) r =>
        match acc with
        | .error e => .error e
        | .ok st => seedAndRun strict r st) (.ok s)
        = .error (.cycleErr "Back-edge found")) := by
  intro pend
  induction pend with
  | nil =>
    intro s hI hq
    exact Or.inl ⟨s, rfl, hI, hq, fun x hx => hx, fun _ => ⟨rfl, rfl⟩⟩
  | cons r rest ih =>
    intro s hI hq
    have hstep := @seedAndRun_spec strict E0 N0 rest r s hI hq
    rcases hstep with ⟨s1, hrun, hI1, hq1, hmono1, _, hpres1⟩ | ⟨hs, ha, hrun⟩
    · rcases ih s1 hI1 hq1 with ⟨s2, hfold, hI2, hq2, hmono2, hpres2⟩ |
        ⟨hs, ha, hfold⟩
      · refine Or.inl ⟨s2, ?_, hI2, hq2, ?_, ?_⟩
        · rw [List.foldl_cons]
          change List.foldl _ (seedAndRun strict r s) rest = Except.ok s2
          rw [hrun]
          exact hfold
        · intro x hx
          exact hmono2 x (hmono1 x hx)
        · intro hstrict
          obtain ⟨hn1, hr1⟩ := hpres1 hstrict
          obtain ⟨hn2, hr2⟩ := hpres2 hstrict
          exact ⟨hn2.trans hn1, hr2.trans hr1⟩
      · refine Or.inr ⟨hs, ha, ?_⟩
        rw [List.foldl_cons]
        change List.foldl _ (seedAndRun strict r s) rest
          = Except.error (.cycleErr "Back-edge found")
        rw [hrun]
        exact hfold
    · refine Or.inr ⟨hs, ha, ?_⟩
      rw [List.foldl_cons]
      change List.foldl _ (seedAndRun strict r s) rest
        = Except.error (.cycleErr "Back-edge found")
      rw [hrun]
      exact rootsFold_error

/-- If the traversal has finished (nothing queued, nothing pending) and some
node is still white, the input dependency set has a cycle: every white node
keeps a white parent, so following parents must eventually repeat. -/
theorem whites_cycle {E0 : List (CName × CName)} {N0 : List CName} {s : CState}
    (hI : Inv E0 N0 [] s) (hq : s.queue = []) (hw : whiteNames s ≠ []) :
    hasCycle E0 := by
  have hwmem : ∀ x, x ∈ whiteNames s ↔ (x ∈ N0 ∧ s.colors x = DColor.WHITE) := by
    intro x
    rw [whiteNames_eq hI, List.mem_filter, decide_eq_true_eq]
  have hnogray : ∀ p, s.colors p ≠ DColor.GRAY := by
    intro p hg
    obtain ⟨rest, hrest⟩ := hI.gray_hd p hg
    rw [hq] at hrest
    cases hrest
  have hstep : ∀ x ∈ whiteNames s, ∃ p, p ∈ whiteNames s ∧ (p, x) ∈ E0 := by
    intro x hx
    obtain ⟨hxN, hxw⟩ := (hwmem x).mp hx
    have hind := hI.qinv x hxN hxw (List.not_mem_nil x)
    have hpos : 0 < ncount s.colors (nParents s.nodes x) := by
      by_contra hz
      have hz2 : ncount s.colors (nParents s.nodes x) = 0 := by omega
      have hiz : s.indeg x = 0 := by
        rw [hind, hz2]
        rfl
      rcases hI.winv x hxN hxw hiz with hc | hc
      · rw [hq] at hc
        cases hc
      · cases hc
    obtain ⟨p, hpmem, hpnb⟩ := ncount_pos_exists hpos
    have hpw : s.colors p = DColor.WHITE := by
      cases hc : s.colors p with
      | WHITE => rfl
      | GRAY => exact absurd hc (hnogray p)
      | BLACK => exact absurd hc hpnb
    have hedge : edgeC s.nodes p x := by
      rw [hI.sym p x]
      exact hpmem
    have hpN : p ∈ N0 := hI.edge_left_mem hedge
    exact ⟨p, (hwmem p).mpr ⟨hpN, hpw⟩, (hI.union p x).mpr (Or.inl hedge)⟩
  have hstep2 : ∀ x, ∃ p, x ∈ whiteNames s → (p ∈ whiteNames s ∧ (p, x) ∈ E0) := by
    intro x
    by_cases hx : x ∈ whiteNames s
    · obtain ⟨p, hp⟩ := hstep x hx
      exact ⟨p, fun _ => hp⟩
    · exact ⟨x, fun h => absurd h hx⟩
  choose f hf using hstep2
  obtain ⟨x0, hx0⟩ : ∃ x0, x0 ∈ whiteNames s := by
    cases hww : whiteNames s with
    | nil => exact absurd hww hw
    | cons a t => exact ⟨a, List.mem_cons_self a t⟩
  have hiter : ∀ n, f^[n] x0 ∈ whiteNames s := by
    intro n
    induction n with
    | zero => exact hx0
    | succ n ihn =>
      rw [Function.iterate_succ_apply']
      exact (hf (f^[n] x0) ihn).1
  obtain ⟨i, hi, j, hj, hij, heq⟩ :=
    Finset.exists_ne_map_eq_of_card_lt_of_maps_to
      (show (whiteNames s).toFinset.card < (Finset.range ((whiteNames s).toFinset.card + 1)).card by
        rw [Finset.card_range]
        omega)
      (fun i _ => List.mem_toFinset.mpr (hiter i))
  have hchain : ∀ k x, x ∈ whiteNames s → Relation.TransGen (depRel E0) (f^[k + 1] x) x := by
    intro k
    induction k with
    | zero =>
      intro x hx
      exact Relation.TransGen.single ((hf x hx).2)
    | succ k ihk =>
      intro x hx
      have hfx : f x ∈ whiteNames s := by
        have := (hf x hx).1
        exact this
      have h1 : Relation.TransGen (depRel E0) (f^[k + 1] (f x)) (f x) := ihk (f x) hfx
      have h2 : Relation.TransGen (depRel E0) (f x) x :=
        Relation.TransGen.single ((hf x hx).2)
      rw [Function.iterate_succ_apply]
      exact Relation.TransGen.trans h1 h2
  rcases Nat.lt_or_ge i j with hlt | hge
  · obtain ⟨d, hd⟩ : ∃ d, j = (d + 1) + i := ⟨j - i - 1, by omega⟩
    refine ⟨f^[i] x0, ?_⟩
    have hch : Relation.TransGen (depRel E0) (f^[j] x0) (f^[i] x0) := by
      rw [hd, Function.iterate_add_apply]
      exact hchain d (f^[i] x0) (hiter i)
    nth_rewrite 1 [heq]
    exact hch
  · have hlt2 : j < i := by
      rcases Nat.lt_or_ge j i with h2 | h2
      · exact h2
      · omega
    obtain ⟨d, hd⟩ : ∃ d, i = (d + 1) + j := ⟨i - j - 1, by omega⟩
    refine ⟨f^[j] x0, ?_⟩
    have hch : Relation.TransGen (depRel E0) (f^[i] x0) (f^[j] x0) := by
      rw [hd, Function.iterate_add_apply]
      exact hchain d (f^[j] x0) (hiter j)
    nth_rewrite 1 [← heq]
    exact hch

/-- When the traversal has completed with no white node left, the recorded
order lists exactly the node names, and the surviving child edges both
respect the order and admit no cycle. -/
theorem inv_done {E0 : List (CName × CName)} {N0 : List CName} {s : CState}
    (hI : Inv E0 N0 [] s) (hq : s.queue = []) (hw : whiteNames s = []) :
    (∀ x, x ∈ s.tsorted ↔ x ∈ N0) ∧ s.tsorted.Nodup ∧
    (∀ x y, edgeC s.nodes x y → earlierIn s.tsorted x y) ∧
    ¬ ∃ a, Relation.TransGen (edgeC s.nodes) a a := by
  have hnw : ∀ x ∈ N0, s.colors x ≠ DColor.WHITE := by
    intro x hx
    rw [whiteNames_eq hI, List.filter_eq_nil_iff] at hw
    have := hw x hx
    rw [decide_eq_true_eq] at this
    exact this
  have htm : ∀ x, x ∈ s.tsorted ↔ x ∈ N0 := by
    intro x
    rw [hI.t_iff x, hq]
    constructor
    · rintro (hc | hc)
      · by_contra hxN
        exact hc (hI.col_out x hxN)
      · cases hc
    · intro hx
      exact Or.inl (hnw x hx)
  have hord : ∀ x y, edgeC s.nodes x y → earlierIn s.tsorted x y := by
    intro x y he
    refine hI.porder x y he ?_
    rw [htm y]
    exact hI.ch_cl x y he
  refine ⟨htm, hI.t_nd, hord, ?_⟩
  rintro ⟨a, hcyc⟩
  have := earlierIn_transGen hI.t_nd hord hcyc
  exact earlierIn_irrefl hI.t_nd a this

/-- `init_check_for_cycles`, fully characterized: either it succeeds with the
invariant restored, nothing queued or white, and (in strict mode) the node
dictionaries untouched, or strict mode fails with the cycle error on a truly
cyclic input. -/
theorem initCheckForCycles_spec {strict : Bool} {deps : List (CName × CName)}
    {s0 : CState}
    (hq : s0.queue = []) (hts : s0.tsorted = []) (hrej : s0.rejected = [])
    (hroots : s0.roots =
      (s0.nodes.filter (fun nd => nd.parents.isEmpty)).map (fun nd => nd.name))
    (hnd : (nodeNames s0.nodes).Nodup)
    (hsym : ∀ x y, edgeC s0.nodes x y ↔ edgeP s0.nodes x y)
    (hE : ∀ x y, edgeC s0.nodes x y ↔ (x, y) ∈ deps)
    (hchnd : ∀ x, (nChildren s0.nodes x).Nodup)
    (hpand : ∀ x, (nParents s0.nodes x).Nodup)
    (hcl : ∀ x y, edgeC s0.nodes x y → y ∈ nodeNames s0.nodes) :
    (∃ s1, initCheckForCycles strict s0 = .ok s1 ∧
      Inv deps (nodeNames s0.nodes) [] s1 ∧ s1.queue = [] ∧ whiteNames s1 = [] ∧
      (strict = true → s1.nodes = s0.nodes ∧ s1.rejected = [])) ∨
    (strict = true ∧ hasCycle deps ∧
      ∃ msg, initCheckForCycles strict s0 = .error (.cycleErr msg)) := by
  have hII : Inv deps (nodeNames s0.nodes) (resetState s0).roots (resetState s0) :=
    @initInv deps (resetState s0) hq hts hrej hroots rfl rfl hnd hsym hE hchnd
      hpand hcl
  have hunf : initCheckForCycles strict s0 =
      (match (resetState s0).roots.foldl (fun (acc : Except BuildErr CState) r =>
            match acc with
            | .error e => .error e
            | .ok st => seedAndRun strict r st)
          (.ok (resetState s0)) with
        | .error e => .error e
        | .ok s1 =>
          if (whiteNames s1).isEmpty then .ok s1
          else if strict then
            .error (.cycleErr ("One or more cycles exist among the following nodes: "
              ++ String.intercalate ", " (whiteNames s1)))
          else whileLoop strict ((whiteNames s1).length + 1) s1) := rfl
  rcases @rootsFold_spec strict deps (nodeNames s0.nodes) (resetState s0).roots
      (resetState s0) hII hq with ⟨s1, hfold, hI1, hq1, hmono1, hpres1⟩ | ⟨hs, ha, hfold⟩
  · rw [hfold] at hunf
    dsimp only at hunf
    by_cases hwe : (whiteNames s1).isEmpty = true
    · rw [if_pos hwe] at hunf
      refine Or.inl ⟨s1, hunf, hI1, hq1, List.isEmpty_iff.mp hwe, ?_⟩
      intro hstrict
      obtain ⟨hn1, hr1⟩ := hpres1 hstrict
      exact ⟨hn1, hr1.trans hrej⟩
    · rw [if_neg hwe] at hunf
      have hwne : whiteNames s1 ≠ [] := by
        intro hw
        refine hwe ?_
        rw [hw]
        rfl
      cases hstrict : strict with
      | true =>
        rw [hstrict, if_pos rfl] at hunf
        exact Or.inr ⟨rfl, whites_cycle hI1 hq1 hwne, _, hunf⟩
      | false =>
        rw [hstrict] at hunf
        rw [if_neg (by intro h; cases h)] at hunf
        obtain ⟨s2, hrun2, hI2, hq2, hw2⟩ :=
          whileLoop_spec ((whiteNames s1).length + 1) s1 hI1 hq1 (by omega)
        refine Or.inl ⟨s2, hunf.trans hrun2, hI2, hq2, hw2, ?_⟩
        intro h
        cases h
  · rw [hfold] at hunf
    dsimp only at hunf
    obtain ⟨a, haa⟩ := ha
    exact Or.inr ⟨hs, ⟨a, Relation.TransGen.single haa⟩, _, hunf⟩

/-! Characterization of the full construction. -/

theorem emptyEdges_sym {ns : List DependencyNode}
    (hch : ∀ x, nChildren ns x = []) (hpa : ∀ x, nParents ns x = []) :
    ∀ x y, edgeC ns x y ↔ edgeP ns x y := by
  intro x y
  unfold edgeC edgeP
  rw [hch x, hpa y]
  simp

theorem buildCore_spec {comps : List (CName × CompAttrs)}
    {deps : List (CName × CName)} {strict : Bool} {g : DependencyGraph}
    (h : buildCore comps deps strict = .ok g) :
    nodeNames g.nodesByName = comps.map (fun p => p.1) ∧
    (nodeNames g.nodesByName).Nodup ∧
    (∀ x y, edgeC g.nodesByName x y ↔ edgeP g.nodesByName x y) ∧
    (∀ x y, (x, y) ∈ deps ↔
      (edgeC g.nodesByName x y ∨ (x, y) ∈ g.rejected_dependencies)) ∧
    (∀ x y, (x, y) ∈ g.rejected_dependencies → ¬ edgeC g.nodesByName x y) ∧
    (∀ x, x ∈ g.start_tsorted_names ↔ x ∈ nodeNames g.nodesByName) ∧
    g.start_tsorted_names.Nodup ∧
    (∀ x y, edgeC g.nodesByName x y → earlierIn g.start_tsorted_names x y) ∧
    (¬ ∃ a, Relation.TransGen (edgeC g.nodesByName) a a) ∧
    (strict = true → g.rejected_dependencies = []) ∧
    g.startStopInfoByName = [] := by
  unfold buildCore at h
  cases hn : initNodes comps with
  | error e =>
    rw [hn] at h
    cases h
  | ok ns =>
    rw [hn] at h
    dsimp only at h
    obtain ⟨hnames0, hnd0, hch0, hpa0⟩ := initNodes_spec hn
    cases he : initEdges ns deps with
    | error e =>
      rw [he] at h
      cases h
    | ok pr =>
      rw [he] at h
      obtain ⟨ns2, rootNames⟩ := pr
      dsimp only at h
      obtain ⟨hfold, hroots⟩ := initEdges_spec he
      obtain ⟨hna2, hC2, hsym2, hchnd2, hpand2, hcl2⟩ := edgesFold_ok deps ns ns2
        hfold (emptyEdges_sym hch0 hpa0)
        (fun x => by rw [hch0 x]; exact List.nodup_nil)
        (fun x => by rw [hpa0 x]; exact List.nodup_nil)
        (fun x y hxy => by
          unfold edgeC at hxy
          rw [hch0 x] at hxy
          cases hxy)
      have hE2 : ∀ x y, edgeC ns2 x y ↔ (x, y) ∈ deps := by
        intro x y
        rw [hC2 x y]
        constructor
        · rintro (hxy | hd)
          · unfold edgeC at hxy
            rw [hch0 x] at hxy
            cases hxy
          · exact hd
        · exact Or.inr
      have hnd2 : (nodeNames ns2).Nodup := by
        rw [hna2]
        exact hnd0
      rcases @initCheckForCycles_spec strict deps
          ({ nodes := ns2, queue := [], colors := fun _ => DColor.WHITE,
             indeg := fun _ => 0, tsorted := [], rejected := [], roots := rootNames })
          rfl rfl rfl hroots hnd2 hsym2 hE2 hchnd2 hpand2 hcl2 with
        ⟨s1, hrun, hI1, hq1, hw1, hpres1⟩ | ⟨hs, hcyc, msg, hrun⟩
      · rw [hrun] at h
        dsimp only at h
        injection h with h
        subst h
        dsimp only
        obtain ⟨htm, htnd, hord, hacyc⟩ := inv_done hI1 hq1 hw1
        have hnames : nodeNames s1.nodes = comps.map (fun p => p.1) := by
          rw [hI1.names_eq]
          dsimp only
          rw [hna2]
          exact hnames0
        refine ⟨hnames, ?_, hI1.sym, ?_, hI1.rej_dj, ?_, htnd, hord, hacyc, ?_, rfl⟩
        · rw [hnames]
          rw [hnames0] at hnd0
          exact hnd0
        · intro x y
          exact hI1.union x y
        · intro x
          rw [htm x, hI1.names_eq]
        · intro hstrict
          exact (hpres1 hstrict).2
      · rw [hrun] at h
        cases h

theorem buildCore_dichotomy {comps : List (CName × CompAttrs)}
    {deps : List (CName × CName)} {strict : Bool} (hv : validInput comps deps) :
    (∃ g, buildCore comps deps strict = .ok g) ∨
    (strict = true ∧ hasCycle deps ∧
      ∃ msg, buildCore comps deps strict = .error (.cycleErr msg)) := by
  obtain ⟨hndk, hkn, hdnd⟩ := hv
  obtain ⟨ns, hn⟩ := initNodes_ok_of hndk
  obtain ⟨hnames0, hnd0, hch0, hpa0⟩ := initNodes_spec hn
  obtain ⟨ns2, rs, he⟩ := initEdges_ok_of
    (fun d hd => by
      rw [hnames0]
      exact hkn d hd)
    hdnd hch0
  obtain ⟨hfold, hroots⟩ := initEdges_spec he
  obtain ⟨hna2, hC2, hsym2, hchnd2, hpand2, hcl2⟩ := edgesFold_ok deps ns ns2
    hfold (emptyEdges_sym hch0 hpa0)
    (fun x => by rw [hch0 x]; exact List.nodup_nil)
    (fun x => by rw [hpa0 x]; exact List.nodup_nil)
    (fun x y hxy => by
      unfold edgeC at hxy
      rw [hch0 x] at hxy
      cases hxy)
  have hE2 : ∀ x y, edgeC ns2 x y ↔ (x, y) ∈ deps := by
    intro x y
    rw [hC2 x y]
    constructor
    · rintro (hxy | hd)
      · unfold edgeC at hxy
        rw [hch0 x] at hxy
        cases hxy
      · exact hd
    · exact Or.inr
  have hnd2 : (nodeNames ns2).Nodup := by
    rw [hna2]
    exact hnd0
  have hunf : buildCore comps deps strict =
      (match initNodes comps with
       | .error e => .error e
       | .ok ns =>
         match initEdges ns deps with
         | .error e => .error e
         | .ok (ns2, rootNames) =>
           match initCheckForCycles strict
               ({ nodes := ns2, queue := [], colors := fun _ => DColor.WHITE,
                  indeg := fun _ => 0, tsorted := [], rejected := [],
                  roots := rootNames }) with
           | .error e => .error e
           | .ok s1 =>
             .ok { nodesByName := s1.nodes,
                   rootsByName := s1.roots,
                   leavesByName := ((s1.nodes.filter
                     (fun nd => nd.children.isEmpty)).map (fun nd => nd.name)),
                   startStopInfoByName := [],
                   start_tsorted_names := s1.tsorted,
                   rejected_dependencies := s1.rejected,
                   is_strict := strict,
                   verbosity := 0 }) := rfl
  rw [hn] at hunf
  dsimp only at hunf
  rw [he] at hunf
  dsimp only at hunf
  rcases @initCheckForCycles_spec strict deps
      ({ nodes := ns2, queue := [], colors := fun _ => DColor.WHITE,
         indeg := fun _ => 0, tsorted := [], rejected := [], roots := rs })
      rfl rfl rfl hroots hnd2 hsym2 hE2 hchnd2 hpand2 hcl2 with
    ⟨s1, hrun, hI1, hq1, hw1, hpres1⟩ | ⟨hs, hcyc, msg, hrun⟩
  · rw [hrun] at hunf
    exact Or.inl ⟨_, hunf⟩
  · rw [hrun] at hunf
    exact Or.inr ⟨hs, hcyc, msg, hunf⟩

/-! Generic helpers for the claim statements. -/

theorem acyclic_of_rank {R : CName → CName → Prop} (f : CName → ℕ)
    (hf : ∀ x y, R x y → f y < f x) : ¬ ∃ a, Relation.TransGen R a a := by
  rintro ⟨a, h⟩
  have hlt : ∀ x y, Relation.TransGen R x y → f y < f x := by
    intro x y hxy
    induction hxy with
    | single h1 => exact hf _ _ h1
    | tail h1 h2 ih => exact lt_trans (hf _ _ h2) ih
  exact lt_irrefl _ (hlt a a h)

/-- The verbosity level is dead weight for the schedule pass: setting it
first only re-labels the result. -/
theorem set_ss_verbosity (g : DependencyGraph) (v : Int)
    (dir : DependencyDirection) :
    set_startStopInfoByName { g with verbosity := v } dir
      = (set_startStopInfoByName g dir).map (fun h2 => { h2 with verbosity := v }) := by
  have hss : ssStep { g with verbosity := v } dir = ssStep g dir := rfl
  unfold set_startStopInfoByName
  dsimp only
  rw [hss, Option.map_map]
  rfl

/-! Lemmas about the timing dictionary. -/

theorem lookupSS_nil {q : CName} : lookupSS [] q = none := rfl

theorem lookupSS_cons {k : CName} {e : SSInfo} {m : List (CName × SSInfo)}
    {q : CName} :
    lookupSS ((k, e) :: m) q = if k = q then some e else lookupSS m q := by
  unfold lookupSS
  by_cases h : k = q
  · rw [if_pos h, List.find?_cons_of_pos]
    · rfl
    · simp [h]
  · rw [if_neg h, List.find?_cons_of_neg]
    simp [h]

theorem lookupSS_append_ne {m : List (CName × SSInfo)} {nm : CName} {e : SSInfo}
    {q : CName} (h : q ≠ nm) : lookupSS (m ++ [(nm, e)]) q = lookupSS m q := by
  induction m with
  | nil =>
    rw [List.nil_append, lookupSS_cons, if_neg (fun h2 => h h2.symm), lookupSS_nil]
  | cons p rest ih =>
    obtain ⟨k, e2⟩ := p
    rw [List.cons_append, lookupSS_cons, lookupSS_cons, ih]

theorem lookupSS_append_self {m : List (CName × SSInfo)} {nm : CName} {e : SSInfo}
    (h : lookupSS m nm = none) : lookupSS (m ++ [(nm, e)]) nm = some e := by
  induction m with
  | nil =>
    rw [List.nil_append, lookupSS_cons, if_pos rfl]
  | cons p rest ih =>
    obtain ⟨k, e2⟩ := p
    rw [lookupSS_cons] at h
    by_cases hk : k = nm
    · rw [if_pos hk] at h
      cases h
    · rw [if_neg hk] at h
      rw [List.cons_append, lookupSS_cons, if_neg hk]
      exact ih h

theorem lookupSS_isSome_iff {m : List (CName × SSInfo)} {q : CName} :
    (lookupSS m q).isSome = true ↔ q ∈ m.map (fun p => p.1) := by
  induction m with
  | nil =>
    rw [lookupSS_nil]
    simp
  | cons p rest ih =>
    obtain ⟨k, e⟩ := p
    rw [lookupSS_cons, List.map_cons]
    by_cases hk : k = q
    · rw [if_pos hk]
      simp [hk]
    · rw [if_neg hk]
      rw [List.mem_cons, ih]
      constructor
      · exact Or.inr
      · rintro (h2 | h2)
        · exact absurd h2.symm hk
        · exact h2

theorem setSS_cons {k : CName} {e2 e : SSInfo} {m : List (CName × SSInfo)}
    {nm : CName} :
    setSS ((k, e2) :: m) nm e
      = (if k = nm then (k, e) else (k, e2)) :: setSS m nm e := rfl

theorem lookupSS_setSS_other {m : List (CName × SSInfo)} {nm q : CName}
    {e : SSInfo} (h : q ≠ nm) : lookupSS (setSS m nm e) q = lookupSS m q := by
  induction m with
  | nil => rfl
  | cons p rest ih =>
    obtain ⟨k, e2⟩ := p
    rw [setSS_cons]
    by_cases hk : k = nm
    · rw [if_pos hk, lookupSS_cons, lookupSS_cons,
        if_neg (by rw [hk]; exact fun h2 => h h2.symm),
        if_neg (by rw [hk]; exact fun h2 => h h2.symm)]
      exact ih
    · rw [if_neg hk, lookupSS_cons, lookupSS_cons]
      by_cases hkq : k = q
      · rw [if_pos hkq, if_pos hkq]
      · rw [if_neg hkq, if_neg hkq]
        exact ih

theorem lookupSS_setSS_self {m : List (CName × SSInfo)} {nm : CName} {e : SSInfo}
    (h : (lookupSS m nm).isSome = true) :
    lookupSS (setSS m nm e) nm = some e := by
  induction m with
  | nil =>
    rw [lookupSS_nil] at h
    cases h
  | cons p rest ih =>
    obtain ⟨k, e2⟩ := p
    rw [setSS_cons]
    by_cases hk : k = nm
    · rw [if_pos hk, lookupSS_cons, if_pos hk]
    · rw [if_neg hk, lookupSS_cons, if_neg hk]
      rw [lookupSS_cons, if_neg hk] at h
      exact ih h

theorem setSS_keys {m : List (CName × SSInfo)} {nm : CName} {e : SSInfo} :
    (setSS m nm e).map (fun p => p.1) = m.map (fun p => p.1) := by
  unfold setSS
  rw [List.map_map]
  refine List.map_congr_left ?_
  intro p _
  by_cases h : p.1 = nm <;> simp [h]

theorem setSS_not_mem {m : List (CName × SSInfo)} {nm : CName} {e : SSInfo}
    (h : nm ∉ m.map (fun p => p.1)) : setSS m nm e = m := by
  induction m with
  | nil => rfl
  | cons p rest ih =>
    obtain ⟨k, e2⟩ := p
    rw [List.map_cons, List.mem_cons] at h
    rw [setSS_cons, if_neg (fun h2 => h (Or.inl h2.symm))]
    rw [ih (fun h2 => h (Or.inr h2))]

theorem setSS_self {m : List (CName × SSInfo)} {nm : CName} {e : SSInfo}
    (hnd : (m.map (fun p => p.1)).Nodup) (h : lookupSS m nm = some e) :
    setSS m nm e = m := by
  induction m with
  | nil => cases h
  | cons p rest ih =>
    obtain ⟨k, e2⟩ := p
    rw [List.map_cons] at hnd
    obtain ⟨hkn, hndr⟩ := List.nodup_cons.mp hnd
    rw [lookupSS_cons] at h
    rw [setSS_cons]
    by_cases hk : k = nm
    · rw [if_pos hk] at h
      injection h with h
      rw [if_pos hk, h]
      rw [setSS_not_mem (by rw [← hk]; exact hkn)]
    · rw [if_neg hk] at h
      rw [if_neg hk, ih hndr h]

/-! Structure of one schedule step. -/

theorem ssStep_eq (g : DependencyGraph) (dir : DependencyDirection)
    (m : List (CName × SSInfo)) (nm : CName) :
    ssStep g dir (some m) nm =
      (match getNode g.nodesByName nm with
      | none => none
      | some node =>
        match refOptFun g dir
            (if (lookupSS m nm).isSome then m else m ++ [(nm, {})]) node with
        | none => none
        | some refTime =>
          some (setSS (if (lookupSS m nm).isSome then m else m ++ [(nm, {})]) nm
            (newEntryFun dir refTime node
              ((lookupSS (if (lookupSS m nm).isSome then m else m ++ [(nm, {})])
                nm).getD {})))) := rfl

theorem ssStep_lookup_other {g : DependencyGraph} {dir : DependencyDirection}
    {mA mB : List (CName × SSInfo)} {nm q : CName}
    (h : ssStep g dir (some mA) nm = some mB) (hq : q ≠ nm) :
    lookupSS mB q = lookupSS mA q := by
  rw [ssStep_eq] at h
  cases hgn : getNode g.nodesByName nm with
  | none =>
    rw [hgn] at h
    cases h
  | some node =>
    rw [hgn] at h
    dsimp only at h
    cases href : refOptFun g dir
        (if (lookupSS mA nm).isSome then mA else mA ++ [(nm, ({} : SSInfo))]) node with
    | none =>
      rw [href] at h
      cases h
    | some refTime =>
      rw [href] at h
      injection h with h
      rw [← h, lookupSS_setSS_other hq]
      by_cases hs : (lookupSS mA nm).isSome
      · rw [if_pos hs]
      · rw [if_neg hs, lookupSS_append_ne hq]

theorem ssStep_keys {g : DependencyGraph} {dir : DependencyDirection}
    {mA mB : List (CName × SSInfo)} {nm : CName}
    (h : ssStep g dir (some mA) nm = some mB) :
    mB.map (fun p => p.1) = mA.map (fun p => p.1) ∨
    (mB.map (fun p => p.1) = mA.map (fun p => p.1) ++ [nm] ∧
      nm ∉ mA.map (fun p => p.1)) := by
  rw [ssStep_eq] at h
  cases hgn : getNode g.nodesByName nm with
  | none =>
    rw [hgn] at h
    cases h
  | some node =>
    rw [hgn] at h
    dsimp only at h
    cases href : refOptFun g dir
        (if (lookupSS mA nm).isSome then mA else mA ++ [(nm, ({} : SSInfo))]) node with
    | none =>
      rw [href] at h
      cases h
    | some refTime =>
      rw [href] at h
      injection h with h
      rw [← h, setSS_keys]
      by_cases hs : (lookupSS mA nm).isSome
      · rw [if_pos hs]
        exact Or.inl rfl
      · rw [if_neg hs]
        refine Or.inr ⟨?_, ?_⟩
        · rw [List.map_append]
          rfl
        · intro hmem
          exact hs (lookupSS_isSome_iff.mpr hmem)

theorem ssStep_keys_nodup {g : DependencyGraph} {dir : DependencyDirection}
    {mA mB : List (CName × SSInfo)} {nm : CName}
    (h : ssStep g dir (some mA) nm = some mB)
    (hnd : (mA.map (fun p => p.1)).Nodup) : (mB.map (fun p => p.1)).Nodup := by
  rcases ssStep_keys h with hk | ⟨hk, hnmem⟩
  · rw [hk]
    exact hnd
  · rw [hk]
    exact nodup_append_one hnd hnmem

theorem ssStep_lookup_self {g : DependencyGraph} {dir : DependencyDirection}
    {mA mB : List (CName × SSInfo)} {nm : CName}
    (h : ssStep g dir (some mA) nm = some mB) :
    ∃ e, lookupSS mB nm = some e := by
  rw [ssStep_eq] at h
  cases hgn : getNode g.nodesByName nm with
  | none =>
    rw [hgn] at h
    cases h
  | some node =>
    rw [hgn] at h
    dsimp only at h
    cases href : refOptFun g dir
        (if (lookupSS mA nm).isSome then mA else mA ++ [(nm, ({} : SSInfo))]) node with
    | none =>
      rw [href] at h
      cases h
    | some refTime =>
      rw [href] at h
      injection h with h
      have hsome : (lookupSS (if (lookupSS mA nm).isSome then mA
          else mA ++ [(nm, ({} : SSInfo))]) nm).isSome = true := by
        by_cases hs : (lookupSS mA nm).isSome
        · rw [if_pos hs]
          exact hs
        · rw [if_neg hs]
          rw [lookupSS_append_self (Option.not_isSome_iff_eq_none.mp hs)]
          rfl
      refine ⟨newEntryFun dir refTime node
        ((lookupSS (if (lookupSS mA nm).isSome then mA
          else mA ++ [(nm, ({} : SSInfo))]) nm).getD ({} : SSInfo)), ?_⟩
      rw [← h, lookupSS_setSS_self hsome]

/-! The schedule fold. -/

theorem ssFold_none {g : DependencyGraph} {dir : DependencyDirection} :
    ∀ (l : List CName), l.foldl (ssStep g dir) none = none := by
  intro l
  induction l with
  | nil => rfl
  | cons nm rest ih => exact ih

theorem ssFold_split {g : DependencyGraph} {dir : DependencyDirection}
    {l1 l2 : List CName} {nm : CName} {m0 mF : List (CName × SSInfo)}
    (h : (l1 ++ nm :: l2).foldl (ssStep g dir) (some m0) = some mF) :
    ∃ mA mid, l1.foldl (ssStep g dir) (some m0) = some mA ∧
      ssStep g dir (some mA) nm = some mid ∧
      l2.foldl (ssStep g dir) (some mid) = some mF := by
  rw [List.foldl_append, List.foldl_cons] at h
  cases hA : l1.foldl (ssStep g dir) (some m0) with
  | none =>
    rw [hA] at h
    rw [show ssStep g dir none nm = none from rfl, ssFold_none l2] at h
    cases h
  | some mA =>
    rw [hA] at h
    cases hmid : ssStep g dir (some mA) nm with
    | none =>
      rw [hmid, ssFold_none l2] at h
      cases h
    | some mid =>
      rw [hmid] at h
      exact ⟨mA, mid, rfl, hmid, h⟩

theorem ssFold_lookup_frame {g : DependencyGraph} {dir : DependencyDirection} :
    ∀ (l : List CName) (mA mB : List (CName × SSInfo)) (q : CName),
    l.foldl (ssStep g dir) (some mA) = some mB → q ∉ l →
    lookupSS mB q = lookupSS mA q := by
  intro l
  induction l with
  | nil =>
    intro mA mB q h _
    injection h with h
    rw [h]
  | cons nm rest ih =>
    intro mA mB q h hq
    rw [List.foldl_cons] at h
    cases hstep : ssStep g dir (some mA) nm with
    | none =>
      rw [hstep, ssFold_none rest] at h
      cases h
    | some mid =>
      rw [hstep] at h
      have hq1 : q ≠ nm := fun h2 => hq (by rw [h2]; exact List.mem_cons_self nm rest)
      have hq2 : q ∉ rest := fun h2 => hq (List.mem_cons_of_mem nm h2)
      rw [ih mid mB q h hq2]
      exact ssStep_lookup_other hstep hq1

theorem ssFold_keys_nodup {g : DependencyGraph} {dir : DependencyDirection} :
    ∀ (l : List CName) (mA mB : List (CName × SSInfo)),
    l.foldl (ssStep g dir) (some mA) = some mB →
    (mA.map (fun p => p.1)).Nodup → (mB.map (fun p => p.1)).Nodup := by
  intro l
  induction l with
  | nil =>
    intro mA mB h hnd
    injection h with h
    rw [← h]
    exact hnd
  | cons nm rest ih =>
    intro mA mB h hnd
    rw [List.foldl_cons] at h
    cases hstep : ssStep g dir (some mA) nm with
    | none =>
      rw [hstep, ssFold_none rest] at h
      cases h
    | some mid =>
      rw [hstep] at h
      exact ih mid mB h (ssStep_keys_nodup hstep hnd)

/-! Order bookkeeping for the schedule pass. -/

theorem earlierIn_split {pre suf : List CName} {p nm : CName}
    (hnd : (pre ++ nm :: suf).Nodup) (h : earlierIn (pre ++ nm :: suf) p nm) :
    p ∈ pre := by
  obtain ⟨i, j, hij, hpi, hnj⟩ := h
  have hjlen : pre.length < (pre ++ nm :: suf).length := by
    rw [List.length_append, List.length_cons]
    omega
  have hget : (pre ++ nm :: suf).get ⟨pre.length, hjlen⟩ = nm := by
    rw [List.get_eq_getElem, List.getElem_append_right (Nat.le_refl pre.length)]
    simp
  have hj : j = ⟨pre.length, hjlen⟩ := by
    refine (List.Nodup.get_inj_iff hnd).mp ?_
    rw [hnj, hget]
  have hilt : (i : ℕ) < pre.length := by
    rw [hj] at hij
    exact hij
  have hgi : (pre ++ nm :: suf).get i = pre.get ⟨(i : ℕ), hilt⟩ := by
    obtain ⟨iv, hiv⟩ := i
    exact List.get_append iv hilt
  rw [← hpi, hgi]
  exact List.get_mem pre _ _

theorem earlierIn_reverse {l : List CName} {a b : CName} (h : earlierIn l a b) :
    earlierIn l.reverse b a := by
  obtain ⟨i, j, hij, ha, hb⟩ := h
  have hjl : (j : ℕ) < l.length := j.isLt
  have hil : (i : ℕ) < l.length := i.isLt
  have h1 : l.length - 1 - (j : ℕ) < l.reverse.length := by
    rw [List.length_reverse]
    omega
  have h2 : l.length - 1 - (i : ℕ) < l.reverse.length := by
    rw [List.length_reverse]
    omega
  refine ⟨⟨l.length - 1 - (j : ℕ), h1⟩, ⟨l.length - 1 - (i : ℕ), h2⟩, ?_, ?_, ?_⟩
  · show l.length - 1 - (j : ℕ) < l.length - 1 - (i : ℕ)
    have : (i : ℕ) < (j : ℕ) := hij
    omega
  · rw [List.get_reverse l (j : ℕ) h1 hjl]
    exact hb
  · rw [List.get_reverse l (i : ℕ) h2 hil]
    exact ha

theorem mapM_lookup_congr {dir : DependencyDirection} :
    ∀ (l : List CName) (m1 m2 : List (CName × SSInfo)),
    (∀ p ∈ l, lookupSS m1 p = lookupSS m2 p) →
    l.mapM (fun p => (lookupSS m1 p).bind (refRead dir))
      = l.mapM (fun p => (lookupSS m2 p).bind (refRead dir)) := by
  intro l
  induction l with
  | nil =>
    intro m1 m2 _
    rfl
  | cons p rest ih =>
    intro m1 m2 hagree
    rw [List.mapM_cons, List.mapM_cons,
      hagree p (List.mem_cons_self p rest),
      ih m1 m2 (fun q hq => hagree q (List.mem_cons_of_mem p hq))]

theorem nbrList_eq {g : DependencyGraph} {nm : CName} {node : DependencyNode}
    (h : getNode g.nodesByName nm = some node) (dir : DependencyDirection) :
    nbrList g dir nm
      = (match dir with
        | .STARTUP => node.parents
        | .SHUTDOWN => node.children) := by
  unfold nbrList
  rw [h]

theorem refOptFun_congr {g : DependencyGraph} {dir : DependencyDirection}
    {m1 m2 : List (CName × SSInfo)} {nm : CName} {node : DependencyNode}
    (hgn : getNode g.nodesByName nm = some node)
    (hagree : ∀ p ∈ nbrList g dir nm, lookupSS m1 p = lookupSS m2 p) :
    refOptFun g dir m1 node = refOptFun g dir m2 node := by
  rw [nbrList_eq hgn dir] at hagree
  unfold refOptFun
  cases dir with
  | STARTUP =>
    dsimp only
    rw [mapM_lookup_congr node.parents m1 m2 hagree]
  | SHUTDOWN =>
    dsimp only
    rw [mapM_lookup_congr node.children m1 m2 hagree]

/-- After a successful schedule pass, re-running a step on the final
dictionary recomputes exactly the stored entry: the pass is a fixed point of
its own steps. -/
theorem ssRun_fix {g : DependencyGraph} {dir : DependencyDirection}
    {names : List CName} {m1 : List (CName × SSInfo)}
    (hnd : names.Nodup)
    (hnb : ∀ nm ∈ names, ∀ p ∈ nbrList g dir nm, earlierIn names p nm)
    (h1 : names.foldl (ssStep g dir) (some []) = some m1) :
    names.foldl (ssStep g dir) (some m1) = some m1 := by
  have hkeysnd : (m1.map (fun p => p.1)).Nodup := by
    refine ssFold_keys_nodup names [] m1 h1 ?_
    exact List.nodup_nil
  have hfix : ∀ nm ∈ names, ssStep g dir (some m1) nm = some m1 := by
    intro nm hmem
    obtain ⟨pre, suf, hsplit⟩ := List.mem_iff_append.mp hmem
    subst hsplit
    obtain ⟨mA, mid, hA, hstep, hsuf⟩ := ssFold_split h1
    have hndm : nm ∉ pre ∧ nm ∉ suf := by
      rw [List.nodup_append] at hnd
      obtain ⟨h1a, h1b, h1c⟩ := hnd
      refine ⟨fun hm => h1c hm (List.mem_cons_self nm suf), ?_⟩
      exact (List.nodup_cons.mp h1b).1
    have hf1 : ∀ q, q ∉ suf → lookupSS m1 q = lookupSS mid q :=
      fun q hq => ssFold_lookup_frame suf mid m1 q hsuf hq
    rw [ssStep_eq] at hstep
    cases hgn : getNode g.nodesByName nm with
    | none =>
      rw [hgn] at hstep
      cases hstep
    | some node =>
      rw [hgn] at hstep
      dsimp only at hstep
      cases href : refOptFun g dir
          (if (lookupSS mA nm).isSome then mA else mA ++ [(nm, ({} : SSInfo))])
          node with
      | none =>
        rw [href] at hstep
        cases hstep
      | some refTime =>
        rw [href] at hstep
        injection hstep with hstep
        have hm'some : (lookupSS (if (lookupSS mA nm).isSome then mA
            else mA ++ [(nm, ({} : SSInfo))]) nm).isSome = true := by
          by_cases hs : (lookupSS mA nm).isSome
          · rw [if_pos hs]
            exact hs
          · rw [if_neg hs]
            rw [lookupSS_append_self (Option.not_isSome_iff_eq_none.mp hs)]
            rfl
        have hmid_self : lookupSS mid nm
            = some (newEntryFun dir refTime node
              ((lookupSS (if (lookupSS mA nm).isSome then mA
                else mA ++ [(nm, ({} : SSInfo))]) nm).getD ({} : SSInfo))) := by
          rw [← hstep]
          exact lookupSS_setSS_self hm'some
        have hm1_self : lookupSS m1 nm
            = some (newEntryFun dir refTime node
              ((lookupSS (if (lookupSS mA nm).isSome then mA
                else mA ++ [(nm, ({} : SSInfo))]) nm).getD ({} : SSInfo))) := by
          rw [hf1 nm hndm.2]
          exact hmid_self
        have hpagree : ∀ p ∈ nbrList g dir nm, lookupSS m1 p
            = lookupSS (if (lookupSS mA nm).isSome then mA
              else mA ++ [(nm, ({} : SSInfo))]) p := by
          intro p hp
          have hearlier := hnb nm hmem p hp
          have hp_pre : p ∈ pre := earlierIn_split hnd hearlier
          have hp_ne : p ≠ nm := by
            intro h2
            rw [h2] at hp_pre
            exact hndm.1 hp_pre
          have hp_nsuf : p ∉ suf := by
            intro h2
            rw [List.nodup_append] at hnd
            exact hnd.2.2 hp_pre (List.mem_cons_of_mem nm h2)
          rw [hf1 p hp_nsuf, ← hstep, lookupSS_setSS_other hp_ne]
        have hrefsame : refOptFun g dir m1 node = some refTime := by
          rw [refOptFun_congr hgn hpagree]
          exact href
        rw [ssStep_eq, hgn]
        dsimp only
        have hm1some : (lookupSS m1 nm).isSome = true := by
          rw [hm1_self]
          rfl
        rw [if_pos hm1some, hrefsame]
        dsimp only
        rw [hm1_self, Option.getD_some]
        have hEE : newEntryFun dir refTime node
            (newEntryFun dir refTime node
              ((lookupSS (if (lookupSS mA nm).isSome then mA
                else mA ++ [(nm, ({} : SSInfo))]) nm).getD ({} : SSInfo)))
            = newEntryFun dir refTime node
              ((lookupSS (if (lookupSS mA nm).isSome then mA
                else mA ++ [(nm, ({} : SSInfo))]) nm).getD ({} : SSInfo)) := by
          cases dir <;> rfl
        rw [hEE, setSS_self hkeysnd hm1_self]
  have hgen : ∀ (l : List CName), (∀ nm ∈ l, ssStep g dir (some m1) nm = some m1) →
      l.foldl (ssStep g dir) (some m1) = some m1 := by
    intro l
    induction l with
    | nil => intro _; rfl
    | cons nm rest ih =>
      intro hall
      rw [List.foldl_cons, hall nm (List.mem_cons_self nm rest)]
      exact ih (fun q hq => hall q (List.mem_cons_of_mem nm hq))
  exact hgen names hfix

/-! The claims. -/

/-- C1: whenever construction completes (strict or not), the surviving edge
set is acyclic and `start_tsorted_names` lists every node name exactly once,
with every surviving edge `A → B` placing `A` strictly before `B`. -/
theorem claim_C1_topological_order {comps : List (CName × CompAttrs)}
    {deps : List (CName × CName)} {strict : Bool} {g : DependencyGraph}
    (h : buildCore comps deps strict = .ok g) :
    (¬ ∃ a, Relation.TransGen (edgeC g.nodesByName) a a) ∧
    g.start_tsorted_names.Nodup ∧
    (∀ x, x ∈ g.start_tsorted_names ↔ x ∈ nodeNames g.nodesByName) ∧
    (∀ x y, edgeC g.nodesByName x y → earlierIn g.start_tsorted_names x y) := by
  obtain ⟨_, _, _, _, _, htm, htnd, hord, hacyc, _, _⟩ := buildCore_spec h
  exact ⟨hacyc, htnd, htm, hord⟩

theorem claim_C1_witness :
    buildCore chainComps chainDeps false = .ok (getOk (buildCore chainComps chainDeps false)) ∧
    ((¬ ∃ a, Relation.TransGen
        (edgeC (getOk (buildCore chainComps chainDeps false)).nodesByName) a a) ∧
      (getOk (buildCore chainComps chainDeps false)).start_tsorted_names.Nodup ∧
      (∀ x, x ∈ (getOk (buildCore chainComps chainDeps false)).start_tsorted_names ↔
        x ∈ nodeNames (getOk (buildCore chainComps chainDeps false)).nodesByName) ∧
      (∀ x y, edgeC (getOk (buildCore chainComps chainDeps false)).nodesByName x y →
        earlierIn (getOk (buildCore chainComps chainDeps false)).start_tsorted_names x y)) :=
  ⟨rfl, claim_C1_topological_order (show buildCore chainComps chainDeps false
    = .ok (getOk (buildCore chainComps chainDeps false)) from rfl)⟩

/-- C4: on well-formed input, strict construction reports the cycle error
exactly on cyclic dependency sets, and succeeds on every acyclic one. -/
theorem claim_C4_strict_cycle_iff {comps : List (CName × CompAttrs)}
    {deps : List (CName × CName)} (hv : validInput comps deps) :
    ((∃ msg, buildCore comps deps true = .error (.cycleErr msg)) ↔ hasCycle deps) ∧
    (¬ hasCycle deps → ∃ g, buildCore comps deps true = .ok g) := by
  rcases @buildCore_dichotomy comps deps true hv with ⟨g, hg⟩ | ⟨_, hcyc, msg, herr⟩
  · obtain ⟨_, _, _, hunion, _, _, _, _, hacyc, hrejnil, _⟩ := buildCore_spec hg
    have hnc : ¬ hasCycle deps := by
      rintro ⟨a, htg⟩
      refine hacyc ⟨a, Relation.TransGen.mono ?_ htg⟩
      intro x y hxy
      rcases (hunion x y).mp hxy with he | hr
      · exact he
      · rw [hrejnil rfl] at hr
        cases hr
    refine ⟨⟨?_, ?_⟩, fun _ => ⟨g, hg⟩⟩
    · rintro ⟨msg, herr⟩
      rw [hg] at herr
      cases herr
    · intro hc
      exact absurd hc hnc
  · exact ⟨⟨fun _ => hcyc, fun _ => ⟨msg, herr⟩⟩, fun hnc => absurd hcyc hnc⟩

theorem claim_C4_witness :
    validInput cyc2Comps cyc2Deps ∧
    (((∃ msg, buildCore cyc2Comps cyc2Deps true = .error (.cycleErr msg)) ↔
        hasCycle cyc2Deps) ∧
      (¬ hasCycle cyc2Deps → ∃ g, buildCore cyc2Comps cyc2Deps true = .ok g)) :=
  ⟨by decide, claim_C4_strict_cycle_iff (by decide)⟩

/-- C5: non-strict construction always succeeds on well-formed input (cyclic
ones included); the surviving edges together with the recorded rejected
pairs are exactly the input dependency set, and the surviving edges are
acyclic. -/
theorem claim_C5_nonstrict_union {comps : List (CName × CompAttrs)}
    {deps : List (CName × CName)} (hv : validInput comps deps) :
    ∃ g, buildCore comps deps false = .ok g ∧
      (∀ x y, (x, y) ∈ deps ↔
        (edgeC g.nodesByName x y ∨ (x, y) ∈ g.rejected_dependencies)) ∧
      (¬ ∃ a, Relation.TransGen (edgeC g.nodesByName) a a) := by
  rcases @buildCore_dichotomy comps deps false hv with ⟨g, hg⟩ | ⟨hs, _, _⟩
  · obtain ⟨_, _, _, hunion, _, _, _, _, hacyc, _, _⟩ := buildCore_spec hg
    exact ⟨g, hg, hunion, hacyc⟩
  · cases hs

theorem claim_C5_witness :
    validInput cyc2Comps cyc2Deps ∧
    (∃ g, buildCore cyc2Comps cyc2Deps false = .ok g ∧
      (∀ x y, (x, y) ∈ cyc2Deps ↔
        (edgeC g.nodesByName x y ∨ (x, y) ∈ g.rejected_dependencies)) ∧
      (¬ ∃ a, Relation.TransGen (edgeC g.nodesByName) a a)) :=
  ⟨by decide, claim_C5_nonstrict_union (by decide)⟩

/-- C6 (amended): the edges excised by non-strict remediation all come from
the input dependency set, they are recorded rather than silently dropped,
and their removal leaves the surviving edges acyclic — but the removed set
is not always a minimum one (see the counterexample). -/
theorem claim_C6_excision_sufficient {comps : List (CName × CompAttrs)}
    {deps : List (CName × CName)} (hv : validInput comps deps) :
    ∃ g, buildCore comps deps false = .ok g ∧
      (∀ d ∈ g.rejected_dependencies, d ∈ deps) ∧
      (¬ ∃ a, Relation.TransGen (edgeC g.nodesByName) a a) := by
  rcases @buildCore_dichotomy comps deps false hv with ⟨g, hg⟩ | ⟨hs, _, _⟩
  · obtain ⟨_, _, _, hunion, _, _, _, _, hacyc, _, _⟩ := buildCore_spec hg
    refine ⟨g, hg, ?_, hacyc⟩
    intro d hd
    obtain ⟨x, y⟩ := d
    exact (hunion x y).mpr (Or.inr hd)
  · cases hs

theorem claim_C6_witness :
    validInput c6Comps c6Deps ∧
    (∃ g, buildCore c6Comps c6Deps false = .ok g ∧
      (∀ d ∈ g.rejected_dependencies, d ∈ c6Deps) ∧
      (¬ ∃ a, Relation.TransGen (edgeC g.nodesByName) a a)) :=
  ⟨by decide, claim_C6_excision_sufficient (by decide)⟩

/-- C6 (counterexample to minimality): on `a ↔ b` with an extra edge
`c → b`, non-strict remediation rejects the two edges `(a, b)` and `(c, b)`,
yet removing the single input edge `(a, b)` already leaves an acyclic
dependency set — so the excised set is not minimum. -/
theorem claim_C6_counterexample :
    ∃ g, buildCore c6Comps c6Deps false = .ok g ∧
      g.rejected_dependencies = [("a", "b"), ("c", "b")] ∧
      ¬ hasCycle (c6Deps.erase ("a", "b")) := by
  refine ⟨getOk (buildCore c6Comps c6Deps false), rfl, rfl, ?_⟩
  rw [show c6Deps.erase ("a", "b") = [("b", "a"), ("c", "b")] from rfl]
  unfold hasCycle
  refine acyclic_of_rank (fun x => if x = "b" then 1 else if x = "c" then 2 else 0) ?_
  intro x y h
  unfold depRel at h
  rcases List.mem_cons.mp h with h1 | h1
  · rw [Prod.mk.injEq] at h1
    obtain ⟨hx, hy⟩ := h1
    subst hx
    subst hy
    decide
  · rcases List.mem_cons.mp h1 with h2 | h2
    · rw [Prod.mk.injEq] at h2
      obtain ⟨hx, hy⟩ := h2
      subst hx
      subst hy
      decide
    · cases h2

/-- C7: after a completed construction the edge dictionaries are symmetric:
`X ∈ A.children` exactly when `A ∈ X.parents`. -/
theorem claim_C7_edge_symmetry {comps : List (CName × CompAttrs)}
    {deps : List (CName × CName)} {strict : Bool} {g : DependencyGraph}
    (h : buildCore comps deps strict = .ok g) :
    ∀ x y, edgeC g.nodesByName x y ↔ edgeP g.nodesByName x y := by
  obtain ⟨_, _, hsym, _, _, _, _, _, _, _, _⟩ := buildCore_spec h
  exact hsym

theorem claim_C7_witness :
    buildCore c6Comps c6Deps false = .ok (getOk (buildCore c6Comps c6Deps false)) ∧
    (∀ x y, edgeC (getOk (buildCore c6Comps c6Deps false)).nodesByName x y ↔
      edgeP (getOk (buildCore c6Comps c6Deps false)).nodesByName x y) :=
  ⟨rfl, claim_C7_edge_symmetry (show buildCore c6Comps c6Deps false
    = .ok (getOk (buildCore c6Comps c6Deps false)) from rfl)⟩

/-- C8: the verbosity option never changes an outcome: two constructions
differing only in verbosity yield the same result up to the stored verbosity
label, fail with the same errors, and give the same schedule dictionaries. -/
theorem claim_C8_verbosity_irrelevant (comps : List (CName × CompAttrs))
    (deps : List (CName × CName)) (strict : Bool) (v1 v2 : Int)
    (dir : DependencyDirection) :
    ((build comps deps strict v1).map (fun g => { g with verbosity := v2 })
      = build comps deps strict v2) ∧
    (∀ e, build comps deps strict v1 = .error e ↔
      build comps deps strict v2 = .error e) ∧
    ((build comps deps strict v1).map
        (fun g => (set_startStopInfoByName g dir).map
          (fun h => h.startStopInfoByName))
      = (build comps deps strict v2).map
        (fun g => (set_startStopInfoByName g dir).map
          (fun h => h.startStopInfoByName))) := by
  unfold build
  cases hc : buildCore comps deps strict with
  | error e =>
    refine ⟨rfl, fun e2 => Iff.rfl, rfl⟩
  | ok g =>
    refine ⟨rfl, ?_, ?_⟩
    · intro e2
      constructor
      · intro h2
        exact Except.noConfusion h2
      · intro h2
        exact Except.noConfusion h2
    · show Except.ok ((set_startStopInfoByName { g with verbosity := v1 } dir).map
          (fun h2 => h2.startStopInfoByName))
        = Except.ok ((set_startStopInfoByName { g with verbosity := v2 } dir).map
          (fun h2 => h2.startStopInfoByName))
      rw [set_ss_verbosity g v1 dir, set_ss_verbosity g v2 dir,
        Option.map_map, Option.map_map]
      rfl

/-- C10: the schedule pass is pure bookkeeping on `startStopInfoByName`: the
node dictionaries, roots, leaves, order, rejected list, mode and verbosity
are untouched. -/
theorem claim_C10_frame {g g2 : DependencyGraph} {dir : DependencyDirection}
    (h : set_startStopInfoByName g dir = some g2) :
    g2.nodesByName = g.nodesByName ∧ g2.rootsByName = g.rootsByName ∧
    g2.leavesByName = g.leavesByName ∧
    g2.start_tsorted_names = g.start_tsorted_names ∧
    g2.rejected_dependencies = g.rejected_dependencies ∧
    g2.is_strict = g.is_strict ∧ g2.verbosity = g.verbosity := by
  have hunf : set_startStopInfoByName g dir
      = ((match dir with
        | .STARTUP => g.start_tsorted_names
        | .SHUTDOWN => g.start_tsorted_names.reverse).foldl (ssStep g dir)
          (some g.startStopInfoByName)).map
        (fun m => { g with startStopInfoByName := m }) := rfl
  rw [hunf] at h
  cases hm : (match dir with
      | .STARTUP => g.start_tsorted_names
      | .SHUTDOWN => g.start_tsorted_names.reverse).foldl (ssStep g dir)
        (some g.startStopInfoByName) with
  | none =>
    rw [hm] at h
    cases h
  | some m =>
    rw [hm] at h
    injection h with h
    rw [← h]
    exact ⟨rfl, rfl, rfl, rfl, rfl, rfl, rfl⟩

theorem claim_C10_witness :
    set_startStopInfoByName (getOk (buildCore chainComps chainDeps false)) .STARTUP
      = some ((set_startStopInfoByName (getOk (buildCore chainComps chainDeps false))
          .STARTUP).getD dgDefault) ∧
    (((set_startStopInfoByName (getOk (buildCore chainComps chainDeps false))
          .STARTUP).getD dgDefault).nodesByName
        = (getOk (buildCore chainComps chainDeps false)).nodesByName ∧
      ((set_startStopInfoByName (getOk (buildCore chainComps chainDeps false))
          .STARTUP).getD dgDefault).rootsByName
        = (getOk (buildCore chainComps chainDeps false)).rootsByName ∧
      ((set_startStopInfoByName (getOk (buildCore chainComps chainDeps false))
          .STARTUP).getD dgDefault).leavesByName
        = (getOk (buildCore chainComps chainDeps false)).leavesByName ∧
      ((set_startStopInfoByName (getOk (buildCore chainComps chainDeps false))
          .STARTUP).getD dgDefault).start_tsorted_names
        = (getOk (buildCore chainComps chainDeps false)).start_tsorted_names ∧
      ((set_startStopInfoByName (getOk (buildCore chainComps chainDeps false))
          .STARTUP).getD dgDefault).rejected_dependencies
        = (getOk (buildCore chainComps chainDeps false)).rejected_dependencies ∧
      ((set_startStopInfoByName (getOk (buildCore chainComps chainDeps false))
          .STARTUP).getD dgDefault).is_strict
        = (getOk (buildCore chainComps chainDeps false)).is_strict ∧
      ((set_startStopInfoByName (getOk (buildCore chainComps chainDeps false))
          .STARTUP).getD dgDefault).verbosity
        = (getOk (buildCore chainComps chainDeps false)).verbosity) :=
  ⟨rfl, claim_C10_frame (show set_startStopInfoByName
    (getOk (buildCore chainComps chainDeps false)) .STARTUP
    = some ((set_startStopInfoByName (getOk (buildCore chainComps chainDeps false))
        .STARTUP).getD dgDefault) from rfl)⟩

/-- C2 (divergence exhibit): with parent startup durations of one day and
one minute, the startup pass picks the parent with the transposed-key
maximum — `beginStartup` of the dependent comes out as one minute where the
specification's plain maximum of the parents' `endStartup` values is one
day. -/
theorem claim_C2_startup_max_divergence :
    ∃ g g2, buildCore c2Comps c2Deps false = .ok g ∧
      set_startStopInfoByName g .STARTUP = some g2 ∧
      (lookupSS g2.startStopInfoByName "p1").bind (fun e => e.endStartup)
        = some 86400 ∧
      (lookupSS g2.startStopInfoByName "p2").bind (fun e => e.endStartup)
        = some 60 ∧
      (lookupSS g2.startStopInfoByName "n").bind (fun e => e.beginStartup)
        = some 60 ∧
      specMax [86400, 60] = some 86400 ∧
      (60 : TDelta) ≠ 86400 := by
  refine ⟨getOk (buildCore c2Comps c2Deps false),
    (set_startStopInfoByName (getOk (buildCore c2Comps c2Deps false))
      .STARTUP).getD dgDefault, rfl, rfl, rfl, rfl, rfl, rfl, by decide⟩

/-- C3 (divergence exhibit): with child shutdown durations just above and
exactly one day, the shutdown pass picks the child with the transposed-key
minimum — `endShutdown` of the parent comes out as minus one day where the
specification's plain minimum of the children's `beginShutdown` values is
minus one day minus one minute. -/
theorem claim_C3_shutdown_min_divergence :
    ∃ g g2, buildCore c3Comps c3Deps false = .ok g ∧
      set_startStopInfoByName g .SHUTDOWN = some g2 ∧
      (lookupSS g2.startStopInfoByName "c1").bind (fun e => e.beginShutdown)
        = some (-86460) ∧
      (lookupSS g2.startStopInfoByName "c2").bind (fun e => e.beginShutdown)
        = some (-86400) ∧
      (lookupSS g2.startStopInfoByName "n").bind (fun e => e.endShutdown)
        = some (-86400) ∧
      specMin [-86460, -86400] = some (-86460) ∧
      ((-86400 : TDelta) ≠ -86460) := by
  refine ⟨getOk (buildCore c3Comps c3Deps false),
    (set_startStopInfoByName (getOk (buildCore c3Comps c3Deps false))
      .SHUTDOWN).getD dgDefault, rfl, rfl, rfl, rfl, rfl, rfl, by decide⟩

/-- C9: the schedule propagator is idempotent — after a successful pass over
a constructed graph, re-running the pass in the same direction returns the
graph (and so every per-node begin/end time) unchanged. -/
theorem claim_C9_idempotent {comps : List (CName × CompAttrs)}
    {deps : List (CName × CName)} {strict : Bool} {g g2 : DependencyGraph}
    {dir : DependencyDirection}
    (hok : buildCore comps deps strict = .ok g)
    (h1 : set_startStopInfoByName g dir = some g2) :
    set_startStopInfoByName g2 dir = some g2 := by
  obtain ⟨_, _, hsym, _, _, _, htnd, hord, _, _, hss0⟩ := buildCore_spec hok
  cases dir with
  | STARTUP =>
    have hhnb : ∀ nm ∈ g.start_tsorted_names,
        ∀ p ∈ nbrList g .STARTUP nm, earlierIn g.start_tsorted_names p nm := by
      intro nm _ p hp
      unfold nbrList at hp
      cases hgn : getNode g.nodesByName nm with
      | none =>
        rw [hgn] at hp
        cases hp
      | some node =>
        rw [hgn] at hp
        dsimp only at hp
        have hep : edgeP g.nodesByName p nm := by
          unfold edgeP nParents
          rw [hgn, Option.map_some', Option.getD_some]
          exact hp
        exact hord p nm ((hsym p nm).mpr hep)
    have hunf : set_startStopInfoByName g .STARTUP
        = (g.start_tsorted_names.foldl (ssStep g .STARTUP)
            (some g.startStopInfoByName)).map
          (fun m => { g with startStopInfoByName := m }) := rfl
    rw [hunf, hss0] at h1
    cases hm : g.start_tsorted_names.foldl (ssStep g .STARTUP) (some []) with
    | none =>
      rw [hm] at h1
      cases h1
    | some m1 =>
      rw [hm] at h1
      injection h1 with h1
      subst h1
      have hfix := ssRun_fix htnd hhnb hm
      have hfin : set_startStopInfoByName
          { g with startStopInfoByName := m1 } .STARTUP
          = (g.start_tsorted_names.foldl (ssStep g .STARTUP) (some m1)).map
            (fun m => { g with startStopInfoByName := m }) := rfl
      rw [hfin, hfix]
      rfl
  | SHUTDOWN =>
    have hndr : g.start_tsorted_names.reverse.Nodup := List.nodup_reverse.mpr htnd
    have hhnb : ∀ nm ∈ g.start_tsorted_names.reverse,
        ∀ p ∈ nbrList g .SHUTDOWN nm,
        earlierIn g.start_tsorted_names.reverse p nm := by
      intro nm _ p hp
      unfold nbrList at hp
      cases hgn : getNode g.nodesByName nm with
      | none =>
        rw [hgn] at hp
        cases hp
      | some node =>
        rw [hgn] at hp
        dsimp only at hp
        have hec : edgeC g.nodesByName nm p := by
          unfold edgeC nChildren
          rw [hgn, Option.map_some', Option.getD_some]
          exact hp
        exact earlierIn_reverse (hord nm p hec)
    have hunf : set_startStopInfoByName g .SHUTDOWN
        = (g.start_tsorted_names.reverse.foldl (ssStep g .SHUTDOWN)
            (some g.startStopInfoByName)).map
          (fun m => { g with startStopInfoByName := m }) := rfl
    rw [hunf, hss0] at h1
    cases hm : g.start_tsorted_names.reverse.foldl (ssStep g .SHUTDOWN)
        (some []) with
    | none =>
      rw [hm] at h1
      cases h1
    | some m1 =>
      rw [hm] at h1
      injection h1 with h1
      subst h1
      have hfix := ssRun_fix hndr hhnb hm
      have hfin : set_startStopInfoByName
          { g with startStopInfoByName := m1 } .SHUTDOWN
          = (g.start_tsorted_names.reverse.foldl (ssStep g .SHUTDOWN)
            (some m1)).map
            (fun m => { g with startStopInfoByName := m }) := rfl
      rw [hfin, hfix]
      rfl

theorem claim_C9_witness :
    buildCore chainComps chainDeps false
      = .ok (getOk (buildCore chainComps chainDeps false)) ∧
    set_startStopInfoByName (getOk (buildCore chainComps chainDeps false)) .STARTUP
      = some ((set_startStopInfoByName
          (getOk (buildCore chainComps chainDeps false)) .STARTUP).getD dgDefault) ∧
    set_startStopInfoByName ((set_startStopInfoByName
        (getOk (buildCore chainComps chainDeps false)) .STARTUP).getD dgDefault)
        .STARTUP
      = some ((set_startStopInfoByName
          (getOk (buildCore chainComps chainDeps false)) .STARTUP).getD dgDefault) :=
  ⟨rfl, rfl, claim_C9_idempotent
    (show buildCore chainComps chainDeps false
      = .ok (getOk (buildCore chainComps chainDeps false)) from rfl)
    (show set_startStopInfoByName
        (getOk (buildCore chainComps chainDeps false)) .STARTUP
      = some ((set_startStopInfoByName
          (getOk (buildCore chainComps chainDeps false)) .STARTUP).getD dgDefault)
      from rfl)⟩

end DepGraph
